import Mathlib

/-!
# Throttle map and deferred-task queue of the recursor

A shallow embedding of

* `Throttle<Thing>`, `fails_t<T>`, `DecayingEwma` (`pdns/syncres.hh`),
* `SyncRes::isUnsupported`, `SyncRes::ednsstatus_t`, `SyncRes::getEDNSStatus`,
  `SyncRes::DecayingEwmaCollection`, `SyncRes::submitNSSpeed`,
  `SyncRes::getNSSpeed` (`pdns/syncres.hh`),
* `TimedSet`, `pushResolveTask`, `pushAlmostExpiredTask`, `taskQueueClear`,
  `resolve`, `runTaskOnce` and the statistics getters
  (`pdns/recursordist/rec-taskqueue.cc`),
* `SyncRes::pruneNSSpeeds`, `SyncRes::AuthDomain`, `PacketID` and its two
  comparison predicates (`pdns/syncres.hh`),
* `normalizeTV` and the `timeval` operators, `stripDomainSuffix`, `burtle` and
  `burtleCI` (`pdns/misc.cc`).

Conventions.

* `time_t` is modelled by `Int` (signed overflow of `now + ttl` is undefined
  behaviour in the source and is not modelled).
* `unsigned int` counts are `Nat`; the only arithmetic on them that could wrap
  is written with an explicit modulus (`d_count` of `TimedSet`).  The decrement
  `i->count--` of `Throttle::shouldThrottle` is only reached when
  `i->count != 0`, so it never wraps.
* A C++ function that may let a thrown value out returns `Except`; `float`
  arithmetic is read over an ordered field (the reals in the theorems).
* A `boost::multi_index_container` is a list of its entries.  The order of the
  list carries no meaning; the `ordered_unique` index is the lookup by key
  (`find`), the `ordered_non_unique` index on the expiry is the list sorted by
  expiry (`timeIndex`).  The uniqueness that the container enforces is the
  predicate `UniqueKeys`; every operation is shown to preserve it.
-/

namespace MultiIndex

variable {ε κ : Type}

/-- The container holds at most one entry per key (the `ordered_unique` index). -/
def UniqueKeys (key : ε → κ) (c : List ε) : Prop := (c.map key).Nodup

instance instDecidableUniqueKeys [DecidableEq κ] (key : ε → κ) (c : List ε) :
    Decidable (UniqueKeys key c) :=
  inferInstanceAs (Decidable (c.map key).Nodup)

/-- The entries the container holds for key `k`, in list order. -/
def entriesFor [DecidableEq κ] (key : ε → κ) (c : List ε) (k : κ) : List ε :=
  c.filter (fun e => decide (key e = k))

/-- Container call `find(k)` on the unique index: the entry with key `k`, if any. -/
def find [DecidableEq κ] (key : ε → κ) (c : List ε) (k : κ) : Option ε :=
  c.find? (fun e => decide (key e = k))

/-- Container call `erase(i)` where `i` is the iterator found for key `k`: that one entry goes. -/
def erase [DecidableEq κ] (key : ε → κ) (c : List ε) (k : κ) : List ε :=
  c.eraseP (fun e => decide (key e = k))

/-- In-place update of the entry found for key `k` (`i->count--`, `ind.modify(i, f)`). -/
def modify [DecidableEq κ] (key : ε → κ) (f : ε → ε) (k : κ) : List ε → List ε
  | [] => []
  | e :: c => if key e = k then f e :: c else e :: modify key f k c

/-- Insertion of `e` at its place in a list ordered by expiry, after its equals. -/
def orderedInsert (ttd : ε → Int) (e : ε) : List ε → List ε
  | [] => [e]
  | a :: l => if ttd e < ttd a then e :: a :: l else a :: orderedInsert ttd e l

/-- The `ordered_non_unique` index on the expiry: the entries by ascending expiry. -/
def timeIndex (ttd : ε → Int) : List ε → List ε
  | [] => []
  | e :: c => orderedInsert ttd e (timeIndex ttd c)

/-- Ascending order of the expiry along a list. -/
def Ascending (ttd : ε → Int) (l : List ε) : Prop :=
  l.Pairwise (fun a b => ttd a ≤ ttd b)

end MultiIndex

namespace Throttle

/-- Source `Throttle<Thing>::entry_t`. -/
structure entry_t (Thing : Type) where
  thing : Thing
  ttd : Int
  count : Nat
deriving DecidableEq, Repr

/-- Source `Throttle<Thing>::cont_t`. -/
abbrev cont_t (Thing : Type) := List (entry_t Thing)

variable {Thing : Type} [DecidableEq Thing]

/-- Source `Throttle::shouldThrottle(now, t)`: the returned flag and the map afterwards. -/
def shouldThrottle (d_cont : cont_t Thing) (now : Int) (t : Thing) : Bool × cont_t Thing :=
  match MultiIndex.find entry_t.thing d_cont t with
  | none => (false, d_cont)
  | some i =>
    if now > i.ttd ∨ i.count = 0 then
      (false, MultiIndex.erase entry_t.thing d_cont t)
    else
      (true, MultiIndex.modify entry_t.thing (fun e => { e with count := e.count - 1 }) t d_cont)

/-- Source `Throttle::throttle(now, t, ttl, count)`: the map afterwards. -/
def throttle (d_cont : cont_t Thing) (now : Int) (t : Thing) (ttl : Int) (count : Nat) :
    cont_t Thing :=
  let ttd := now + ttl
  match MultiIndex.find entry_t.thing d_cont t with
  | none => d_cont ++ [{ thing := t, ttd := ttd, count := count }]
  | some i =>
    if ttd > i.ttd ∨ count > i.count then
      let ttd1 := max i.ttd ttd
      let count1 := max i.count count
      MultiIndex.modify entry_t.thing (fun e => { e with ttd := ttd1, count := count1 }) t d_cont
    else d_cont

/-- Source `Throttle::size()`. -/
def size (d_cont : cont_t Thing) : Nat := d_cont.length

/-- Source `Throttle::clear()`. -/
def clear (_d_cont : cont_t Thing) : cont_t Thing := []

/-- Source `Throttle::prune()`, with the value `now` that `time(nullptr)` returned:
`ind.erase(ind.begin(), ind.upper_bound(now))` on the expiry index. -/
def prune (d_cont : cont_t Thing) (now : Int) : cont_t Thing :=
  (MultiIndex.timeIndex entry_t.ttd d_cont).dropWhile (fun e => decide (e.ttd ≤ now))

/-- An operation on the throttle map in the life of an entry for a key `k` that
was throttled at time `now`: a lookup of `k` itself at `now + d`, or an
operation on another key, or a prune at some wall-clock time. -/
inductive Op (Thing : Type) where
  | ask (d : Int)
  | askOther (tm : Int) (t : Thing)
  | throttleOther (tm : Int) (t : Thing) (ttl : Int) (count : Nat)
  | pruneAt (wall : Int)
deriving DecidableEq, Repr

/-- The operation does not touch the entry of `k` other than by a lookup of `k`
before its expiry `now + ttl`: lookups of `k` come with `d < ttl`, the other
lookups and upserts are for other keys, and a prune runs before the expiry. -/
def Op.Allowed (now ttl : Int) (k : Thing) : Op Thing → Prop
  | .ask d => d < ttl
  | .askOther _ t => t ≠ k
  | .throttleOther _ t _ _ => t ≠ k
  | .pruneAt wall => wall < now + ttl

/-- The number of lookups of `k` in a list of operations. -/
def asks : List (Op Thing) → Nat
  | [] => 0
  | .ask _ :: ops => asks ops + 1
  | _ :: ops => asks ops

/-- Running a list of operations in order: the answers of the lookups of `k`,
in order, and the map at the end. -/
def runOps (now : Int) (k : Thing) : cont_t Thing → List (Op Thing) → List Bool × cont_t Thing
  | c, [] => ([], c)
  | c, .ask d :: ops =>
    let r := shouldThrottle c (now + d) k
    let rest := runOps now k r.2 ops
    (r.1 :: rest.1, rest.2)
  | c, .askOther tm t :: ops => runOps now k (shouldThrottle c tm t).2 ops
  | c, .throttleOther tm t ttl count :: ops => runOps now k (throttle c tm t ttl count) ops
  | c, .pruneAt wall :: ops => runOps now k (prune c wall) ops

end Throttle

namespace SyncRes

/-- The codes of the two internal pseudo-types `QType::ENT` and `QType::ADDR`.
The enumeration `QType::typeenum` is declared in `qtype.hh`, which is not among
the sources, so the two codes are parameters of the development. -/
structure QTypeCodes where
  ENT : Nat
  ADDR : Nat
deriving DecidableEq, Repr

/-- Source `SyncRes::isUnsupported(qtype)`: the `switch` on `qtype.getCode()`. -/
def isUnsupported (Q : QTypeCodes) (qtype : Nat) : Bool :=
  if qtype = Q.ENT then true
  else if qtype = Q.ADDR then true
  else false

end SyncRes

namespace pdns

/-- Modelled from the spec: `pdns::ResolveTask` is declared in `taskqueue.hh`,
which is not among the sources.  The spec gives a resolve task as
(name, type, deadline, refresh-mode flag, resolver callback); the fields carry
the names used by `rec-taskqueue.cc`.  The callback is `resolve` for every task
built in `rec-taskqueue.cc` and is left out.  `d_qtype` is a `uint16_t`. -/
structure ResolveTask (Name : Type) where
  d_qname : Name
  d_qtype : Nat
  d_deadline : Int
  d_refreshMode : Bool
deriving DecidableEq, Repr

/-- Modelled from the spec: the comparison of `pdns::ResolveTask`
(`taskqueue.hh`, not among the sources).  "Equality and ordering are defined
solely by (name, type, refresh-mode)". -/
def ResolveTask.key {Name : Type} (t : ResolveTask Name) : Name × Nat × Bool :=
  (t.d_qname, t.d_qtype, t.d_refreshMode)

/-- Modelled from the spec: `pdns::TaskQueue` (`taskqueue.hh`, `taskqueue.cc`,
not among the sources).  "A FIFO-like ordered queue keyed by (name, type,
refresh-mode)"; "the task queue contains at most one entry per (name, type,
refresh-mode)"; "FIFO per insertion order, modulo de-duplication rejections".
`d_expired` is the counter behind `incExpired()` and `getExpired()`. -/
structure TaskQueue (Name : Type) where
  d_queue : List (ResolveTask Name)
  d_expired : Nat
deriving DecidableEq, Repr

/-- Modelled from the spec: `TaskQueue::push`, appending at the back unless a
task with the same (name, type, refresh-mode) is queued already. -/
def TaskQueue.push {Name : Type} [DecidableEq Name] (q : TaskQueue Name)
    (task : ResolveTask Name) : TaskQueue Name :=
  match MultiIndex.find ResolveTask.key q.d_queue task.key with
  | some _ => q
  | none => { q with d_queue := q.d_queue ++ [task] }

/-- Modelled from the spec: `TaskQueue::size`. -/
def TaskQueue.size {Name : Type} (q : TaskQueue Name) : Nat := q.d_queue.length

/-- Modelled from the spec: `TaskQueue::clear`, dropping every queued task. -/
def TaskQueue.clear {Name : Type} (q : TaskQueue Name) : TaskQueue Name :=
  { q with d_queue := [] }

/-- Modelled from the spec: `TaskQueue::empty` (`taskqueue.hh`, not among the
sources), true when no task is queued. -/
def TaskQueue.empty {Name : Type} (q : TaskQueue Name) : Bool := q.d_queue.isEmpty

/-- Modelled from the spec: `TaskQueue::pop` (`taskqueue.cc`, not among the
sources).  "Otherwise pop one task"; "FIFO per insertion order": the task at the
front and the queue without it.  There is no result on an empty queue. -/
def TaskQueue.pop {Name : Type} (q : TaskQueue Name) :
    Option (ResolveTask Name × TaskQueue Name) :=
  match q.d_queue with
  | [] => none
  | task :: rest => some (task, { q with d_queue := rest })

/-- Modelled from the spec: `TaskQueue::incExpired` (`taskqueue.hh`, not among
the sources), "count the task as expired". -/
def TaskQueue.incExpired {Name : Type} (q : TaskQueue Name) : TaskQueue Name :=
  { q with d_expired := q.d_expired + 1 }

/-- Modelled from the spec: `TaskQueue::getExpired` (`taskqueue.hh`, not among
the sources), the number of tasks counted as expired. -/
def TaskQueue.getExpired {Name : Type} (q : TaskQueue Name) : Nat := q.d_expired

/-- Modelled from the spec: `ResolveTask::run(logErrors)` (`taskqueue.cc`, not
among the sources).  "If `now_wall > task.deadline`, count the task as expired
and return without running.  Otherwise invoke the resolver callback."  The
result is the flag "expired" and the state the callback left; `now_wall` is the
wall-clock second read by the call, `d_func` the callback of the task applied to
the task, `σ` the state it works on and `ε` what it may throw. -/
def ResolveTask.run {Name σ ε : Type} (task : ResolveTask Name) (now_wall : Int)
    (d_func : ResolveTask Name → σ → Except ε σ) (s : σ) : Except ε (Bool × σ) :=
  if now_wall > task.d_deadline then .ok (true, s)
  else
    match d_func task s with
    | .ok s1 => .ok (false, s1)
    | .error e => .error e

end pdns

namespace TimedSet

/-- Source `TimedSet::Entry`. -/
structure Entry (Name : Type) where
  d_task : pdns.ResolveTask Name
  d_ttd : Int
deriving DecidableEq, Repr

/-- The key of the `ordered_unique` index of `timed_set_t`: the task, compared
as `pdns::ResolveTask` values are. -/
def Entry.key {Name : Type} (e : Entry Name) : Name × Nat × Bool := e.d_task.key

end TimedSet

/-- Source `class TimedSet`: the set, the expiry and the insertion count
(`unsigned int`, 32 bits). -/
structure TimedSet (Name : Type) where
  d_set : List (TimedSet.Entry Name)
  d_expiry_seconds : Int
  d_count : Nat
deriving DecidableEq, Repr

namespace TimedSet

variable {Name : Type} [DecidableEq Name]

/-- The `while` loop of `TimedSet::purge` over the expiry index, from `it`
onwards, with the running count `erased`. -/
def purgeLoop (now : Int) : List (Entry Name) → Nat → Nat × List (Entry Name)
  | [], erased => (erased, [])
  | it :: rest, erased =>
    if it.d_ttd < now then purgeLoop now rest (erased + 1)
    else (erased, it :: rest)

/-- Source `TimedSet::purge(now)`: the number of erased entries and the set afterwards. -/
def purge (s : TimedSet Name) (now : Int) : Nat × TimedSet Name :=
  let r := purgeLoop now (MultiIndex.timeIndex Entry.d_ttd s.d_set) 0
  (r.1, { s with d_set := r.2 })

/-- Source call `d_set.emplace(task, ttd)`: `.second` and the set afterwards. -/
def emplace (d_set : List (Entry Name)) (task : pdns.ResolveTask Name) (ttd : Int) :
    Bool × List (Entry Name) :=
  match MultiIndex.find Entry.key d_set task.key with
  | some _ => (false, d_set)
  | none => (true, d_set ++ [{ d_task := task, d_ttd := ttd }])

/-- Source `TimedSet::insert(now, task)`: the returned flag and the set afterwards. -/
def insert (s : TimedSet Name) (now : Int) (task : pdns.ResolveTask Name) :
    Bool × TimedSet Name :=
  let s0 : TimedSet Name := { s with d_count := (s.d_count + 1) % 2 ^ 32 }
  let s1 := if s0.d_count % 1024 = 0 then (purge s0 now).2 else s0
  let ttd := now + s1.d_expiry_seconds
  let r := emplace s1.d_set task ttd
  if r.1 then (true, { s1 with d_set := r.2 })
  else
    let p := purge { s1 with d_set := r.2 } now
    if p.1 > 0 then
      let r2 := emplace p.2.d_set task ttd
      (r2.1, { p.2 with d_set := r2.2 })
    else (false, p.2)

/-- Source `TimedSet::clear()`. -/
def clear (s : TimedSet Name) : TimedSet Name := { s with d_set := [] }

end TimedSet

namespace TaskQueue

/-- Source `struct Queue`. -/
structure Queue (Name : Type) where
  queue : pdns.TaskQueue Name
  rateLimitSet : TimedSet Name
deriving DecidableEq, Repr

/-- Source `struct taskstats`.  The counters are `pdns::stat_t` (`stat_t.hh`, not among
the sources); they are counted in `Nat`. -/
structure taskstats where
  pushed : Nat
  run : Nat
  exceptions : Nat
deriving DecidableEq, Repr

/-- The static state of `rec-taskqueue.cc`. -/
structure State (Name : Type) where
  s_taskQueue : Queue Name
  s_almost_expired_tasks : taskstats
  s_resolve_tasks : taskstats
deriving DecidableEq, Repr

variable {Name : Type} [DecidableEq Name]

/-- The state at program start: `rateLimitSet{60}`, everything else zero. -/
def State.init : State Name :=
  { s_taskQueue := { queue := { d_queue := [], d_expired := 0 },
                     rateLimitSet := { d_set := [], d_expiry_seconds := 60, d_count := 0 } },
    s_almost_expired_tasks := { pushed := 0, run := 0, exceptions := 0 },
    s_resolve_tasks := { pushed := 0, run := 0, exceptions := 0 } }

/-- Source `pushAlmostExpiredTask(qname, qtype, deadline)`. -/
def pushAlmostExpiredTask (Q : SyncRes.QTypeCodes) (s : State Name) (qname : Name)
    (qtype : Nat) (deadline : Int) : State Name :=
  if SyncRes.isUnsupported Q qtype then s
  else
    let task : pdns.ResolveTask Name :=
      { d_qname := qname, d_qtype := qtype, d_deadline := deadline, d_refreshMode := true }
    { s with
      s_taskQueue := { s.s_taskQueue with queue := s.s_taskQueue.queue.push task },
      s_almost_expired_tasks :=
        { s.s_almost_expired_tasks with pushed := s.s_almost_expired_tasks.pushed + 1 } }

/-- Source `pushResolveTask(qname, qtype, now, deadline)`. -/
def pushResolveTask (Q : SyncRes.QTypeCodes) (s : State Name) (qname : Name)
    (qtype : Nat) (now deadline : Int) : State Name :=
  if SyncRes.isUnsupported Q qtype then s
  else
    let task : pdns.ResolveTask Name :=
      { d_qname := qname, d_qtype := qtype, d_deadline := deadline, d_refreshMode := false }
    let r := s.s_taskQueue.rateLimitSet.insert now task
    if r.1 then
      { s with
        s_taskQueue := { queue := s.s_taskQueue.queue.push task, rateLimitSet := r.2 },
        s_resolve_tasks := { s.s_resolve_tasks with pushed := s.s_resolve_tasks.pushed + 1 } }
    else
      { s with s_taskQueue := { s.s_taskQueue with rateLimitSet := r.2 } }

/-- Source `getTaskSize()`. -/
def getTaskSize (s : State Name) : Nat := s.s_taskQueue.queue.size

/-- Source `taskQueueClear()`. -/
def taskQueueClear (s : State Name) : State Name :=
  { s with s_taskQueue := { queue := s.s_taskQueue.queue.clear,
                            rateLimitSet := s.s_taskQueue.rateLimitSet.clear } }

/-- Source `getAlmostExpiredTasksPushed()`. -/
def getAlmostExpiredTasksPushed (s : State Name) : Nat := s.s_almost_expired_tasks.pushed

/-- Source `getAlmostExpiredTasksRun()`. -/
def getAlmostExpiredTasksRun (s : State Name) : Nat := s.s_almost_expired_tasks.run

/-- Source `getAlmostExpiredTaskExceptions()`. -/
def getAlmostExpiredTaskExceptions (s : State Name) : Nat := s.s_almost_expired_tasks.exceptions

/-- Source `getResolveTasksPushed()`. -/
def getResolveTasksPushed (s : State Name) : Nat := s.s_almost_expired_tasks.pushed

/-- Source `getResolveTasksRun()`. -/
def getResolveTasksRun (s : State Name) : Nat := s.s_almost_expired_tasks.run

/-- Source `getResolveTaskExceptions()`. -/
def getResolveTaskExceptions (s : State Name) : Nat := s.s_almost_expired_tasks.exceptions

/-- Exactly `n` calls `pushResolveTask(qname, qtype, now, deadline)` in a row. -/
def pushResolveTaskTimes (Q : SyncRes.QTypeCodes) (qname : Name) (qtype : Nat)
    (now deadline : Int) : Nat → State Name → State Name
  | 0, s => s
  | n + 1, s =>
    pushResolveTaskTimes Q qname qtype now deadline n (pushResolveTask Q s qname qtype now deadline)

/-- Source `getTaskExpired()`. -/
def getTaskExpired (s : State Name) : Nat := s.s_taskQueue.queue.getExpired

/-- What `sr.beginResolve` can throw, by the classes that the `catch` chain of
`resolve` tells apart: `std::exception`, `PDNSException`,
`ImmediateServFailException`, `PolicyHitException`, and anything else. -/
inductive Thrown where
  | stdException
  | PDNSException
  | ImmediateServFailException
  | PolicyHitException
  | other
deriving DecidableEq, Repr

/-- Source `resolve(now, logErrors, task)`.  The resolver (`SyncRes::beginResolve`,
defined outside the sources) enters as the outcome of the call: the returned
rcode or the thrown value.  The result is `Except.ok` with the statics
afterwards when the function returns, `Except.error` when a thrown value leaves
it.  Logging is not modelled, nor is what the resolver itself does to the statics
of `rec-taskqueue.cc`; `now` only builds the resolver and is left out. -/
def resolve (beginResolve : Except Thrown Int) (logErrors : Bool)
    (task : pdns.ResolveTask Name) (s : State Name) : Except Thrown (State Name) :=
  let tried : Except Thrown Bool :=
    match beginResolve with
    | .ok _res => .ok false
    | .error .stdException => .ok true
    | .error .PDNSException => .ok true
    | .error .ImmediateServFailException => if logErrors then .ok true else .ok true
    | .error .PolicyHitException => if logErrors then .ok true else .ok true
    | .error .other => .ok true
  match tried with
  | .error e => .error e
  | .ok ex =>
    if ex then
      if task.d_refreshMode then
        .ok { s with s_almost_expired_tasks :=
                { s.s_almost_expired_tasks with
                  exceptions := s.s_almost_expired_tasks.exceptions + 1 } }
      else
        .ok { s with s_resolve_tasks :=
                { s.s_resolve_tasks with exceptions := s.s_resolve_tasks.exceptions + 1 } }
    else
      if task.d_refreshMode then
        .ok { s with s_almost_expired_tasks :=
                { s.s_almost_expired_tasks with run := s.s_almost_expired_tasks.run + 1 } }
      else
        .ok { s with s_resolve_tasks :=
                { s.s_resolve_tasks with run := s.s_resolve_tasks.run + 1 } }

/-- Source `runTaskOnce(logErrors)`.  `now_wall` is the wall-clock second that
`task.run` reads, `beginResolve` the outcome of the resolver should the task be
run; every queued task carries the callback `resolve`. -/
def runTaskOnce (beginResolve : Except Thrown Int) (now_wall : Int) (logErrors : Bool)
    (s : State Name) : Except Thrown (State Name) :=
  if s.s_taskQueue.queue.empty then .ok s
  else
    match s.s_taskQueue.queue.pop with
    | none => .ok s
    | some (task, queue1) =>
      let s1 : State Name := { s with s_taskQueue := { s.s_taskQueue with queue := queue1 } }
      match task.run now_wall (resolve beginResolve logErrors) s1 with
      | .error e => .error e
      | .ok (expired, s2) =>
        if expired then
          .ok { s2 with s_taskQueue :=
                  { s2.s_taskQueue with queue := s2.s_taskQueue.queue.incExpired } }
        else .ok s2

/-- One call `pushResolveTask(qname, qtype, now, deadline)`. -/
structure PushCall (Name : Type) where
  qname : Name
  qtype : Nat
  now : Int
  deadline : Int
deriving DecidableEq, Repr

/-- The state after a list of `pushResolveTask` calls made in order. -/
def runPushes (Q : SyncRes.QTypeCodes) : State Name → List (PushCall Name) → State Name
  | s, [] => s
  | s, c :: cs => runPushes Q (pushResolveTask Q s c.qname c.qtype c.now c.deadline) cs

/-- The calls of a list of `pushResolveTask` calls that were accepted, in order:
those that raised the resolve-task pushed counter. -/
def acceptedPushes (Q : SyncRes.QTypeCodes) : State Name → List (PushCall Name) →
    List (PushCall Name)
  | _, [] => []
  | s, c :: cs =>
    let s1 := pushResolveTask Q s c.qname c.qtype c.now c.deadline
    if s1.s_resolve_tasks.pushed = s.s_resolve_tasks.pushed + 1 then
      c :: acceptedPushes Q s1 cs
    else acceptedPushes Q s1 cs

end TaskQueue

/-- Source `struct timeval` of the C library: seconds and microseconds. -/
structure timeval where
  tv_sec : Int
  tv_usec : Int
deriving DecidableEq, Repr

namespace fails_t

/-- Source `std::numeric_limits<counter_t>::max()` with `counter_t = uint64_t`. -/
def counterMax : Nat := 2 ^ 64 - 1

/-- Source `fails_t<T>::value_t`: a 64-bit count and the second of its last update. -/
structure value_t (T : Type) where
  key : T
  value : Nat
  last : Int
deriving DecidableEq, Repr

/-- Source `fails_t<T>::cont_t`. -/
abbrev cont_t (T : Type) := List (value_t T)

variable {T : Type} [DecidableEq T]

/-- Source `fails_t::value(t)`. -/
def value (d_cont : cont_t T) (t : T) : Nat :=
  match MultiIndex.find value_t.key d_cont t with
  | none => 0
  | some i => i.value

/-- Source `fails_t::incr(key, now)`: the returned count and the map afterwards.
`d_cont.insert(key)` adds the entry `value_t(key)` (count 0, time 0) unless the key
is there; the returned `i->value` is read through the key. -/
def incr (d_cont : cont_t T) (key : T) (now : timeval) : Nat × cont_t T :=
  let c1 : cont_t T :=
    match MultiIndex.find value_t.key d_cont key with
    | some _ => d_cont
    | none => d_cont ++ [{ key := key, value := 0, last := 0 }]
  let c2 := MultiIndex.modify value_t.key
    (fun i => if i.value < counterMax then { i with value := i.value + 1 } else i) key c1
  let tm := now.tv_sec
  let c3 := MultiIndex.modify value_t.key (fun val => { val with last := tm }) key c2
  (value c3 key, c3)

/-- Source `fails_t::clear(a)`. -/
def clearKey (d_cont : cont_t T) (a : T) : cont_t T := MultiIndex.erase value_t.key d_cont a

/-- Source `fails_t::clear()`. -/
def clear (_d_cont : cont_t T) : cont_t T := []

/-- Source `fails_t::size()`. -/
def size (d_cont : cont_t T) : Nat := d_cont.length

/-- Source `fails_t::prune(cutoff)`: `ind.erase(ind.begin(), ind.upper_bound(cutoff))`
on the index ordered by `last`. -/
def prune (d_cont : cont_t T) (cutoff : Int) : cont_t T :=
  (MultiIndex.timeIndex value_t.last d_cont).dropWhile (fun e => decide (e.last ≤ cutoff))

end fails_t

namespace SyncRes

/-- Source `SyncRes::EDNSStatus::EDNSMode`. -/
inductive EDNSMode where
  | UNKNOWN
  | EDNSOK
  | EDNSIGNORANT
  | NOEDNS
deriving DecidableEq, Repr

/-- Source `SyncRes::EDNSStatus`. -/
structure EDNSStatus (Addr : Type) where
  address : Addr
  modeSetAt : Int
  mode : EDNSMode
deriving DecidableEq, Repr

/-- Source `SyncRes::ednsstatus_t`, the container of the statuses. -/
abbrev ednsstatus_t (Addr : Type) := List (EDNSStatus Addr)

variable {Addr : Type} [DecidableEq Addr]

/-- Source `ednsstatus_t::prune(cutoff)`: `ind.erase(ind.begin(), ind.upper_bound(cutoff))`
on the index ordered by `modeSetAt`. -/
def ednsstatus_t.prune (c : ednsstatus_t Addr) (cutoff : Int) : ednsstatus_t Addr :=
  (MultiIndex.timeIndex EDNSStatus.modeSetAt c).dropWhile
    (fun e => decide (e.modeSetAt ≤ cutoff))

/-- Source `SyncRes::getEDNSStatus(server)` on the thread's `ednsstatus`. -/
def getEDNSStatus (ednsstatus : ednsstatus_t Addr) (server : Addr) : EDNSMode :=
  match MultiIndex.find EDNSStatus.address ednsstatus server with
  | none => EDNSMode.UNKNOWN
  | some it => it.mode

/-- Source `SyncRes::getEDNSStatusesSize()`. -/
def getEDNSStatusesSize (ednsstatus : ednsstatus_t Addr) : Nat := ednsstatus.length

/-- Source `SyncRes::pruneEDNSStatuses(cutoff)`. -/
def pruneEDNSStatuses (ednsstatus : ednsstatus_t Addr) (cutoff : Int) : ednsstatus_t Addr :=
  ednsstatus_t.prune ednsstatus cutoff

end SyncRes

/-! ### Decaying averages

The source computes in `float`.  The embedding is generic in the number type `R`
(a linearly ordered field) and in the exponential `expf : R → R`, so that the
definitions run on the rationals; the theorems read the arithmetic over the
reals, with `R = ℝ` and `expf = Real.exp`. -/

/-- Source `normalizeTV(tv)` (`misc.cc`). -/
def normalizeTV (tv : timeval) : timeval :=
  if tv.tv_usec > 1000000 then { tv_sec := tv.tv_sec + 1, tv_usec := tv.tv_usec - 1000000 }
  else if tv.tv_usec < 0 then { tv_sec := tv.tv_sec - 1, tv_usec := tv.tv_usec + 1000000 }
  else tv

/-- Source `operator+(lhs, rhs)` on `struct timeval` (`misc.cc`). -/
def timeval.add (lhs rhs : timeval) : timeval :=
  normalizeTV { tv_sec := lhs.tv_sec + rhs.tv_sec, tv_usec := lhs.tv_usec + rhs.tv_usec }

/-- Source `operator-(lhs, rhs)` on `struct timeval` (`misc.cc`). -/
def timeval.sub (lhs rhs : timeval) : timeval :=
  normalizeTV { tv_sec := lhs.tv_sec - rhs.tv_sec, tv_usec := lhs.tv_usec - rhs.tv_usec }

/-- Modelled from the spec: `makeFloat(tv)` (`misc.hh`, not among the sources),
the time value in seconds ("Δt is seconds"). -/
def makeFloat {R : Type} [Field R] (tv : timeval) : R :=
  (tv.tv_sec : R) + (tv.tv_usec : R) / 1000000

/-- Source `std::numeric_limits<float>::max()`, the largest finite `float`:
`(2 - 2^-23) * 2^127`. -/
def FLT_MAX {R : Type} [Field R] : R := (2 ^ 24 - 1) * 2 ^ 104

/-- Source `class DecayingEwma`: the time of the last sample and the average. -/
structure DecayingEwma (R : Type) where
  d_last : timeval
  d_val : R
deriving DecidableEq, Repr

namespace DecayingEwma

variable {R : Type} [LinearOrderedField R]

/-- The default-constructed `DecayingEwma`: `d_last{0, 0}`, `d_val{0}`. -/
def init : DecayingEwma R := { d_last := { tv_sec := 0, tv_usec := 0 }, d_val := 0 }

/-- Source `DecayingEwma::submit(val, now)`. -/
def submit (expf : R → R) (e : DecayingEwma R) (val : Int) (now : timeval) : DecayingEwma R :=
  if e.d_last.tv_sec = 0 ∧ e.d_last.tv_usec = 0 then
    { d_last := now, d_val := (val : R) }
  else
    let diff : R := makeFloat (e.d_last.sub now)
    let factor : R := expf diff / 2
    { d_last := now, d_val := (1 - factor) * (val : R) + factor * e.d_val }

/-- Source `DecayingEwma::get(factor)`: `return d_val *= factor`, the value
returned and the object afterwards. -/
def get (e : DecayingEwma R) (factor : R) : R × DecayingEwma R :=
  (e.d_val * factor, { e with d_val := e.d_val * factor })

/-- Source `DecayingEwma::peek()`. -/
def peek (e : DecayingEwma R) : R := e.d_val

end DecayingEwma

namespace MultiIndex

/-- The subscript `m[k]` of a `std::map` or `std::unordered_map`, as far as the
map is concerned: a default-constructed value is added when `k` has none. -/
def subscript {κ β : Type} [DecidableEq κ] (m : List (κ × β)) (k : κ) (dflt : β) :
    List (κ × β) :=
  match find Prod.fst m k with
  | some _ => m
  | none => m ++ [(k, dflt)]

end MultiIndex

namespace SyncRes

/-- Source `SyncRes::DecayingEwmaCollection`: `d_collection` is the
`std::map<ComboAddress, DecayingEwma>` in iteration order. -/
structure DecayingEwmaCollection (Addr R : Type) where
  d_collection : List (Addr × DecayingEwma R)
  d_lastget : timeval
deriving DecidableEq, Repr

namespace DecayingEwmaCollection

variable {Addr R : Type} [DecidableEq Addr] [LinearOrderedField R]

/-- The default-constructed collection: no address, `d_lastget{0, 0}`. -/
def init : DecayingEwmaCollection Addr R :=
  { d_collection := [], d_lastget := { tv_sec := 0, tv_usec := 0 } }

/-- Source `DecayingEwmaCollection::submit(remote, usecs, now)`:
`d_collection[remote].submit(usecs, now)`. -/
def submit (expf : R → R) (c : DecayingEwmaCollection Addr R) (remote : Addr) (usecs : Int)
    (now : timeval) : DecayingEwmaCollection Addr R :=
  let m1 := MultiIndex.subscript c.d_collection remote DecayingEwma.init
  let m2 := MultiIndex.modify Prod.fst
    (fun p => (p.1, DecayingEwma.submit expf p.2 usecs now)) remote m1
  { c with d_collection := m2 }

/-- Source `DecayingEwmaCollection::getFactor(now)`. -/
def getFactor (expf : R → R) (c : DecayingEwmaCollection Addr R) (now : timeval) : R :=
  let diff : R := makeFloat (c.d_lastget.sub now)
  expf (diff / 60)

/-- The `for` loop of `DecayingEwmaCollection::get` from one entry onwards, with
the running minimum `ret`: the minimum at the end and the entries afterwards. -/
def getLoop (factor : R) : List (Addr × DecayingEwma R) → R → R × List (Addr × DecayingEwma R)
  | [], ret => (ret, [])
  | entry :: rest, ret =>
    let g := DecayingEwma.get entry.2 factor
    let tmp := g.1
    let r := getLoop factor rest (if tmp < ret then tmp else ret)
    (r.1, (entry.1, g.2) :: r.2)

/-- Source `DecayingEwmaCollection::get(now)`: the value returned and the
collection afterwards. -/
def get (expf : R → R) (c : DecayingEwmaCollection Addr R) (now : timeval) :
    R × DecayingEwmaCollection Addr R :=
  if c.d_collection.isEmpty then (0, c)
  else
    let c1 : DecayingEwmaCollection Addr R :=
      if c.d_lastget.tv_sec = 0 ∧ c.d_lastget.tv_usec = 0 then { c with d_lastget := now }
      else c
    let factor := getFactor expf c1 now
    let r := getLoop factor c1.d_collection FLT_MAX
    (r.1, { d_collection := r.2, d_lastget := now })

end DecayingEwmaCollection

/-- Source `SyncRes::nsspeeds_t`: the `std::unordered_map` from name-server name
to its collection. -/
abbrev nsspeeds_t (Name Addr R : Type) := List (Name × DecayingEwmaCollection Addr R)

variable {Name Addr R : Type} [DecidableEq Name] [DecidableEq Addr] [LinearOrderedField R]

/-- Source `SyncRes::getNSSpeedsSize()`. -/
def getNSSpeedsSize (nsSpeeds : nsspeeds_t Name Addr R) : Nat := nsSpeeds.length

/-- Source `SyncRes::submitNSSpeed(server, ca, usec, now)`:
`nsSpeeds[server].submit(ca, usec, now)`.  `usec` is a `uint32_t` and is passed
on as an `int`, so values from `2^31` on arrive negative. -/
def submitNSSpeed (expf : R → R) (nsSpeeds : nsspeeds_t Name Addr R) (server : Name)
    (ca : Addr) (usec : Nat) (now : timeval) : nsspeeds_t Name Addr R :=
  let usecs : Int := if usec < 2 ^ 31 then (usec : Int) else (usec : Int) - 2 ^ 32
  MultiIndex.modify Prod.fst (fun p => (p.1, DecayingEwmaCollection.submit expf p.2 ca usecs now)) server
    (MultiIndex.subscript nsSpeeds server DecayingEwmaCollection.init)

/-- Source `SyncRes::getNSSpeed(server, ca)`:
`nsSpeeds[server].d_collection[ca].peek()`, the value returned and the map
afterwards (both subscripts add a default-constructed value when there is none). -/
def getNSSpeed (nsSpeeds : nsspeeds_t Name Addr R) (server : Name) (ca : Addr) :
    R × nsspeeds_t Name Addr R :=
  let m1 := MultiIndex.subscript nsSpeeds server DecayingEwmaCollection.init
  let m2 := MultiIndex.modify Prod.fst
    (fun p => (p.1,
      { d_collection := MultiIndex.subscript p.2.d_collection ca DecayingEwma.init,
        d_lastget := p.2.d_lastget })) server m1
  let peeked : R :=
    match MultiIndex.find Prod.fst m2 server with
    | none => 0
    | some p =>
      match MultiIndex.find Prod.fst p.2.d_collection ca with
      | none => 0
      | some q => DecayingEwma.peek q.2
  (peeked, m2)

end SyncRes

namespace SyncRes

namespace DecayingEwmaCollection

variable {Addr R : Type} [DecidableEq Addr]

/-- Source `DecayingEwmaCollection::stale(limit)`. -/
def stale (c : DecayingEwmaCollection Addr R) (limit : Int) : Bool :=
  decide (limit > c.d_lastget.tv_sec)

/-- The `for` loop of `DecayingEwmaCollection::purge` from one entry onwards:
an entry stays when `keep.find(iter->first) != keep.end()`, and is erased
otherwise.  The map `keep` is a `std::map<ComboAddress, float>`. -/
def purgeWalk (keep : List (Addr × R)) :
    List (Addr × DecayingEwma R) → List (Addr × DecayingEwma R)
  | [] => []
  | iter :: rest =>
    if (MultiIndex.find Prod.fst keep iter.1).isSome then iter :: purgeWalk keep rest
    else purgeWalk keep rest

/-- Source `DecayingEwmaCollection::purge(keep)`. -/
def purge (c : DecayingEwmaCollection Addr R) (keep : List (Addr × R)) :
    DecayingEwmaCollection Addr R :=
  { c with d_collection := purgeWalk keep c.d_collection }

end DecayingEwmaCollection

/-- The `for` loop of `SyncRes::pruneNSSpeeds` from one collection onwards. -/
def pruneNSSpeedsWalk {Name Addr R : Type} (limit : Int) :
    nsspeeds_t Name Addr R → nsspeeds_t Name Addr R
  | [] => []
  | i :: rest =>
    if DecayingEwmaCollection.stale i.2 limit then pruneNSSpeedsWalk limit rest
    else i :: pruneNSSpeedsWalk limit rest

/-- Source `SyncRes::pruneNSSpeeds(limit)`. -/
def pruneNSSpeeds {Name Addr R : Type} (nsSpeeds : nsspeeds_t Name Addr R) (limit : Int) :
    nsspeeds_t Name Addr R :=
  pruneNSSpeedsWalk limit nsSpeeds

/-- Source `SyncRes::AuthDomain`; `Record` stands for `DNSRecord`. -/
structure AuthDomain (Name Addr Record : Type) where
  d_records : List Record
  d_servers : List Addr
  d_name : Name
  d_rdForward : Bool

namespace AuthDomain

variable {Name Addr Record : Type}

/-- Source `AuthDomain::isAuth()`. -/
def isAuth (d : AuthDomain Name Addr Record) : Bool := d.d_servers.isEmpty

/-- Source `AuthDomain::isForward()`. -/
def isForward (d : AuthDomain Name Addr Record) : Bool := !d.isAuth

/-- Source `AuthDomain::shouldRecurse()`. -/
def shouldRecurse (d : AuthDomain Name Addr Record) : Bool := d.d_rdForward

/-- Source `AuthDomain::getName()`. -/
def getName (d : AuthDomain Name Addr Record) : Name := d.d_name

end AuthDomain

end SyncRes

/-- Source `struct PacketID`, the six members that the compare predicates read.
`tcpsock` and `fd` are `int`, `id` and `type` are `uint16_t`. -/
structure PacketID (Addr Name : Type) where
  remote : Addr
  domain : Name
  fd : Int
  tcpsock : Int
  id : Nat
  type : Nat

/-- The `operator<` of `std::tuple` on three members, as `std::tie(..) < std::tie(..)`
evaluates it: the first members decide unless neither is less than the other,
then the second, then the third.  `operator>` is the same with the sides
exchanged. -/
def tieLt3 {α β γ : Type} [LinearOrder α] [LinearOrder β] [LinearOrder γ]
    (a1 : α) (a2 : β) (a3 : γ) (b1 : α) (b2 : β) (b3 : γ) : Bool :=
  decide (a1 < b1) ||
    (!decide (b1 < a1) && (decide (a2 < b2) || (!decide (b2 < a2) && decide (a3 < b3))))

/-- Source `PacketIDCompare::operator()`.  The orders of `ComboAddress` and
`DNSName` are declared outside the sources and are taken as linear orders. -/
def PacketIDCompare {Addr Name : Type} [LinearOrder Addr] [LinearOrder Name]
    (a b : PacketID Addr Name) : Bool :=
  if tieLt3 a.remote a.tcpsock a.type b.remote b.tcpsock b.type then true
  else if tieLt3 b.remote b.tcpsock b.type a.remote a.tcpsock a.type then false
  else tieLt3 a.domain a.fd a.id b.domain b.fd b.id

/-- Source `PacketIDBirthdayCompare::operator()`. -/
def PacketIDBirthdayCompare {Addr Name : Type} [LinearOrder Addr] [LinearOrder Name]
    (a b : PacketID Addr Name) : Bool :=
  if tieLt3 a.remote a.tcpsock a.type b.remote b.tcpsock b.type then true
  else if tieLt3 b.remote b.tcpsock b.type a.remote a.tcpsock a.type then false
  else decide (a.domain < b.domain)

/-! ### Strings and hashing (`misc.cc`)

A `std::string` and a byte buffer are lists of bytes, a byte being a `Nat`;
`uint32_t` arithmetic is `Nat` arithmetic reduced modulo `2 ^ 32`. -/

/-- Modelled from the spec: `dns_tolower(c)` (`misc.hh`, not among the sources).
"DNS names compare case-insensitively": an ASCII upper-case letter becomes its
lower-case letter, every other byte stays. -/
def dns_tolower (c : Nat) : Nat := if 65 ≤ c ∧ c ≤ 90 then c + 32 else c

/-- Modelled from the spec: `toLower(s)` (`misc.hh`, not among the sources), the
string with `dns_tolower` applied to every byte. -/
def toLower (s : List Nat) : List Nat := s.map dns_tolower

/-- The comparing loop of `ciEqual` and of `endsOn`: two runs of bytes of the same
length are walked in step, and the walk fails at the first pair that differs
after `dns_tolower`. -/
def ciWalk : List Nat → List Nat → Bool
  | x :: a, y :: b => if dns_tolower x ≠ dns_tolower y then false else ciWalk a b
  | _, _ => true

/-- Source `ciEqual(a, b)`. -/
def ciEqual (a b : List Nat) : Bool :=
  if a.length ≠ b.length then false else ciWalk a b

/-- Source `endsOn(domain, suffix)`; 46 is the byte of `'.'`. -/
def endsOn (domain suffix : List Nat) : Bool :=
  if suffix.isEmpty || ciEqual domain suffix then true
  else if domain.length ≤ suffix.length then false
  else
    let dpos := domain.length - suffix.length - 1
    if domain.getD dpos 0 ≠ 46 then false
    else ciWalk (domain.drop (dpos + 1)) suffix

/-- Source `stripDomainSuffix(qname, domain)`: the returned flag and `*qname`
afterwards; 64 is the byte of `'@'`. -/
def stripDomainSuffix (qname domain : List Nat) : Bool × List Nat :=
  if !endsOn qname domain then (false, qname)
  else if toLower qname = toLower domain then (true, [64])
  else if qname.getD (qname.length - domain.length - 1) 0 ≠ 46 then (false, qname)
  else (true, qname.take (qname.length - domain.length - 1))

/-- Source macro `burtlemix(a, b, c)` on three `uint32_t`; `x -= y` is
`(x + 2 ^ 32 - y) % 2 ^ 32` for `y` below `2 ^ 32`. -/
def burtlemix (a b c : Nat) : Nat × Nat × Nat :=
  let a := (a + 2 ^ 32 - b % 2 ^ 32) % 2 ^ 32
  let a := (a + 2 ^ 32 - c % 2 ^ 32) % 2 ^ 32
  let a := a ^^^ (c >>> 13)
  let b := (b + 2 ^ 32 - c % 2 ^ 32) % 2 ^ 32
  let b := (b + 2 ^ 32 - a % 2 ^ 32) % 2 ^ 32
  let b := b ^^^ ((a <<< 8) % 2 ^ 32)
  let c := (c + 2 ^ 32 - a % 2 ^ 32) % 2 ^ 32
  let c := (c + 2 ^ 32 - b % 2 ^ 32) % 2 ^ 32
  let c := c ^^^ (b >>> 13)
  let a := (a + 2 ^ 32 - b % 2 ^ 32) % 2 ^ 32
  let a := (a + 2 ^ 32 - c % 2 ^ 32) % 2 ^ 32
  let a := a ^^^ (c >>> 12)
  let b := (b + 2 ^ 32 - c % 2 ^ 32) % 2 ^ 32
  let b := (b + 2 ^ 32 - a % 2 ^ 32) % 2 ^ 32
  let b := b ^^^ ((a <<< 16) % 2 ^ 32)
  let c := (c + 2 ^ 32 - a % 2 ^ 32) % 2 ^ 32
  let c := (c + 2 ^ 32 - b % 2 ^ 32) % 2 ^ 32
  let c := c ^^^ (b >>> 5)
  let a := (a + 2 ^ 32 - b % 2 ^ 32) % 2 ^ 32
  let a := (a + 2 ^ 32 - c % 2 ^ 32) % 2 ^ 32
  let a := a ^^^ (c >>> 3)
  let b := (b + 2 ^ 32 - c % 2 ^ 32) % 2 ^ 32
  let b := (b + 2 ^ 32 - a % 2 ^ 32) % 2 ^ 32
  let b := b ^^^ ((a <<< 10) % 2 ^ 32)
  let c := (c + 2 ^ 32 - a % 2 ^ 32) % 2 ^ 32
  let c := (c + 2 ^ 32 - b % 2 ^ 32) % 2 ^ 32
  let c := c ^^^ (b >>> 15)
  (a, b, c)

/-- The `while (len >= 12)` loop of `burtle`, run for at most `fuel` rounds: the
buffer from `k` on, `len`, `a`, `b`, `c` at the end.  `k[i]` is `k.getD i 0`. -/
def burtleLoop : Nat → List Nat → Nat → Nat → Nat → Nat → List Nat × Nat × Nat × Nat × Nat
  | 0, k, len, a, b, c => (k, len, a, b, c)
  | fuel + 1, k, len, a, b, c =>
    if len ≥ 12 then
      let a := (a + (k.getD 0 0 + ((k.getD 1 0) <<< 8) % 2 ^ 32 + ((k.getD 2 0) <<< 16) % 2 ^ 32 +
          ((k.getD 3 0) <<< 24) % 2 ^ 32)) % 2 ^ 32
      let b := (b + (k.getD 4 0 + ((k.getD 5 0) <<< 8) % 2 ^ 32 + ((k.getD 6 0) <<< 16) % 2 ^ 32 +
          ((k.getD 7 0) <<< 24) % 2 ^ 32)) % 2 ^ 32
      let c := (c + (k.getD 8 0 + ((k.getD 9 0) <<< 8) % 2 ^ 32 + ((k.getD 10 0) <<< 16) % 2 ^ 32 +
          ((k.getD 11 0) <<< 24) % 2 ^ 32)) % 2 ^ 32
      let m := burtlemix a b c
      burtleLoop fuel (k.drop 12) (len - 12) m.1 m.2.1 m.2.2
    else (k, len, a, b, c)

/-- Source `burtle(k, length, initval)`.  The loop gets `length` rounds of fuel,
more than it can use; the `switch` with its fall-through is the chain of tests
`len ≥ 11`, ..., `len ≥ 1`. -/
def burtle (k : List Nat) (length initval : Nat) : Nat :=
  let r := burtleLoop length k length 0x9e3779b9 0x9e3779b9 initval
  let k := r.1
  let len := r.2.1
  let a := r.2.2.1
  let b := r.2.2.2.1
  let c := r.2.2.2.2
  let c := (c + length) % 2 ^ 32
  let c := if len ≥ 11 then (c + ((k.getD 10 0) <<< 24) % 2 ^ 32) % 2 ^ 32 else c
  let c := if len ≥ 10 then (c + ((k.getD 9 0) <<< 16) % 2 ^ 32) % 2 ^ 32 else c
  let c := if len ≥ 9 then (c + ((k.getD 8 0) <<< 8) % 2 ^ 32) % 2 ^ 32 else c
  let b := if len ≥ 8 then (b + ((k.getD 7 0) <<< 24) % 2 ^ 32) % 2 ^ 32 else b
  let b := if len ≥ 7 then (b + ((k.getD 6 0) <<< 16) % 2 ^ 32) % 2 ^ 32 else b
  let b := if len ≥ 6 then (b + ((k.getD 5 0) <<< 8) % 2 ^ 32) % 2 ^ 32 else b
  let b := if len ≥ 5 then (b + k.getD 4 0) % 2 ^ 32 else b
  let a := if len ≥ 4 then (a + ((k.getD 3 0) <<< 24) % 2 ^ 32) % 2 ^ 32 else a
  let a := if len ≥ 3 then (a + ((k.getD 2 0) <<< 16) % 2 ^ 32) % 2 ^ 32 else a
  let a := if len ≥ 2 then (a + ((k.getD 1 0) <<< 8) % 2 ^ 32) % 2 ^ 32 else a
  let a := if len ≥ 1 then (a + k.getD 0 0) % 2 ^ 32 else a
  (burtlemix a b c).2.2

/-- The `while (len >= 12)` loop of `burtleCI`, run for at most `fuel` rounds. -/
def burtleCILoop : Nat → List Nat → Nat → Nat → Nat → Nat → List Nat × Nat × Nat × Nat × Nat
  | 0, k, len, a, b, c => (k, len, a, b, c)
  | fuel + 1, k, len, a, b, c =>
    if len ≥ 12 then
      let a := (a + (dns_tolower (k.getD 0 0) + ((dns_tolower (k.getD 1 0)) <<< 8) % 2 ^ 32 + ((dns_tolower (k.getD 2 0)) <<< 16) % 2 ^ 32 +
          ((dns_tolower (k.getD 3 0)) <<< 24) % 2 ^ 32)) % 2 ^ 32
      let b := (b + (dns_tolower (k.getD 4 0) + ((dns_tolower (k.getD 5 0)) <<< 8) % 2 ^ 32 + ((dns_tolower (k.getD 6 0)) <<< 16) % 2 ^ 32 +
          ((dns_tolower (k.getD 7 0)) <<< 24) % 2 ^ 32)) % 2 ^ 32
      let c := (c + (dns_tolower (k.getD 8 0) + ((dns_tolower (k.getD 9 0)) <<< 8) % 2 ^ 32 + ((dns_tolower (k.getD 10 0)) <<< 16) % 2 ^ 32 +
          ((dns_tolower (k.getD 11 0)) <<< 24) % 2 ^ 32)) % 2 ^ 32
      let m := burtlemix a b c
      burtleCILoop fuel (k.drop 12) (len - 12) m.1 m.2.1 m.2.2
    else (k, len, a, b, c)

/-- Source `burtleCI(k, length, initval)`. -/
def burtleCI (k : List Nat) (length initval : Nat) : Nat :=
  let r := burtleCILoop length k length 0x9e3779b9 0x9e3779b9 initval
  let k := r.1
  let len := r.2.1
  let a := r.2.2.1
  let b := r.2.2.2.1
  let c := r.2.2.2.2
  let c := (c + length) % 2 ^ 32
  let c := if len ≥ 11 then (c + ((dns_tolower (k.getD 10 0)) <<< 24) % 2 ^ 32) % 2 ^ 32 else c
  let c := if len ≥ 10 then (c + ((dns_tolower (k.getD 9 0)) <<< 16) % 2 ^ 32) % 2 ^ 32 else c
  let c := if len ≥ 9 then (c + ((dns_tolower (k.getD 8 0)) <<< 8) % 2 ^ 32) % 2 ^ 32 else c
  let b := if len ≥ 8 then (b + ((dns_tolower (k.getD 7 0)) <<< 24) % 2 ^ 32) % 2 ^ 32 else b
  let b := if len ≥ 7 then (b + ((dns_tolower (k.getD 6 0)) <<< 16) % 2 ^ 32) % 2 ^ 32 else b
  let b := if len ≥ 6 then (b + ((dns_tolower (k.getD 5 0)) <<< 8) % 2 ^ 32) % 2 ^ 32 else b
  let b := if len ≥ 5 then (b + dns_tolower (k.getD 4 0)) % 2 ^ 32 else b
  let a := if len ≥ 4 then (a + ((dns_tolower (k.getD 3 0)) <<< 24) % 2 ^ 32) % 2 ^ 32 else a
  let a := if len ≥ 3 then (a + ((dns_tolower (k.getD 2 0)) <<< 16) % 2 ^ 32) % 2 ^ 32 else a
  let a := if len ≥ 2 then (a + ((dns_tolower (k.getD 1 0)) <<< 8) % 2 ^ 32) % 2 ^ 32 else a
  let a := if len ≥ 1 then (a + dns_tolower (k.getD 0 0)) % 2 ^ 32 else a
  (burtlemix a b c).2.2

/-! ## The container model -/

namespace MultiIndex

variable {ε κ : Type} [DecidableEq κ]

theorem mem_entriesFor (key : ε → κ) (c : List ε) (k : κ) (x : ε) :
    x ∈ entriesFor key c k ↔ x ∈ c ∧ key x = k := by
  simp [entriesFor]

theorem find_eq_head (key : ε → κ) (c : List ε) (k : κ) :
    find key c k = (entriesFor key c k).head? := by
  induction c with
  | nil => rfl
  | cons a l ih =>
    by_cases h : key a = k
    · simp [find, entriesFor, h]
    · simp [find, entriesFor, h]

theorem entriesFor_erase (key : ε → κ) (c : List ε) (k k1 : κ) :
    entriesFor key (erase key c k1) k =
      if k1 = k then (entriesFor key c k).tail else entriesFor key c k := by
  induction c with
  | nil => simp [entriesFor, erase]
  | cons a l ih =>
    by_cases h1 : key a = k1
    · by_cases h : k1 = k
      · subst h
        simp [entriesFor, erase, h1]
      · have hk : ¬ key a = k := fun hh => h (h1 ▸ hh)
        simp [entriesFor, erase, h1, h, hk]
    · have e1 : erase key (a :: l) k1 = a :: erase key l k1 := by
        simp [erase, List.eraseP_cons, h1]
      rw [e1]
      by_cases h : k1 = k
      · subst h
        simp only [if_true] at ih ⊢
        simp [entriesFor, h1] at ih ⊢
        exact ih
      · simp only [h, if_false] at ih ⊢
        by_cases hk : key a = k
        · simp [entriesFor, hk] at ih ⊢
          exact ih
        · simp [entriesFor, hk] at ih ⊢
          exact ih

theorem entriesFor_modify (key : ε → κ) (f : ε → ε) (hf : ∀ e, key (f e) = key e)
    (c : List ε) (k k1 : κ) :
    entriesFor key (modify key f k1 c) k =
      if k1 = k then (entriesFor key c k).modifyHead f else entriesFor key c k := by
  induction c with
  | nil => simp [entriesFor, modify]
  | cons a l ih =>
    by_cases h1 : key a = k1
    · by_cases h : k1 = k
      · subst h
        simp [entriesFor, modify, h1, hf]
      · have hk : ¬ key a = k := fun hh => h (h1 ▸ hh)
        simp [entriesFor, modify, h1, h, hk, hf]
    · have e1 : modify key f k1 (a :: l) = a :: modify key f k1 l := by
        simp [modify, h1]
      rw [e1]
      by_cases h : k1 = k
      · subst h
        simp only [if_true] at ih ⊢
        simp [entriesFor, h1] at ih ⊢
        exact ih
      · simp only [h, if_false] at ih ⊢
        by_cases hk : key a = k
        · simp [entriesFor, hk] at ih ⊢
          exact ih
        · simp [entriesFor, hk] at ih ⊢
          exact ih

theorem entriesFor_append_singleton (key : ε → κ) (c : List ε) (e : ε) (k : κ) :
    entriesFor key (c ++ [e]) k =
      entriesFor key c k ++ (if key e = k then [e] else []) := by
  by_cases h : key e = k <;> simp [entriesFor, List.filter_append, h]

theorem length_modify (key : ε → κ) (f : ε → ε) (k : κ) (c : List ε) :
    (modify key f k c).length = c.length := by
  induction c with
  | nil => rfl
  | cons a l ih =>
    by_cases h : key a = k <;> simp [modify, h, ih]

theorem length_erase (key : ε → κ) (c : List ε) (k : κ) (e : ε)
    (h : find key c k = some e) : (erase key c k).length + 1 = c.length := by
  induction c with
  | nil => simp [find] at h
  | cons a l ih =>
    by_cases h1 : key a = k
    · simp [erase, h1]
    · have h2 : find key l k = some e := by simpa [find, h1] using h
      have := ih h2
      simp [erase, List.eraseP_cons, h1] at this ⊢
      exact this

theorem uniqueKeys_iff (key : ε → κ) (c : List ε) :
    UniqueKeys key c ↔ ∀ k, (entriesFor key c k).length ≤ 1 := by
  unfold UniqueKeys
  rw [List.nodup_iff_count_le_one]
  have hc : ∀ k, List.count k (c.map key) = (entriesFor key c k).length := by
    intro k
    induction c with
    | nil => rfl
    | cons a l ih =>
      by_cases h : key a = k
      · simp [entriesFor, List.count_cons, h] at ih ⊢
        exact ih
      · simp [entriesFor, List.count_cons, h] at ih ⊢
        exact ih
  constructor
  · intro h k
    rw [← hc]
    exact h k
  · intro h k
    rw [hc]
    exact h k

omit [DecidableEq κ] in
theorem uniqueKeys_of_perm (key : ε → κ) {c c1 : List ε} (hp : c1.Perm c)
    (h : UniqueKeys key c) : UniqueKeys key c1 := by
  unfold UniqueKeys at h ⊢
  exact (List.Perm.nodup_iff (hp.map key)).mpr h

omit [DecidableEq κ] in
theorem uniqueKeys_of_sublist (key : ε → κ) {c c1 : List ε} (hs : c1.Sublist c)
    (h : UniqueKeys key c) : UniqueKeys key c1 := by
  unfold UniqueKeys at h ⊢
  exact List.Nodup.sublist (hs.map key) h

theorem uniqueKeys_erase (key : ε → κ) (c : List ε) (k : κ) (h : UniqueKeys key c) :
    UniqueKeys key (erase key c k) :=
  uniqueKeys_of_sublist key (List.eraseP_sublist c) h

theorem uniqueKeys_modify (key : ε → κ) (f : ε → ε) (hf : ∀ e, key (f e) = key e)
    (c : List ε) (k : κ) (h : UniqueKeys key c) : UniqueKeys key (modify key f k c) := by
  rw [uniqueKeys_iff] at h ⊢
  intro k1
  rw [entriesFor_modify key f hf]
  by_cases hk : k = k1
  · simp only [hk, if_true]
    have := h k1
    cases hq : entriesFor key c k1 with
    | nil => simp
    | cons a l => rw [hq] at this; simpa using this
  · simp only [hk, if_false]
    exact h k1

theorem uniqueKeys_append_singleton (key : ε → κ) (c : List ε) (e : ε)
    (hfresh : find key c (key e) = none) (h : UniqueKeys key c) :
    UniqueKeys key (c ++ [e]) := by
  rw [uniqueKeys_iff] at h ⊢
  intro k
  rw [entriesFor_append_singleton]
  by_cases hk : key e = k
  · subst hk
    rw [find_eq_head] at hfresh
    have : entriesFor key c (key e) = [] := by
      cases hq : entriesFor key c (key e) with
      | nil => rfl
      | cons a l => rw [hq] at hfresh; simp at hfresh
    simp [this]
  · simpa [hk] using h k

/-- Under the uniqueness of keys, the entries for a key are none or one. -/
theorem entriesFor_cases (key : ε → κ) (c : List ε) (h : UniqueKeys key c) (k : κ) :
    entriesFor key c k = [] ∨ ∃ e, entriesFor key c k = [e] := by
  have := (uniqueKeys_iff key c).mp h k
  cases hq : entriesFor key c k with
  | nil => exact Or.inl rfl
  | cons a l =>
    rw [hq] at this
    cases l with
    | nil => exact Or.inr ⟨a, rfl⟩
    | cons b l1 => simp at this

theorem entriesFor_eq_singleton_of_mem (key : ε → κ) (c : List ε) (h : UniqueKeys key c)
    (e : ε) (he : e ∈ c) : entriesFor key c (key e) = [e] := by
  have hm : e ∈ entriesFor key c (key e) := (mem_entriesFor key c _ e).mpr ⟨he, rfl⟩
  rcases entriesFor_cases key c h (key e) with h0 | ⟨a, ha⟩
  · rw [h0] at hm; simp at hm
  · rw [ha] at hm ⊢
    simp at hm
    rw [hm]

/-! ### The expiry index -/

theorem perm_orderedInsert (ttd : ε → Int) (e : ε) (l : List ε) :
    (orderedInsert ttd e l).Perm (e :: l) := by
  induction l with
  | nil => exact List.Perm.refl _
  | cons a l ih =>
    by_cases h : ttd e < ttd a
    · simp [orderedInsert, h]
    · simp only [orderedInsert, h, if_false]
      exact (List.Perm.cons a ih).trans (List.Perm.swap e a l)

theorem perm_timeIndex (ttd : ε → Int) (c : List ε) : (timeIndex ttd c).Perm c := by
  induction c with
  | nil => exact List.Perm.refl _
  | cons a l ih =>
    exact (perm_orderedInsert ttd a (timeIndex ttd l)).trans (List.Perm.cons a ih)

theorem ascending_orderedInsert (ttd : ε → Int) (e : ε) (l : List ε)
    (h : Ascending ttd l) : Ascending ttd (orderedInsert ttd e l) := by
  induction l with
  | nil => simp [orderedInsert, Ascending]
  | cons a l ih =>
    unfold Ascending at h ih ⊢
    rw [List.pairwise_cons] at h
    by_cases hlt : ttd e < ttd a
    · simp only [orderedInsert, hlt, if_true]
      rw [List.pairwise_cons, List.pairwise_cons]
      refine ⟨?_, h.1, h.2⟩
      intro b hb
      rcases List.mem_cons.mp hb with rfl | hb
      · exact le_of_lt hlt
      · exact le_trans (le_of_lt hlt) (h.1 b hb)
    · simp only [orderedInsert, hlt, if_false]
      rw [List.pairwise_cons]
      refine ⟨?_, ih h.2⟩
      intro b hb
      have hb1 : b ∈ e :: l := (perm_orderedInsert ttd e l).mem_iff.mp hb
      rcases List.mem_cons.mp hb1 with rfl | hb1
      · exact not_lt.mp hlt
      · exact h.1 b hb1

theorem ascending_timeIndex (ttd : ε → Int) (c : List ε) : Ascending ttd (timeIndex ttd c) := by
  induction c with
  | nil => simp [timeIndex, Ascending]
  | cons a l ih => exact ascending_orderedInsert ttd a _ ih

/-- Dropping the leading run of entries with `ttd ≤ now` from an ascending list
drops every entry with `ttd ≤ now`: the walk that stops at the first entry that
has not expired misses none. -/
theorem dropWhile_le_eq_filter (ttd : ε → Int) (now : Int) (l : List ε)
    (h : Ascending ttd l) :
    l.dropWhile (fun e => decide (ttd e ≤ now)) = l.filter (fun e => decide (now < ttd e)) := by
  induction l with
  | nil => rfl
  | cons a l ih =>
    unfold Ascending at h ih
    rw [List.pairwise_cons] at h
    by_cases ha : ttd a ≤ now
    · have hn : ¬ now < ttd a := not_lt.mpr ha
      simp [List.dropWhile_cons, ha, hn]
      simpa using ih h.2
    · have hn : now < ttd a := not_le.mp ha
      have hall : ∀ b ∈ l, now < ttd b := fun b hb => lt_of_lt_of_le hn (h.1 b hb)
      simp only [List.dropWhile_cons, ha, decide_False, hn, decide_True, List.filter_cons,
        if_true]
      simp only [Bool.false_eq_true, if_false]
      congr 1
      symm
      rw [List.filter_eq_self]
      intro b hb
      simpa using hall b hb

theorem dropWhile_lt_eq_filter (ttd : ε → Int) (now : Int) (l : List ε)
    (h : Ascending ttd l) :
    l.dropWhile (fun e => decide (ttd e < now)) = l.filter (fun e => decide (now ≤ ttd e)) := by
  have := dropWhile_le_eq_filter ttd (now - 1) l h
  have e1 : (fun e => decide (ttd e ≤ now - 1)) = (fun e => decide (ttd e < now)) := by
    funext e
    congr 1
    exact propext (by constructor <;> intro hh <;> omega)
  have e2 : (fun e => decide (now - 1 < ttd e)) = (fun e => decide (now ≤ ttd e)) := by
    funext e
    congr 1
    exact propext (by constructor <;> intro hh <;> omega)
  rw [e1, e2] at this
  exact this

end MultiIndex

/-! ## `Throttle` -/

namespace Throttle

open MultiIndex

variable {Thing : Type} [DecidableEq Thing]

theorem shouldThrottle_of_nil (c : cont_t Thing) (now : Int) (k : Thing)
    (h : entriesFor entry_t.thing c k = []) : shouldThrottle c now k = (false, c) := by
  unfold shouldThrottle
  rw [find_eq_head, h]
  rfl

theorem shouldThrottle_of_cons (c : cont_t Thing) (now : Int) (k : Thing)
    (e : entry_t Thing) (l : List (entry_t Thing))
    (h : entriesFor entry_t.thing c k = e :: l) :
    shouldThrottle c now k =
      if now > e.ttd ∨ e.count = 0 then (false, erase entry_t.thing c k)
      else (true, modify entry_t.thing (fun e => { e with count := e.count - 1 }) k c) := by
  unfold shouldThrottle
  rw [find_eq_head, h]
  rfl

theorem uniqueKeys_shouldThrottle (c : cont_t Thing) (h : UniqueKeys entry_t.thing c)
    (now : Int) (k : Thing) : UniqueKeys entry_t.thing (shouldThrottle c now k).2 := by
  cases hq : entriesFor entry_t.thing c k with
  | nil => rw [shouldThrottle_of_nil c now k hq]; exact h
  | cons e l =>
    rw [shouldThrottle_of_cons c now k e l hq]
    by_cases hc : now > e.ttd ∨ e.count = 0
    · simp only [hc, if_true]
      exact uniqueKeys_erase _ c k h
    · simp only [hc, if_false]
      exact uniqueKeys_modify entry_t.thing (fun e => { e with count := e.count - 1 })
        (fun _ => rfl) c k h

end Throttle

/-- C1. `Throttle::shouldThrottle(now, k)` answers true exactly when the map,
which holds at most one entry per key, has an entry for `k` with `now ≤ ttd` and
`count > 0`; it answers false exactly when every entry for `k` (there is none, or
one) has `now > ttd` or `count = 0`. -/
theorem Throttle.shouldThrottle_true_iff {Thing : Type} [DecidableEq Thing]
    (c : Throttle.cont_t Thing) (h : MultiIndex.UniqueKeys Throttle.entry_t.thing c)
    (now : Int) (k : Thing) :
    ((Throttle.shouldThrottle c now k).1 = true ↔
        ∃ e ∈ c, e.thing = k ∧ now ≤ e.ttd ∧ 0 < e.count) ∧
    ((Throttle.shouldThrottle c now k).1 = false ↔
        ∀ e ∈ c, e.thing = k → (now > e.ttd ∨ e.count = 0)) := by
  have key : (Throttle.shouldThrottle c now k).1 = true ↔
      ∃ e ∈ c, e.thing = k ∧ now ≤ e.ttd ∧ 0 < e.count := by
    rcases MultiIndex.entriesFor_cases _ c h k with h0 | ⟨e, he⟩
    · rw [Throttle.shouldThrottle_of_nil c now k h0]
      constructor
      · intro hf; cases hf
      · rintro ⟨e, hec, hk, _⟩
        have : e ∈ MultiIndex.entriesFor Throttle.entry_t.thing c k :=
          (MultiIndex.mem_entriesFor _ c k e).mpr ⟨hec, hk⟩
        rw [h0] at this
        cases this
    · rw [Throttle.shouldThrottle_of_cons c now k e [] he]
      have hmem : ∀ x, (x ∈ c ∧ x.thing = k) ↔ x = e := by
        intro x
        rw [← MultiIndex.mem_entriesFor, he]
        simp
      by_cases hc : now > e.ttd ∨ e.count = 0
      · simp only [hc, if_true]
        constructor
        · intro hf; cases hf
        · rintro ⟨x, hxc, hxk, h1, h2⟩
          have hx : x = e := (hmem x).mp ⟨hxc, hxk⟩
          subst hx
          rcases hc with hc | hc <;> omega
      · simp only [hc, if_false]
        constructor
        · intro _
          have := (hmem e).mpr rfl
          refine ⟨e, this.1, this.2, ?_, ?_⟩
          · have : ¬ now > e.ttd := fun hh => hc (Or.inl hh)
            omega
          · have : ¬ e.count = 0 := fun hh => hc (Or.inr hh)
            omega
        · intro _; trivial
  refine ⟨key, ?_⟩
  rw [← Bool.not_eq_true, key]
  constructor
  · intro hn e hec hk
    by_contra hcon
    apply hn
    refine ⟨e, hec, hk, ?_, ?_⟩
    · have : ¬ now > e.ttd := fun hh => hcon (Or.inl hh)
      omega
    · have : ¬ e.count = 0 := fun hh => hcon (Or.inr hh)
      omega
  · rintro hall ⟨e, hec, hk, h1, h2⟩
    rcases hall e hec hk with hc | hc <;> omega

/-- Witness of C1 on a two-entry map. -/
theorem Throttle.shouldThrottle_true_iff_witness :
    (((Throttle.shouldThrottle [⟨1, 5, 2⟩, ⟨2, 3, 0⟩] 4 (1 : Nat)).1 = true ↔
        ∃ e ∈ ([⟨1, 5, 2⟩, ⟨2, 3, 0⟩] : Throttle.cont_t Nat), e.thing = 1 ∧ (4 : Int) ≤ e.ttd ∧
          0 < e.count) ∧
    ((Throttle.shouldThrottle [⟨1, 5, 2⟩, ⟨2, 3, 0⟩] 4 (1 : Nat)).1 = false ↔
        ∀ e ∈ ([⟨1, 5, 2⟩, ⟨2, 3, 0⟩] : Throttle.cont_t Nat), e.thing = 1 →
          ((4 : Int) > e.ttd ∨ e.count = 0))) ∧
    (Throttle.shouldThrottle [⟨1, 5, 2⟩, ⟨2, 3, 0⟩] 4 (1 : Nat)).1 = true :=
  ⟨Throttle.shouldThrottle_true_iff [⟨1, 5, 2⟩, ⟨2, 3, 0⟩] (by decide) 4 1, by decide⟩

/-- C2. Side effects of `Throttle::shouldThrottle(now, k)` on a map with at most
one entry per key: on true the entry for `k` stays, with the same `ttd` and its
`count` one less; on false the map holds no entry for `k` afterwards; the
entries of every other key are the same as before, and keys stay unique. -/
theorem Throttle.shouldThrottle_effect {Thing : Type} [DecidableEq Thing]
    (c : Throttle.cont_t Thing) (h : MultiIndex.UniqueKeys Throttle.entry_t.thing c)
    (now : Int) (k : Thing) :
    ((Throttle.shouldThrottle c now k).1 = true →
        ∃ e e1, MultiIndex.entriesFor Throttle.entry_t.thing c k = [e] ∧
          MultiIndex.entriesFor Throttle.entry_t.thing (Throttle.shouldThrottle c now k).2 k = [e1] ∧
          e1.thing = k ∧ e1.ttd = e.ttd ∧ e1.count + 1 = e.count) ∧
    ((Throttle.shouldThrottle c now k).1 = false →
        MultiIndex.entriesFor Throttle.entry_t.thing (Throttle.shouldThrottle c now k).2 k = []) ∧
    (∀ k1, k1 ≠ k →
        MultiIndex.entriesFor Throttle.entry_t.thing (Throttle.shouldThrottle c now k).2 k1 =
          MultiIndex.entriesFor Throttle.entry_t.thing c k1) ∧
    MultiIndex.UniqueKeys Throttle.entry_t.thing (Throttle.shouldThrottle c now k).2 := by
  refine ⟨?_, ?_, ?_, Throttle.uniqueKeys_shouldThrottle c h now k⟩
  · rcases MultiIndex.entriesFor_cases _ c h k with h0 | ⟨e, he⟩
    · rw [Throttle.shouldThrottle_of_nil c now k h0]
      intro hf; cases hf
    · rw [Throttle.shouldThrottle_of_cons c now k e [] he]
      have hek : e.thing = k :=
        ((MultiIndex.mem_entriesFor _ c k e).mp (by rw [he]; simp)).2
      by_cases hc : now > e.ttd ∨ e.count = 0
      · simp only [hc, if_true]
        intro hf; cases hf
      · simp only [hc, if_false]
        intro _
        refine ⟨e, { e with count := e.count - 1 }, he, ?_, hek, rfl, ?_⟩
        · rw [MultiIndex.entriesFor_modify Throttle.entry_t.thing
            (fun e => { e with count := e.count - 1 }) (fun _ => rfl), if_pos rfl, he]
          rfl
        · have : ¬ e.count = 0 := fun hh => hc (Or.inr hh)
          show e.count - 1 + 1 = e.count
          omega
  · rcases MultiIndex.entriesFor_cases _ c h k with h0 | ⟨e, he⟩
    · rw [Throttle.shouldThrottle_of_nil c now k h0]
      intro _; exact h0
    · rw [Throttle.shouldThrottle_of_cons c now k e [] he]
      by_cases hc : now > e.ttd ∨ e.count = 0
      · simp only [hc, if_true]
        intro _
        rw [MultiIndex.entriesFor_erase, if_pos rfl, he]
        rfl
      · simp only [hc, if_false]
        intro hf; cases hf
  · intro k1 hk1
    have hne : ¬ k = k1 := fun hh => hk1 hh.symm
    cases hq : MultiIndex.entriesFor Throttle.entry_t.thing c k with
    | nil => rw [Throttle.shouldThrottle_of_nil c now k hq]
    | cons e l =>
      rw [Throttle.shouldThrottle_of_cons c now k e l hq]
      by_cases hc : now > e.ttd ∨ e.count = 0
      · simp only [hc, if_true]
        rw [MultiIndex.entriesFor_erase, if_neg hne]
      · simp only [hc, if_false]
        rw [MultiIndex.entriesFor_modify Throttle.entry_t.thing
          (fun e => { e with count := e.count - 1 }) (fun _ => rfl), if_neg hne]

/-- Witness of C2 on a two-entry map. -/
theorem Throttle.shouldThrottle_effect_witness :
    MultiIndex.entriesFor Throttle.entry_t.thing
        (Throttle.shouldThrottle [⟨1, 5, 2⟩, ⟨2, 3, 0⟩] 4 (1 : Nat)).2 2 =
      MultiIndex.entriesFor Throttle.entry_t.thing [⟨1, 5, 2⟩, ⟨2, 3, 0⟩] 2 :=
  (Throttle.shouldThrottle_effect [⟨1, 5, 2⟩, ⟨2, 3, 0⟩] (by decide) 4 1).2.2.1 2 (by decide)

namespace Throttle

open MultiIndex

variable {Thing : Type} [DecidableEq Thing]

theorem throttle_of_nil (c : cont_t Thing) (now : Int) (k : Thing) (ttl : Int) (count : Nat)
    (h : entriesFor entry_t.thing c k = []) :
    throttle c now k ttl count = c ++ [{ thing := k, ttd := now + ttl, count := count }] := by
  unfold throttle
  rw [find_eq_head, h]
  rfl

theorem throttle_of_cons (c : cont_t Thing) (now : Int) (k : Thing) (ttl : Int) (count : Nat)
    (e : entry_t Thing) (l : List (entry_t Thing))
    (h : entriesFor entry_t.thing c k = e :: l) :
    throttle c now k ttl count =
      if now + ttl > e.ttd ∨ count > e.count then
        modify entry_t.thing
          (fun x => { x with ttd := max e.ttd (now + ttl), count := max e.count count }) k c
      else c := by
  unfold throttle
  rw [find_eq_head, h]
  rfl

theorem entriesFor_throttle_other (c : cont_t Thing) (now : Int) (k : Thing) (ttl : Int)
    (count : Nat) (k1 : Thing) (hk1 : k1 ≠ k) :
    entriesFor entry_t.thing (throttle c now k ttl count) k1 = entriesFor entry_t.thing c k1 := by
  have hne : ¬ k = k1 := fun hh => hk1 hh.symm
  cases hq : entriesFor entry_t.thing c k with
  | nil =>
    rw [throttle_of_nil c now k ttl count hq, entriesFor_append_singleton]
    simp [hne]
  | cons e l =>
    rw [throttle_of_cons c now k ttl count e l hq]
    by_cases hc : now + ttl > e.ttd ∨ count > e.count
    · simp only [hc, if_true]
      rw [entriesFor_modify entry_t.thing
        (fun x => { x with ttd := max e.ttd (now + ttl), count := max e.count count })
        (fun _ => rfl), if_neg hne]
    · simp only [hc, if_false]

theorem entriesFor_shouldThrottle_other (c : cont_t Thing) (now : Int) (k k1 : Thing)
    (hk1 : k1 ≠ k) :
    entriesFor entry_t.thing (shouldThrottle c now k).2 k1 = entriesFor entry_t.thing c k1 := by
  have hne : ¬ k = k1 := fun hh => hk1 hh.symm
  cases hq : entriesFor entry_t.thing c k with
  | nil => rw [shouldThrottle_of_nil c now k hq]
  | cons e l =>
    rw [shouldThrottle_of_cons c now k e l hq]
    by_cases hc : now > e.ttd ∨ e.count = 0
    · simp only [hc, if_true]
      rw [entriesFor_erase, if_neg hne]
    · simp only [hc, if_false]
      rw [entriesFor_modify entry_t.thing (fun e => { e with count := e.count - 1 })
        (fun _ => rfl), if_neg hne]

theorem uniqueKeys_throttle (c : cont_t Thing) (h : UniqueKeys entry_t.thing c)
    (now : Int) (k : Thing) (ttl : Int) (count : Nat) :
    UniqueKeys entry_t.thing (throttle c now k ttl count) := by
  cases hq : entriesFor entry_t.thing c k with
  | nil =>
    rw [throttle_of_nil c now k ttl count hq]
    refine uniqueKeys_append_singleton entry_t.thing c _ ?_ h
    rw [find_eq_head]
    show (entriesFor entry_t.thing c k).head? = none
    rw [hq]
    rfl
  | cons e l =>
    rw [throttle_of_cons c now k ttl count e l hq]
    by_cases hc : now + ttl > e.ttd ∨ count > e.count
    · simp only [hc, if_true]
      exact uniqueKeys_modify entry_t.thing
        (fun x => { x with ttd := max e.ttd (now + ttl), count := max e.count count })
        (fun _ => rfl) c k h
    · simp only [hc, if_false]
      exact h

omit [DecidableEq Thing] in
theorem length_filter_add_countP (c : cont_t Thing) (now : Int) :
    (c.filter (fun e => decide (now < e.ttd))).length +
      c.countP (fun e => decide (e.ttd ≤ now)) = c.length := by
  induction c with
  | nil => rfl
  | cons a l ih =>
    by_cases hh : a.ttd ≤ now
    · have hn : ¬ now < a.ttd := not_lt.mpr hh
      simp only [List.filter_cons, List.countP_cons, hh, hn, decide_True, decide_False,
        if_true, List.length_cons]
      simp only [Bool.false_eq_true, if_false]
      omega
    · have hn : now < a.ttd := not_le.mp hh
      simp only [List.filter_cons, List.countP_cons, hh, hn, decide_True, decide_False,
        if_true, List.length_cons]
      simp only [Bool.false_eq_true, if_false]
      omega

omit [DecidableEq Thing] in
theorem prune_eq_filter (c : cont_t Thing) (now : Int) :
    prune c now = (timeIndex entry_t.ttd c).filter (fun e => decide (now < e.ttd)) :=
  dropWhile_le_eq_filter entry_t.ttd now _ (ascending_timeIndex entry_t.ttd c)

omit [DecidableEq Thing] in
theorem perm_prune (c : cont_t Thing) (now : Int) :
    (prune c now).Perm (c.filter (fun e => decide (now < e.ttd))) := by
  rw [prune_eq_filter]
  exact (perm_timeIndex entry_t.ttd c).filter _

end Throttle

/-- C4. `Throttle::throttle(now, k, ttl, count)` on a map with at most one entry
per key is an upsert: with no entry for `k` the map gains (k, now + ttl, count)
and grows by one; with an entry (ttd0, count0) for `k` the entry becomes
(max ttd0 (now + ttl), max count0 count) and the size stays; the entries of every
other key are the same as before, and keys stay unique. -/
theorem Throttle.throttle_upsert {Thing : Type} [DecidableEq Thing]
    (c : Throttle.cont_t Thing) (h : MultiIndex.UniqueKeys Throttle.entry_t.thing c)
    (now : Int) (k : Thing) (ttl : Int) (count : Nat) :
    ((∀ e ∈ c, e.thing ≠ k) →
        MultiIndex.entriesFor Throttle.entry_t.thing (Throttle.throttle c now k ttl count) k =
          [{ thing := k, ttd := now + ttl, count := count }] ∧
        Throttle.size (Throttle.throttle c now k ttl count) = Throttle.size c + 1) ∧
    (∀ e0 ∈ c, e0.thing = k →
        MultiIndex.entriesFor Throttle.entry_t.thing (Throttle.throttle c now k ttl count) k =
          [{ thing := k, ttd := max e0.ttd (now + ttl), count := max e0.count count }] ∧
        Throttle.size (Throttle.throttle c now k ttl count) = Throttle.size c) ∧
    (∀ k1, k1 ≠ k →
        MultiIndex.entriesFor Throttle.entry_t.thing (Throttle.throttle c now k ttl count) k1 =
          MultiIndex.entriesFor Throttle.entry_t.thing c k1) ∧
    MultiIndex.UniqueKeys Throttle.entry_t.thing (Throttle.throttle c now k ttl count) := by
  refine ⟨?_, ?_, fun k1 hk1 => Throttle.entriesFor_throttle_other c now k ttl count k1 hk1,
    Throttle.uniqueKeys_throttle c h now k ttl count⟩
  · intro hno
    have h0 : MultiIndex.entriesFor Throttle.entry_t.thing c k = [] := by
      rw [List.eq_nil_iff_forall_not_mem]
      intro x hx
      have := (MultiIndex.mem_entriesFor _ c k x).mp hx
      exact hno x this.1 this.2
    rw [Throttle.throttle_of_nil c now k ttl count h0, MultiIndex.entriesFor_append_singleton, h0]
    simp [Throttle.size]
  · intro e0 he0 hk
    have hq : MultiIndex.entriesFor Throttle.entry_t.thing c k = [e0] := by
      rw [← hk]
      exact MultiIndex.entriesFor_eq_singleton_of_mem _ c h e0 he0
    rw [Throttle.throttle_of_cons c now k ttl count e0 [] hq]
    by_cases hc : now + ttl > e0.ttd ∨ count > e0.count
    · simp only [hc, if_true]
      rw [MultiIndex.entriesFor_modify Throttle.entry_t.thing
        (fun x => { x with ttd := max e0.ttd (now + ttl), count := max e0.count count })
        (fun _ => rfl), if_pos rfl, hq]
      refine ⟨?_, MultiIndex.length_modify _ _ _ _⟩
      simp [List.modifyHead, hk]
    · simp only [hc, if_false]
      refine ⟨?_, trivial⟩
      rw [hq]
      have h1 : ¬ now + ttl > e0.ttd := fun hh => hc (Or.inl hh)
      have h2 : ¬ count > e0.count := fun hh => hc (Or.inr hh)
      have m1 : max e0.ttd (now + ttl) = e0.ttd := max_eq_left (not_lt.mp h1)
      have m2 : max e0.count count = e0.count := max_eq_left (not_lt.mp h2)
      rw [m1, m2, ← hk]

/-- Witness of C4: an entry with a later expiry and a smaller count. -/
theorem Throttle.throttle_upsert_witness :
    MultiIndex.entriesFor Throttle.entry_t.thing
        (Throttle.throttle [⟨1, 5, 2⟩, ⟨2, 3, 0⟩] 4 (1 : Nat) 10 1) 1 =
      [{ thing := 1, ttd := max 5 (4 + 10), count := max 2 1 }] ∧
    Throttle.size (Throttle.throttle [⟨1, 5, 2⟩, ⟨2, 3, 0⟩] 4 (1 : Nat) 10 1) =
      Throttle.size ([⟨1, 5, 2⟩, ⟨2, 3, 0⟩] : Throttle.cont_t Nat) :=
  (Throttle.throttle_upsert [⟨1, 5, 2⟩, ⟨2, 3, 0⟩] (by decide) 4 1 10 1).2.1
    ⟨1, 5, 2⟩ (by decide) rfl

/-- C5. `Throttle::prune` run at wall-clock time `now` leaves exactly the entries
with `ttd > now`, each unchanged (as a multiset: the map after is a permutation
of the entries of the map before that have `ttd > now`).  So `size()` afterwards
is the number of entries with `ttd > now`, and `size()` afterwards plus the
number of entries with `ttd ≤ now` is `size()` before; hence `size()` afterwards
is `size()` before minus that number. -/
theorem Throttle.prune_removes_expired {Thing : Type}
    (c : Throttle.cont_t Thing) (now : Int) :
    (Throttle.prune c now).Perm (c.filter (fun e => decide (now < e.ttd))) ∧
    (∀ x, x ∈ Throttle.prune c now ↔ x ∈ c ∧ now < x.ttd) ∧
    Throttle.size (Throttle.prune c now) = c.countP (fun e => decide (now < e.ttd)) ∧
    Throttle.size (Throttle.prune c now) + c.countP (fun e => decide (e.ttd ≤ now)) =
      Throttle.size c ∧
    Throttle.size c = c.length ∧
    Throttle.size (Throttle.prune c now) =
      Throttle.size c - c.countP (fun e => decide (e.ttd ≤ now)) := by
  have hp := Throttle.perm_prune c now
  have h1 := Throttle.length_filter_add_countP c now
  have hlen : Throttle.size (Throttle.prune c now) =
      (c.filter (fun e => decide (now < e.ttd))).length := by
    unfold Throttle.size
    exact hp.length_eq
  refine ⟨hp, ?_, ?_, ?_, rfl, ?_⟩
  · intro x
    rw [hp.mem_iff]
    simp
  · rw [hlen, List.countP_eq_length_filter]
  · rw [hlen]
    exact h1
  · rw [hlen]
    show _ = c.length - _
    omega

namespace Throttle

open MultiIndex

variable {Thing : Type} [DecidableEq Thing]

theorem entriesFor_prune (c : cont_t Thing) (wall : Int) (k : Thing) :
    (entriesFor entry_t.thing c k = [] → entriesFor entry_t.thing (prune c wall) k = []) ∧
    (∀ e, entriesFor entry_t.thing c k = [e] → wall < e.ttd →
      entriesFor entry_t.thing (prune c wall) k = [e]) := by
  have hcomm : entriesFor entry_t.thing (prune c wall) k =
      (entriesFor entry_t.thing (timeIndex entry_t.ttd c) k).filter
        (fun e => decide (wall < e.ttd)) := by
    rw [prune_eq_filter]
    unfold entriesFor
    rw [List.filter_filter, List.filter_filter]
    congr 1
    funext e
    exact Bool.and_comm _ _
  have hperm : (entriesFor entry_t.thing (timeIndex entry_t.ttd c) k).Perm
      (entriesFor entry_t.thing c k) := (perm_timeIndex entry_t.ttd c).filter _
  constructor
  · intro h0
    rw [h0] at hperm
    rw [hcomm, List.Perm.eq_nil hperm]
    rfl
  · intro e he hw
    rw [he] at hperm
    rw [hcomm, List.perm_singleton.mp hperm]
    simp [hw]

theorem runOps_answers (now ttl : Int) (k : Thing) (ops : List (Op Thing)) :
    ∀ (c : cont_t Thing) (m : Nat),
      (entriesFor entry_t.thing c k = [{ thing := k, ttd := now + ttl, count := m }] ∨
        (m = 0 ∧ entriesFor entry_t.thing c k = [])) →
      (∀ op ∈ ops, Op.Allowed now ttl k op) →
      (runOps now k c ops).1 =
        List.replicate (min m (asks ops)) true ++ List.replicate (asks ops - m) false := by
  induction ops with
  | nil => intro c m _ _; simp [runOps, asks]
  | cons op ops ih =>
    intro c m hc hall
    have hrest : ∀ op1 ∈ ops, Op.Allowed now ttl k op1 :=
      fun op1 h1 => hall op1 (List.mem_cons_of_mem _ h1)
    have hop : Op.Allowed now ttl k op := hall op (List.mem_cons_self _ _)
    cases op with
    | ask d =>
      have hd : d < ttl := hop
      simp only [runOps, asks]
      rcases hc with hc | ⟨hm, hc⟩
      · rw [shouldThrottle_of_cons c (now + d) k _ [] hc]
        by_cases hz : m = 0
        · have hcond : (now + d > now + ttl ∨ m = 0) := Or.inr hz
          simp only [hcond, if_true]
          have hnext : entriesFor entry_t.thing (erase entry_t.thing c k) k = [] := by
            rw [entriesFor_erase, if_pos rfl, hc]
            rfl
          rw [ih _ 0 (Or.inr ⟨rfl, hnext⟩) hrest]
          subst hz
          simp [List.replicate_succ]
        · have hcond : ¬ (now + d > now + ttl ∨ m = 0) := by
            rintro (h1 | h1)
            · omega
            · exact hz h1
          simp only [hcond, if_false]
          have hnext : entriesFor entry_t.thing
              (modify entry_t.thing (fun e => { e with count := e.count - 1 }) k c) k =
              [{ thing := k, ttd := now + ttl, count := m - 1 }] := by
            rw [entriesFor_modify entry_t.thing (fun e => { e with count := e.count - 1 })
              (fun _ => rfl), if_pos rfl, hc]
            rfl
          rw [ih _ (m - 1) (Or.inl hnext) hrest]
          have e1 : min m (asks ops + 1) = min (m - 1) (asks ops) + 1 := by omega
          have e2 : asks ops + 1 - m = asks ops - (m - 1) := by omega
          rw [e1, e2, List.replicate_succ]
          rfl
      · rw [shouldThrottle_of_nil c (now + d) k hc]
        rw [ih c m (Or.inr ⟨hm, hc⟩) hrest]
        subst hm
        simp [List.replicate_succ]
    | askOther tm t =>
      have ht : t ≠ k := hop
      simp only [runOps, asks]
      apply ih _ m _ hrest
      rw [entriesFor_shouldThrottle_other c tm t k (fun hh => ht hh.symm)]
      exact hc
    | throttleOther tm t ttl1 count =>
      have ht : t ≠ k := hop
      simp only [runOps, asks]
      apply ih _ m _ hrest
      rw [entriesFor_throttle_other c tm t ttl1 count k (fun hh => ht hh.symm)]
      exact hc
    | pruneAt wall =>
      have hw : wall < now + ttl := hop
      simp only [runOps, asks]
      apply ih _ m _ hrest
      rcases hc with hc | ⟨hm, hc⟩
      · exact Or.inl ((entriesFor_prune c wall k).2 _ hc hw)
      · exact Or.inr ⟨hm, (entriesFor_prune c wall k).1 hc⟩

end Throttle

/-- C3. From a map with no entry for `k`, after `throttle(now, k, ttl, n)`, run
any list of operations in which every lookup of `k` is `shouldThrottle(now + d, k)`
with `d < ttl` and every other operation leaves the entry of `k` alone (lookups
and upserts of other keys, prunes before `now + ttl`): the lookups of `k` answer
true for exactly the first `n` of them and false for all later ones. -/
theorem Throttle.throttle_then_shouldThrottle {Thing : Type} [DecidableEq Thing]
    (c : Throttle.cont_t Thing) (now : Int) (k : Thing) (ttl : Int) (n : Nat)
    (ops : List (Throttle.Op Thing))
    (hfresh : ∀ e ∈ c, e.thing ≠ k)
    (hops : ∀ op ∈ ops, Throttle.Op.Allowed now ttl k op) :
    (Throttle.runOps now k (Throttle.throttle c now k ttl n) ops).1 =
      List.replicate (min n (Throttle.asks ops)) true ++
        List.replicate (Throttle.asks ops - n) false := by
  apply Throttle.runOps_answers now ttl k ops _ n _ hops
  left
  have h0 : MultiIndex.entriesFor Throttle.entry_t.thing c k = [] := by
    rw [List.eq_nil_iff_forall_not_mem]
    intro x hx
    have := (MultiIndex.mem_entriesFor _ c k x).mp hx
    exact hfresh x this.1 this.2
  rw [Throttle.throttle_of_nil c now k ttl n h0, MultiIndex.entriesFor_append_singleton, h0]
  simp

/-- Witness of C3: two tries granted, four lookups of the key with another key
looked up and throttled in between. -/
theorem Throttle.throttle_then_shouldThrottle_witness :
    (Throttle.runOps 100 (1 : Nat) (Throttle.throttle [⟨2, 103, 1⟩] 100 1 10 2)
        [.ask 0, .askOther 101 2, .ask 9, .throttleOther 102 3 5 1, .ask (-4), .pruneAt 109,
          .ask 3]).1 =
      List.replicate (min 2 4) true ++ List.replicate (4 - 2) false :=
  Throttle.throttle_then_shouldThrottle [⟨2, 103, 1⟩] 100 1 10 2
    [.ask 0, .askOther 101 2, .ask 9, .throttleOther 102 3 5 1, .ask (-4), .pruneAt 109, .ask 3]
    (by decide) (by
      intro op hop
      simp only [List.mem_cons, List.mem_singleton, List.not_mem_nil, or_false] at hop
      rcases hop with h | h | h | h | h | h | h <;> subst h <;> simp [Throttle.Op.Allowed])

/-! ## `TimedSet` -/

namespace MultiIndex

variable {ε κ : Type} [DecidableEq κ]

theorem entriesFor_filter_timeIndex (key : ε → κ) (ttd : ε → Int) (p : ε → Bool)
    (c : List ε) (k : κ) :
    (entriesFor key c k = [] → entriesFor key ((timeIndex ttd c).filter p) k = []) ∧
    (∀ e, entriesFor key c k = [e] →
      entriesFor key ((timeIndex ttd c).filter p) k = if p e then [e] else []) := by
  have hcomm : entriesFor key ((timeIndex ttd c).filter p) k =
      (entriesFor key (timeIndex ttd c) k).filter p := by
    unfold entriesFor
    rw [List.filter_filter, List.filter_filter]
    congr 1
    funext e
    exact Bool.and_comm _ _
  have hperm : (entriesFor key (timeIndex ttd c) k).Perm (entriesFor key c k) :=
    (perm_timeIndex ttd c).filter _
  constructor
  · intro h0
    rw [h0] at hperm
    rw [hcomm, List.Perm.eq_nil hperm]
    rfl
  · intro e he
    rw [he] at hperm
    rw [hcomm, List.perm_singleton.mp hperm]
    by_cases hp : p e = true <;> simp [hp]

end MultiIndex

namespace TimedSet

open MultiIndex

variable {Name : Type} [DecidableEq Name]

omit [DecidableEq Name] in
theorem purgeLoop_eq (now : Int) (l : List (Entry Name)) (erased : Nat) :
    purgeLoop now l erased =
      (erased + (l.takeWhile (fun e => decide (e.d_ttd < now))).length,
        l.dropWhile (fun e => decide (e.d_ttd < now))) := by
  induction l generalizing erased with
  | nil => simp [purgeLoop]
  | cons a l ih =>
    by_cases h : a.d_ttd < now
    · simp only [purgeLoop, h, if_true, List.takeWhile_cons, List.dropWhile_cons, decide_True,
        List.length_cons]
      rw [ih]
      congr 1
      omega
    · simp [purgeLoop, h, List.takeWhile_cons, List.dropWhile_cons]

omit [DecidableEq Name] in
theorem purge_set (s : TimedSet Name) (now : Int) :
    (purge s now).2 =
      { s with d_set := (timeIndex Entry.d_ttd s.d_set).filter (fun e => decide (now ≤ e.d_ttd)) } := by
  unfold purge
  simp only [purgeLoop_eq]
  rw [dropWhile_lt_eq_filter Entry.d_ttd now _ (ascending_timeIndex Entry.d_ttd s.d_set)]

omit [DecidableEq Name] in
theorem length_kept_add_countP (c : List (Entry Name)) (now : Int) :
    (c.filter (fun e => decide (now ≤ e.d_ttd))).length +
      c.countP (fun e => decide (e.d_ttd < now)) = c.length := by
  induction c with
  | nil => rfl
  | cons a l ih =>
    by_cases hh : a.d_ttd < now
    · have hn : ¬ now ≤ a.d_ttd := not_le.mpr hh
      simp only [List.filter_cons, List.countP_cons, hh, hn, decide_True, decide_False,
        if_true, List.length_cons]
      simp only [Bool.false_eq_true, if_false]
      omega
    · have hn : now ≤ a.d_ttd := not_lt.mp hh
      simp only [List.filter_cons, List.countP_cons, hh, hn, decide_True, decide_False,
        if_true, List.length_cons]
      simp only [Bool.false_eq_true, if_false]
      omega

omit [DecidableEq Name] in
theorem purge_erased (s : TimedSet Name) (now : Int) :
    (purge s now).1 = s.d_set.countP (fun e => decide (e.d_ttd < now)) := by
  have hset := purge_set s now
  have hlen : (purge s now).1 + (purge s now).2.d_set.length =
      (timeIndex Entry.d_ttd s.d_set).length := by
    unfold purge
    simp only [purgeLoop_eq, Nat.zero_add]
    have := List.takeWhile_append_dropWhile (fun e : Entry Name => decide (e.d_ttd < now))
      (timeIndex Entry.d_ttd s.d_set)
    have h2 := congrArg List.length this
    rw [List.length_append] at h2
    exact h2
  rw [hset] at hlen
  have hp := perm_timeIndex Entry.d_ttd s.d_set
  have h1 := length_kept_add_countP (timeIndex Entry.d_ttd s.d_set) now
  have h3 : (timeIndex Entry.d_ttd s.d_set).countP (fun e => decide (e.d_ttd < now)) =
      s.d_set.countP (fun e => decide (e.d_ttd < now)) := hp.countP_eq _
  simp only at hlen
  omega

omit [DecidableEq Name] in
theorem mem_purge (s : TimedSet Name) (now : Int) (x : Entry Name) :
    x ∈ (purge s now).2.d_set ↔ x ∈ s.d_set ∧ now ≤ x.d_ttd := by
  rw [purge_set]
  simp only [List.mem_filter, decide_eq_true_eq]
  rw [(perm_timeIndex Entry.d_ttd s.d_set).mem_iff]

omit [DecidableEq Name] in
theorem purge_erased_pos_iff (s : TimedSet Name) (now : Int) :
    0 < (purge s now).1 ↔ ∃ e ∈ s.d_set, e.d_ttd < now := by
  rw [purge_erased, List.countP_pos_iff]
  simp

omit [DecidableEq Name] in
theorem uniqueKeys_purge (s : TimedSet Name) (now : Int)
    (h : UniqueKeys Entry.key s.d_set) : UniqueKeys Entry.key (purge s now).2.d_set := by
  rw [purge_set]
  exact uniqueKeys_of_sublist Entry.key (List.filter_sublist _)
    (uniqueKeys_of_perm Entry.key (perm_timeIndex Entry.d_ttd s.d_set) h)

theorem entriesFor_purge (s : TimedSet Name) (now : Int) (k : Name × Nat × Bool) :
    (entriesFor Entry.key s.d_set k = [] → entriesFor Entry.key (purge s now).2.d_set k = []) ∧
    (∀ e, entriesFor Entry.key s.d_set k = [e] →
      entriesFor Entry.key (purge s now).2.d_set k = if now ≤ e.d_ttd then [e] else []) := by
  rw [purge_set]
  have := entriesFor_filter_timeIndex Entry.key Entry.d_ttd
    (fun e => decide (now ≤ e.d_ttd)) s.d_set k
  refine ⟨this.1, ?_⟩
  intro e he
  rw [this.2 e he]
  simp

theorem emplace_fst (c : List (Entry Name)) (task : pdns.ResolveTask Name) (ttd : Int) :
    (emplace c task ttd).1 = true ↔ ∀ e ∈ c, e.key ≠ task.key := by
  unfold emplace
  rw [find_eq_head]
  cases hq : entriesFor Entry.key c task.key with
  | nil =>
    simp only [List.head?_nil, true_iff]
    intro e he hk
    have : e ∈ entriesFor Entry.key c task.key := (mem_entriesFor _ _ _ _).mpr ⟨he, hk⟩
    rw [hq] at this
    cases this
  | cons a l =>
    simp only [List.head?_cons, Bool.false_eq_true, false_iff]
    intro hall
    have : a ∈ entriesFor Entry.key c task.key := by rw [hq]; exact List.mem_cons_self _ _
    have := (mem_entriesFor _ _ _ _).mp this
    exact hall a this.1 this.2

theorem emplace_snd (c : List (Entry Name)) (task : pdns.ResolveTask Name) (ttd : Int) :
    (emplace c task ttd).2 =
      if (emplace c task ttd).1 then c ++ [{ d_task := task, d_ttd := ttd }] else c := by
  unfold emplace
  cases find Entry.key c task.key <;> rfl

/-- The set after the periodic purge at the head of `insert`. -/
theorem insert_eq (s : TimedSet Name) (now : Int) (task : pdns.ResolveTask Name) :
    ∃ (S1 : List (Entry Name)) (cnt : Nat),
      (S1 = s.d_set ∨
        S1 = (timeIndex Entry.d_ttd s.d_set).filter (fun e => decide (now ≤ e.d_ttd))) ∧
      insert s now task =
        if (emplace S1 task (now + s.d_expiry_seconds)).1 = true then
          (true, { d_set := S1 ++ [{ d_task := task, d_ttd := now + s.d_expiry_seconds }],
                   d_expiry_seconds := s.d_expiry_seconds, d_count := cnt })
        else if 0 < S1.countP (fun e => decide (e.d_ttd < now)) ∧
            (emplace ((timeIndex Entry.d_ttd S1).filter (fun e => decide (now ≤ e.d_ttd)))
              task (now + s.d_expiry_seconds)).1 = true then
          (true, { d_set := (timeIndex Entry.d_ttd S1).filter (fun e => decide (now ≤ e.d_ttd))
                      ++ [{ d_task := task, d_ttd := now + s.d_expiry_seconds }],
                   d_expiry_seconds := s.d_expiry_seconds, d_count := cnt })
        else
          (false, { d_set := (timeIndex Entry.d_ttd S1).filter (fun e => decide (now ≤ e.d_ttd)),
                    d_expiry_seconds := s.d_expiry_seconds, d_count := cnt }) := by
  have main : ∀ s1 : TimedSet Name,
      (let ttd := now + s1.d_expiry_seconds
       let r := emplace s1.d_set task ttd
       if r.1 then (true, { s1 with d_set := r.2 })
       else
         let p := purge { s1 with d_set := r.2 } now
         if p.1 > 0 then
           let r2 := emplace p.2.d_set task ttd
           (r2.1, { p.2 with d_set := r2.2 })
         else (false, p.2)) =
        if (emplace s1.d_set task (now + s1.d_expiry_seconds)).1 = true then
          (true, { d_set := s1.d_set ++ [{ d_task := task, d_ttd := now + s1.d_expiry_seconds }],
                   d_expiry_seconds := s1.d_expiry_seconds, d_count := s1.d_count })
        else if 0 < s1.d_set.countP (fun e => decide (e.d_ttd < now)) ∧
            (emplace ((timeIndex Entry.d_ttd s1.d_set).filter (fun e => decide (now ≤ e.d_ttd)))
              task (now + s1.d_expiry_seconds)).1 = true then
          (true, { d_set := (timeIndex Entry.d_ttd s1.d_set).filter
                      (fun e => decide (now ≤ e.d_ttd))
                      ++ [{ d_task := task, d_ttd := now + s1.d_expiry_seconds }],
                   d_expiry_seconds := s1.d_expiry_seconds, d_count := s1.d_count })
        else
          (false, { d_set := (timeIndex Entry.d_ttd s1.d_set).filter
                      (fun e => decide (now ≤ e.d_ttd)),
                    d_expiry_seconds := s1.d_expiry_seconds, d_count := s1.d_count }) := by
    intro s1
    simp only
    by_cases h1 : (emplace s1.d_set task (now + s1.d_expiry_seconds)).1 = true
    · simp only [h1, if_true]
      rw [emplace_snd, if_pos h1]
    · simp only [h1, if_false, Bool.false_eq_true]
      rw [emplace_snd, if_neg h1]
      simp only [purge_set, purge_erased, gt_iff_lt]
      by_cases h2 : 0 < s1.d_set.countP (fun e => decide (e.d_ttd < now))
      · simp only [h2, if_true, true_and]
        by_cases h3 : (emplace ((timeIndex Entry.d_ttd s1.d_set).filter
            (fun e => decide (now ≤ e.d_ttd))) task (now + s1.d_expiry_seconds)).1 = true
        · simp only [h3, if_true]
          rw [emplace_snd, if_pos h3]
        · simp only [h3, if_false, Bool.false_eq_true]
          rw [emplace_snd, if_neg h3]
      · simp only [h2, if_false, false_and]
  unfold insert
  by_cases hper : (s.d_count + 1) % 2 ^ 32 % 1024 = 0
  · have hp := purge_set { s with d_count := (s.d_count + 1) % 2 ^ 32 } now
    refine ⟨(timeIndex Entry.d_ttd s.d_set).filter (fun e => decide (now ≤ e.d_ttd)),
      (s.d_count + 1) % 2 ^ 32, Or.inr rfl, ?_⟩
    simp only [hper, if_true]
    rw [hp]
    exact main ⟨(timeIndex Entry.d_ttd s.d_set).filter (fun e => decide (now ≤ e.d_ttd)),
      s.d_expiry_seconds, (s.d_count + 1) % 2 ^ 32⟩
  · refine ⟨s.d_set, (s.d_count + 1) % 2 ^ 32, Or.inl rfl, ?_⟩
    simp only [hper, if_false]
    exact main ⟨s.d_set, s.d_expiry_seconds, (s.d_count + 1) % 2 ^ 32⟩

omit [DecidableEq Name] in
theorem mem_purged (c : List (Entry Name)) (now : Int) (x : Entry Name) :
    x ∈ (timeIndex Entry.d_ttd c).filter (fun e => decide (now ≤ e.d_ttd)) ↔
      x ∈ c ∧ now ≤ x.d_ttd := by
  simp only [List.mem_filter, decide_eq_true_eq]
  rw [(perm_timeIndex Entry.d_ttd c).mem_iff]

omit [DecidableEq Name] in
theorem uniqueKeys_purged (c : List (Entry Name)) (now : Int) (h : UniqueKeys Entry.key c) :
    UniqueKeys Entry.key ((timeIndex Entry.d_ttd c).filter (fun e => decide (now ≤ e.d_ttd))) :=
  uniqueKeys_of_sublist Entry.key (List.filter_sublist _)
    (uniqueKeys_of_perm Entry.key (perm_timeIndex Entry.d_ttd c) h)

/-- What `insert` does, in one statement: the set afterwards is a part `R` of
the set before that kept every entry with `now ≤ ttd`, followed by the new entry
when the insertion succeeded. -/
theorem insert_result (s : TimedSet Name) (now : Int) (task : pdns.ResolveTask Name) :
    ∃ R : List (Entry Name),
      (∀ x ∈ R, x ∈ s.d_set) ∧
      (∀ x ∈ s.d_set, now ≤ x.d_ttd → x ∈ R) ∧
      (UniqueKeys Entry.key s.d_set → UniqueKeys Entry.key R) ∧
      (insert s now task).2.d_set =
        R ++ (if (insert s now task).1 = true then
                [{ d_task := task, d_ttd := now + s.d_expiry_seconds }] else []) ∧
      ((insert s now task).1 = true → ∀ x ∈ R, x.key ≠ task.key) ∧
      ((insert s now task).1 = true ↔ ∀ e ∈ s.d_set, e.key = task.key → e.d_ttd < now) ∧
      (insert s now task).2.d_expiry_seconds = s.d_expiry_seconds := by
  obtain ⟨S1, cnt, hS1, heq⟩ := insert_eq s now task
  have a1 : ∀ x ∈ S1, x ∈ s.d_set := by
    intro x hx
    rcases hS1 with h | h
    · rw [h] at hx; exact hx
    · rw [h] at hx; exact ((mem_purged _ _ _).mp hx).1
  have b1 : ∀ x ∈ s.d_set, now ≤ x.d_ttd → x ∈ S1 := by
    intro x hx hle
    rcases hS1 with h | h
    · rw [h]; exact hx
    · rw [h]; exact (mem_purged _ _ _).mpr ⟨hx, hle⟩
  have c1 : UniqueKeys Entry.key s.d_set → UniqueKeys Entry.key S1 := by
    intro hu
    rcases hS1 with h | h
    · rw [h]; exact hu
    · rw [h]; exact uniqueKeys_purged _ _ hu
  rw [heq]
  by_cases h1 : (emplace S1 task (now + s.d_expiry_seconds)).1 = true
  · rw [if_pos h1]
    have hfree := (emplace_fst S1 task _).mp h1
    refine ⟨S1, a1, b1, c1, (by simp), fun _ => hfree, ?_, rfl⟩
    refine ⟨fun _ e he hk => ?_, fun _ => rfl⟩
    by_contra hge
    exact hfree e (b1 e he (not_lt.mp hge)) hk
  · rw [if_neg h1]
    have a2 : ∀ x ∈ (timeIndex Entry.d_ttd S1).filter (fun e => decide (now ≤ e.d_ttd)),
        x ∈ s.d_set := fun x hx => a1 x ((mem_purged _ _ _).mp hx).1
    have b2 : ∀ x ∈ s.d_set, now ≤ x.d_ttd →
        x ∈ (timeIndex Entry.d_ttd S1).filter (fun e => decide (now ≤ e.d_ttd)) :=
      fun x hx hle => (mem_purged _ _ _).mpr ⟨b1 x hx hle, hle⟩
    have c2 : UniqueKeys Entry.key s.d_set → UniqueKeys Entry.key
        ((timeIndex Entry.d_ttd S1).filter (fun e => decide (now ≤ e.d_ttd))) :=
      fun hu => uniqueKeys_purged _ _ (c1 hu)
    by_cases h2 : 0 < S1.countP (fun e => decide (e.d_ttd < now)) ∧
        (emplace ((timeIndex Entry.d_ttd S1).filter (fun e => decide (now ≤ e.d_ttd)))
          task (now + s.d_expiry_seconds)).1 = true
    · rw [if_pos h2]
      have hfree := (emplace_fst _ task _).mp h2.2
      refine ⟨_, a2, b2, c2, (by simp), fun _ => hfree, ?_, rfl⟩
      refine ⟨fun _ e he hk => ?_, fun _ => rfl⟩
      by_contra hge
      exact hfree e (b2 e he (not_lt.mp hge)) hk
    · rw [if_neg h2]
      refine ⟨_, a2, b2, c2, (by simp), (fun hf => (by cases hf)), ?_, rfl⟩
      refine ⟨(fun hf => (by cases hf)), fun hall => ?_⟩
      exfalso
      apply h2
      have hex : ∃ e0 ∈ S1, e0.key = task.key := by
        by_contra hno
        apply h1
        rw [emplace_fst]
        intro e he hk
        exact hno ⟨e, he, hk⟩
      obtain ⟨e0, he0, hk0⟩ := hex
      constructor
      · rw [List.countP_pos_iff]
        exact ⟨e0, he0, by simpa using hall e0 (a1 e0 he0) hk0⟩
      · rw [emplace_fst]
        intro e he hk
        have hm := (mem_purged _ _ _).mp he
        have := hall e (a1 e hm.1) hk
        omega

theorem entriesFor_eq_nil_of_forall (c : List (Entry Name)) (k : Name × Nat × Bool)
    (h : ∀ x ∈ c, x.key ≠ k) : entriesFor Entry.key c k = [] := by
  rw [List.eq_nil_iff_forall_not_mem]
  intro x hx
  have := (mem_entriesFor _ c k x).mp hx
  exact h x this.1 this.2

theorem uniqueKeys_insert (s : TimedSet Name) (now : Int) (task : pdns.ResolveTask Name)
    (hu : UniqueKeys Entry.key s.d_set) : UniqueKeys Entry.key (insert s now task).2.d_set := by
  obtain ⟨R, _, _, hc, hset, hfree, _, _⟩ := insert_result s now task
  rw [hset]
  by_cases hi : (insert s now task).1 = true
  · rw [if_pos hi]
    refine uniqueKeys_append_singleton Entry.key R _ ?_ (hc hu)
    rw [find_eq_head]
    have : entriesFor Entry.key R task.key = [] := entriesFor_eq_nil_of_forall R _ (hfree hi)
    show (entriesFor Entry.key R task.key).head? = none
    rw [this]
    rfl
  · rw [if_neg hi, List.append_nil]
    exact hc hu

theorem insert_keeps_or_expired (s : TimedSet Name) (now : Int) (task : pdns.ResolveTask Name)
    (e : Entry Name) (he : e ∈ s.d_set) :
    e ∈ (insert s now task).2.d_set ∨ e.d_ttd < now := by
  obtain ⟨R, _, hb, _, hset, _, _, _⟩ := insert_result s now task
  by_cases hle : now ≤ e.d_ttd
  · left
    rw [hset]
    exact List.mem_append_left _ (hb e he hle)
  · right
    omega

theorem insert_true_mem (s : TimedSet Name) (now : Int) (task : pdns.ResolveTask Name)
    (hi : (insert s now task).1 = true) :
    ({ d_task := task, d_ttd := now + s.d_expiry_seconds } : Entry Name) ∈
      (insert s now task).2.d_set := by
  obtain ⟨R, _, _, _, hset, _, _, _⟩ := insert_result s now task
  rw [hset, if_pos hi]
  simp

theorem insert_true_expired (s : TimedSet Name) (now : Int) (task : pdns.ResolveTask Name)
    (hi : (insert s now task).1 = true) (e : Entry Name) (he : e ∈ s.d_set)
    (hk : e.key = task.key) : e.d_ttd < now := by
  obtain ⟨R, _, _, _, _, _, hiff, _⟩ := insert_result s now task
  exact hiff.mp hi e he hk

theorem insert_expiry (s : TimedSet Name) (now : Int) (task : pdns.ResolveTask Name) :
    (insert s now task).2.d_expiry_seconds = s.d_expiry_seconds := by
  obtain ⟨R, _, _, _, _, _, _, hexp⟩ := insert_result s now task
  exact hexp

end TimedSet

/-- C6. `TimedSet::insert(now, task)` on the rate-limit set (expiry 60 seconds,
at most one entry per key) answers true exactly when the set holds no entry with
the key of `task` and `ttd ≥ now`; on true the set afterwards holds exactly one
entry for that key, the new one with `ttd = now + 60`; on false the entry of
that key is the one it was before; keys stay unique. -/
theorem TimedSet.insert_spec {Name : Type} [DecidableEq Name] (s : TimedSet Name)
    (now : Int) (task : pdns.ResolveTask Name)
    (hu : MultiIndex.UniqueKeys TimedSet.Entry.key s.d_set)
    (hexp : s.d_expiry_seconds = 60) :
    ((TimedSet.insert s now task).1 = true ↔
        ¬ ∃ e ∈ s.d_set, e.key = task.key ∧ now ≤ e.d_ttd) ∧
    ((TimedSet.insert s now task).1 = true →
        MultiIndex.entriesFor TimedSet.Entry.key (TimedSet.insert s now task).2.d_set task.key =
          [{ d_task := task, d_ttd := now + 60 }]) ∧
    ((TimedSet.insert s now task).1 = false →
        MultiIndex.entriesFor TimedSet.Entry.key (TimedSet.insert s now task).2.d_set task.key =
          MultiIndex.entriesFor TimedSet.Entry.key s.d_set task.key) ∧
    MultiIndex.UniqueKeys TimedSet.Entry.key (TimedSet.insert s now task).2.d_set := by
  obtain ⟨R, ha, hb, hc, hset, hfree, hiff, _⟩ := TimedSet.insert_result s now task
  refine ⟨?_, ?_, ?_, TimedSet.uniqueKeys_insert s now task hu⟩
  · rw [hiff]
    constructor
    · rintro hall ⟨e, he, hk, hle⟩
      have := hall e he hk
      omega
    · intro hno e he hk
      by_contra hge
      exact hno ⟨e, he, hk, not_lt.mp hge⟩
  · intro hi
    rw [hset, if_pos hi, MultiIndex.entriesFor_append_singleton,
      TimedSet.entriesFor_eq_nil_of_forall R _ (hfree hi), hexp]
    simp [TimedSet.Entry.key]
  · intro hi
    have hnt : ¬ (TimedSet.insert s now task).1 = true := by simp [hi]
    rw [hset, if_neg hnt, List.append_nil]
    have hex : ∃ e ∈ s.d_set, e.key = task.key ∧ now ≤ e.d_ttd := by
      by_contra hno
      apply hnt
      rw [hiff]
      intro e he hk
      by_contra hge
      exact hno ⟨e, he, hk, not_lt.mp hge⟩
    obtain ⟨e, he, hk, hle⟩ := hex
    rw [← hk]
    show MultiIndex.entriesFor TimedSet.Entry.key R (TimedSet.Entry.key e) =
      MultiIndex.entriesFor TimedSet.Entry.key s.d_set (TimedSet.Entry.key e)
    rw [MultiIndex.entriesFor_eq_singleton_of_mem _ _ hu e he,
      MultiIndex.entriesFor_eq_singleton_of_mem _ _ (hc hu) e (hb e he hle)]

/-- Witness of C6: the key is present but expired, and another entry is live. -/
theorem TimedSet.insert_spec_witness :
    MultiIndex.entriesFor TimedSet.Entry.key
        (TimedSet.insert
          { d_set := [⟨⟨7, 1, 0, false⟩, 50⟩, ⟨⟨8, 1, 0, false⟩, 200⟩],
            d_expiry_seconds := 60, d_count := 0 }
          100 (⟨7, 1, 130, false⟩ : pdns.ResolveTask Nat)).2.d_set
        (pdns.ResolveTask.key (⟨7, 1, 130, false⟩ : pdns.ResolveTask Nat)) =
      [{ d_task := ⟨7, 1, 130, false⟩, d_ttd := 100 + 60 }] :=
  (TimedSet.insert_spec
    { d_set := [⟨⟨7, 1, 0, false⟩, 50⟩, ⟨⟨8, 1, 0, false⟩, 200⟩],
      d_expiry_seconds := 60, d_count := 0 }
    100 (⟨7, 1, 130, false⟩ : pdns.ResolveTask Nat) (by decide) rfl).2.1 (by decide)

/-! ## The task queue of `rec-taskqueue.cc` -/

namespace TaskQueue

open MultiIndex

variable {Name : Type} [DecidableEq Name]

theorem pushResolveTask_of_unsupported (Q : SyncRes.QTypeCodes) (s : State Name) (qname : Name)
    (qtype : Nat) (now deadline : Int) (h : SyncRes.isUnsupported Q qtype = true) :
    pushResolveTask Q s qname qtype now deadline = s := by
  unfold pushResolveTask
  rw [if_pos h]

theorem pushResolveTask_of_accepted (Q : SyncRes.QTypeCodes) (s : State Name) (qname : Name)
    (qtype : Nat) (now deadline : Int) (h : SyncRes.isUnsupported Q qtype = false)
    (hi : (s.s_taskQueue.rateLimitSet.insert now
      { d_qname := qname, d_qtype := qtype, d_deadline := deadline, d_refreshMode := false }).1
        = true) :
    pushResolveTask Q s qname qtype now deadline =
      { s with
        s_taskQueue :=
          { queue := s.s_taskQueue.queue.push
              { d_qname := qname, d_qtype := qtype, d_deadline := deadline,
                d_refreshMode := false },
            rateLimitSet := (s.s_taskQueue.rateLimitSet.insert now
              { d_qname := qname, d_qtype := qtype, d_deadline := deadline,
                d_refreshMode := false }).2 },
        s_resolve_tasks := { s.s_resolve_tasks with pushed := s.s_resolve_tasks.pushed + 1 } } := by
  unfold pushResolveTask
  have h0 : ¬ SyncRes.isUnsupported Q qtype = true := by simp [h]
  rw [if_neg h0]
  simp only [hi, if_true]

theorem pushResolveTask_of_rejected (Q : SyncRes.QTypeCodes) (s : State Name) (qname : Name)
    (qtype : Nat) (now deadline : Int) (h : SyncRes.isUnsupported Q qtype = false)
    (hi : (s.s_taskQueue.rateLimitSet.insert now
      { d_qname := qname, d_qtype := qtype, d_deadline := deadline, d_refreshMode := false }).1
        = false) :
    pushResolveTask Q s qname qtype now deadline =
      { s with
        s_taskQueue :=
          { s.s_taskQueue with
            rateLimitSet := (s.s_taskQueue.rateLimitSet.insert now
              { d_qname := qname, d_qtype := qtype, d_deadline := deadline,
                d_refreshMode := false }).2 } } := by
  unfold pushResolveTask
  have h0 : ¬ SyncRes.isUnsupported Q qtype = true := by simp [h]
  rw [if_neg h0]
  simp only [hi, Bool.false_eq_true, if_false]

/-- While the rate-limit set holds a live entry for the key, a push of that key
changes neither the queue nor the counters, and the entry stays. -/
theorem pushResolveTask_while_limited (Q : SyncRes.QTypeCodes) (s : State Name) (qname : Name)
    (qtype : Nat) (now deadline : Int) (e : TimedSet.Entry Name)
    (he : e ∈ s.s_taskQueue.rateLimitSet.d_set) (hk : e.key = (qname, qtype, false))
    (hle : now ≤ e.d_ttd) :
    (pushResolveTask Q s qname qtype now deadline).s_taskQueue.queue = s.s_taskQueue.queue ∧
    (pushResolveTask Q s qname qtype now deadline).s_resolve_tasks = s.s_resolve_tasks ∧
    (pushResolveTask Q s qname qtype now deadline).s_almost_expired_tasks =
      s.s_almost_expired_tasks ∧
    (pushResolveTask Q s qname qtype now deadline).s_taskQueue.rateLimitSet.d_expiry_seconds =
      s.s_taskQueue.rateLimitSet.d_expiry_seconds ∧
    e ∈ (pushResolveTask Q s qname qtype now deadline).s_taskQueue.rateLimitSet.d_set := by
  cases hu : SyncRes.isUnsupported Q qtype with
  | true =>
    rw [pushResolveTask_of_unsupported Q s qname qtype now deadline hu]
    exact ⟨rfl, rfl, rfl, rfl, he⟩
  | false =>
    have hi : (s.s_taskQueue.rateLimitSet.insert now
        { d_qname := qname, d_qtype := qtype, d_deadline := deadline,
          d_refreshMode := false }).1 = false := by
      cases hb : (s.s_taskQueue.rateLimitSet.insert now
        { d_qname := qname, d_qtype := qtype, d_deadline := deadline,
          d_refreshMode := false }).1 with
      | false => rfl
      | true =>
        have := TimedSet.insert_true_expired _ now _ hb e he hk
        omega
    rw [pushResolveTask_of_rejected Q s qname qtype now deadline hu hi]
    refine ⟨rfl, rfl, rfl, TimedSet.insert_expiry _ _ _, ?_⟩
    rcases TimedSet.insert_keeps_or_expired s.s_taskQueue.rateLimitSet now
      { d_qname := qname, d_qtype := qtype, d_deadline := deadline, d_refreshMode := false }
      e he with h | h
    · exact h
    · omega

theorem pushResolveTaskTimes_while_limited (Q : SyncRes.QTypeCodes) (qname : Name)
    (qtype : Nat) (now deadline : Int) (e : TimedSet.Entry Name)
    (hk : e.key = (qname, qtype, false)) (hle : now ≤ e.d_ttd) (n : Nat) :
    ∀ s : State Name, e ∈ s.s_taskQueue.rateLimitSet.d_set →
      (pushResolveTaskTimes Q qname qtype now deadline n s).s_taskQueue.queue =
        s.s_taskQueue.queue ∧
      (pushResolveTaskTimes Q qname qtype now deadline n s).s_resolve_tasks =
        s.s_resolve_tasks := by
  induction n with
  | zero => intro s _; exact ⟨rfl, rfl⟩
  | succ n ih =>
    intro s he
    obtain ⟨h1, h2, _, _, h5⟩ := pushResolveTask_while_limited Q s qname qtype now deadline e he hk hle
    have := ih _ h5
    simp only [pushResolveTaskTimes]
    rw [this.1, this.2, h1, h2]
    exact ⟨rfl, rfl⟩

end TaskQueue

/-- C7. For a supported type and `now2 ≤ now1 + 60`: from a cleared task queue,
`pushResolveTask(name, type, now1, d1)` followed by any number `n` of calls
`pushResolveTask(name, type, now2, d2)` raises the resolve-task pushed counter
(`s_resolve_tasks.pushed`) by exactly 1 and leaves the queue size at exactly 1. -/
theorem TaskQueue.pushResolveTask_rate_limited {Name : Type} [DecidableEq Name]
    (Q : SyncRes.QTypeCodes) (s : TaskQueue.State Name) (qname : Name) (qtype : Nat)
    (now1 d1 now2 d2 : Int) (n : Nat)
    (hexp : s.s_taskQueue.rateLimitSet.d_expiry_seconds = 60)
    (hsup : SyncRes.isUnsupported Q qtype = false)
    (hnow : now2 ≤ now1 + 60) :
    (TaskQueue.pushResolveTaskTimes Q qname qtype now2 d2 n
        (TaskQueue.pushResolveTask Q (TaskQueue.taskQueueClear s) qname qtype now1 d1)
      ).s_resolve_tasks.pushed = (TaskQueue.taskQueueClear s).s_resolve_tasks.pushed + 1 ∧
    TaskQueue.getTaskSize
      (TaskQueue.pushResolveTaskTimes Q qname qtype now2 d2 n
        (TaskQueue.pushResolveTask Q (TaskQueue.taskQueueClear s) qname qtype now1 d1)) = 1 := by
  have hins : ((TaskQueue.taskQueueClear s).s_taskQueue.rateLimitSet.insert now1
      { d_qname := qname, d_qtype := qtype, d_deadline := d1, d_refreshMode := false }).1
        = true := by
    obtain ⟨R, _, _, _, _, _, hiff, _⟩ := TimedSet.insert_result
      (TaskQueue.taskQueueClear s).s_taskQueue.rateLimitSet now1
      { d_qname := qname, d_qtype := qtype, d_deadline := d1, d_refreshMode := false }
    rw [hiff]
    intro e he
    simp [TaskQueue.taskQueueClear, TimedSet.clear] at he
  have hmem := TimedSet.insert_true_mem _ now1 _ hins
  have hexp0 : (TaskQueue.taskQueueClear s).s_taskQueue.rateLimitSet.d_expiry_seconds = 60 := hexp
  rw [hexp0] at hmem
  have hfirst := TaskQueue.pushResolveTask_of_accepted Q (TaskQueue.taskQueueClear s) qname qtype
    now1 d1 hsup hins
  have hrest := TaskQueue.pushResolveTaskTimes_while_limited Q qname qtype now2 d2
    { d_task := { d_qname := qname, d_qtype := qtype, d_deadline := d1, d_refreshMode := false },
      d_ttd := now1 + 60 } rfl hnow n
    (TaskQueue.pushResolveTask Q (TaskQueue.taskQueueClear s) qname qtype now1 d1)
    (by rw [hfirst]; exact hmem)
  unfold TaskQueue.getTaskSize
  rw [hrest.1, hrest.2, hfirst]
  exact ⟨rfl, rfl⟩

set_option maxRecDepth 100000 in
/-- Witness of C7: ten pushes of one (name, type) within one second. -/
theorem TaskQueue.pushResolveTask_rate_limited_witness :
    (TaskQueue.pushResolveTaskTimes ⟨0, 65400⟩ (7 : Nat) 1 1001 2000 9
        (TaskQueue.pushResolveTask ⟨0, 65400⟩ (TaskQueue.taskQueueClear TaskQueue.State.init)
          7 1 1000 2000)).s_resolve_tasks.pushed =
      (TaskQueue.taskQueueClear (TaskQueue.State.init : TaskQueue.State Nat)).s_resolve_tasks.pushed
        + 1 ∧
    TaskQueue.getTaskSize
      (TaskQueue.pushResolveTaskTimes ⟨0, 65400⟩ (7 : Nat) 1 1001 2000 9
        (TaskQueue.pushResolveTask ⟨0, 65400⟩ (TaskQueue.taskQueueClear TaskQueue.State.init)
          7 1 1000 2000)) = 1 :=
  TaskQueue.pushResolveTask_rate_limited ⟨0, 65400⟩ TaskQueue.State.init 7 1 1000 2000 1001 2000 9
    rfl (by decide) (by decide)

/-- C9. `SyncRes::isUnsupported` is true exactly for the codes of `ENT` and
`ADDR`, and `pushResolveTask` with either type returns the state as it was:
queue, rate-limit set and counters are untouched, so a later push (of any type,
same name) behaves as if the rejected call had never been made. -/
theorem TaskQueue.pushResolveTask_unsupported_rejected {Name : Type} [DecidableEq Name]
    (Q : SyncRes.QTypeCodes) (s : TaskQueue.State Name) (qname : Name) (now deadline : Int) :
    (∀ qtype, SyncRes.isUnsupported Q qtype = true ↔ (qtype = Q.ENT ∨ qtype = Q.ADDR)) ∧
    TaskQueue.pushResolveTask Q s qname Q.ENT now deadline = s ∧
    TaskQueue.pushResolveTask Q s qname Q.ADDR now deadline = s ∧
    (∀ qtype qtype2 now2 deadline2, SyncRes.isUnsupported Q qtype = true →
      TaskQueue.pushResolveTask Q (TaskQueue.pushResolveTask Q s qname qtype now deadline)
          qname qtype2 now2 deadline2 =
        TaskQueue.pushResolveTask Q s qname qtype2 now2 deadline2) := by
  have hiff : ∀ qtype, SyncRes.isUnsupported Q qtype = true ↔
      (qtype = Q.ENT ∨ qtype = Q.ADDR) := by
    intro qtype
    unfold SyncRes.isUnsupported
    by_cases h1 : qtype = Q.ENT
    · simp [h1]
    · by_cases h2 : qtype = Q.ADDR
      · simp [h2]
      · simp [h1, h2]
  refine ⟨hiff, ?_, ?_, ?_⟩
  · exact TaskQueue.pushResolveTask_of_unsupported Q s qname _ now deadline
      ((hiff _).mpr (Or.inl rfl))
  · exact TaskQueue.pushResolveTask_of_unsupported Q s qname _ now deadline
      ((hiff _).mpr (Or.inr rfl))
  · intro qtype qtype2 now2 deadline2 hu
    rw [TaskQueue.pushResolveTask_of_unsupported Q s qname qtype now deadline hu]

/-- Witness of C9: after a rejected push of type `ENT`, a push of type 1 for the
same name is accepted exactly as on the untouched state. -/
theorem TaskQueue.pushResolveTask_unsupported_rejected_witness :
    TaskQueue.pushResolveTask ⟨0, 65400⟩
        (TaskQueue.pushResolveTask ⟨0, 65400⟩ (TaskQueue.State.init : TaskQueue.State Nat)
          7 0 1000 2000) 7 1 1000 2000 =
      TaskQueue.pushResolveTask ⟨0, 65400⟩ (TaskQueue.State.init : TaskQueue.State Nat)
        7 1 1000 2000 :=
  (TaskQueue.pushResolveTask_unsupported_rejected ⟨0, 65400⟩
    (TaskQueue.State.init : TaskQueue.State Nat) 7 1000 2000).2.2.2 0 1 1000 2000 (by decide)

/-- C10, as stated, fails: for the internal type `ENT` the call returns at the
`isUnsupported` guard, so no task reaches the queue and the almost-expired
pushed counter stays where it was.  The input: codes `ENT = 0`, `ADDR = 65400`,
the initial state, and `pushAlmostExpiredTask(7, 0, 2000)`. -/
theorem TaskQueue.pushAlmostExpiredTask_counterexample :
    ¬ ∀ (Q : SyncRes.QTypeCodes) (s : TaskQueue.State Nat) (qname : Nat) (qtype : Nat)
        (deadline : Int),
        (TaskQueue.pushAlmostExpiredTask Q s qname qtype deadline).s_taskQueue.rateLimitSet =
          s.s_taskQueue.rateLimitSet ∧
        (TaskQueue.pushAlmostExpiredTask Q s qname qtype deadline).s_taskQueue.queue =
          s.s_taskQueue.queue.push
            { d_qname := qname, d_qtype := qtype, d_deadline := deadline, d_refreshMode := true } ∧
        (TaskQueue.pushAlmostExpiredTask Q s qname qtype deadline).s_almost_expired_tasks.pushed =
          s.s_almost_expired_tasks.pushed + 1 ∧
        (TaskQueue.pushAlmostExpiredTask Q s qname qtype deadline).s_resolve_tasks =
          s.s_resolve_tasks := by
  intro h
  have := (h ⟨0, 65400⟩ TaskQueue.State.init 7 0 2000).2.2.1
  revert this
  decide

/-- C10, amended. `pushAlmostExpiredTask(name, type, deadline)` never touches the
rate-limit set nor the resolve-task counters, whatever the rate-limit set holds;
for a supported type it hands the task with refresh-mode = true to the queue and
raises the almost-expired pushed counter by exactly 1; for an unsupported type
(`ENT`, `ADDR`) it leaves the whole state as it was. -/
theorem TaskQueue.pushAlmostExpiredTask_bypasses_rate_limit {Name : Type} [DecidableEq Name]
    (Q : SyncRes.QTypeCodes) (s : TaskQueue.State Name) (qname : Name) (qtype : Nat)
    (deadline : Int) :
    (TaskQueue.pushAlmostExpiredTask Q s qname qtype deadline).s_taskQueue.rateLimitSet =
      s.s_taskQueue.rateLimitSet ∧
    (TaskQueue.pushAlmostExpiredTask Q s qname qtype deadline).s_resolve_tasks =
      s.s_resolve_tasks ∧
    (SyncRes.isUnsupported Q qtype = false →
      (TaskQueue.pushAlmostExpiredTask Q s qname qtype deadline).s_taskQueue.queue =
        s.s_taskQueue.queue.push
          { d_qname := qname, d_qtype := qtype, d_deadline := deadline, d_refreshMode := true } ∧
      (TaskQueue.pushAlmostExpiredTask Q s qname qtype deadline).s_almost_expired_tasks.pushed =
        s.s_almost_expired_tasks.pushed + 1 ∧
      (TaskQueue.pushAlmostExpiredTask Q s qname qtype deadline).s_almost_expired_tasks.run =
        s.s_almost_expired_tasks.run ∧
      (TaskQueue.pushAlmostExpiredTask Q s qname qtype deadline).s_almost_expired_tasks.exceptions =
        s.s_almost_expired_tasks.exceptions) ∧
    (SyncRes.isUnsupported Q qtype = true →
      TaskQueue.pushAlmostExpiredTask Q s qname qtype deadline = s) := by
  unfold TaskQueue.pushAlmostExpiredTask
  cases hu : SyncRes.isUnsupported Q qtype with
  | true => simp
  | false => simp

/-- Witness of the amended C10: the rate-limit set already holds a live entry
for the same name and type, and the refresh task is queued all the same. -/
theorem TaskQueue.pushAlmostExpiredTask_bypasses_rate_limit_witness :
    (TaskQueue.pushAlmostExpiredTask ⟨0, 65400⟩
        (TaskQueue.pushResolveTask ⟨0, 65400⟩ (TaskQueue.State.init : TaskQueue.State Nat)
          7 1 1000 2000) 7 1 2000).s_taskQueue.queue =
      (TaskQueue.pushResolveTask ⟨0, 65400⟩ (TaskQueue.State.init : TaskQueue.State Nat)
          7 1 1000 2000).s_taskQueue.queue.push
        { d_qname := 7, d_qtype := 1, d_deadline := 2000, d_refreshMode := true } ∧
    (TaskQueue.pushAlmostExpiredTask ⟨0, 65400⟩
        (TaskQueue.pushResolveTask ⟨0, 65400⟩ (TaskQueue.State.init : TaskQueue.State Nat)
          7 1 1000 2000) 7 1 2000).s_almost_expired_tasks.pushed =
      (TaskQueue.pushResolveTask ⟨0, 65400⟩ (TaskQueue.State.init : TaskQueue.State Nat)
          7 1 1000 2000).s_almost_expired_tasks.pushed + 1 ∧
    (TaskQueue.pushAlmostExpiredTask ⟨0, 65400⟩
        (TaskQueue.pushResolveTask ⟨0, 65400⟩ (TaskQueue.State.init : TaskQueue.State Nat)
          7 1 1000 2000) 7 1 2000).s_almost_expired_tasks.run =
      (TaskQueue.pushResolveTask ⟨0, 65400⟩ (TaskQueue.State.init : TaskQueue.State Nat)
          7 1 1000 2000).s_almost_expired_tasks.run ∧
    (TaskQueue.pushAlmostExpiredTask ⟨0, 65400⟩
        (TaskQueue.pushResolveTask ⟨0, 65400⟩ (TaskQueue.State.init : TaskQueue.State Nat)
          7 1 1000 2000) 7 1 2000).s_almost_expired_tasks.exceptions =
      (TaskQueue.pushResolveTask ⟨0, 65400⟩ (TaskQueue.State.init : TaskQueue.State Nat)
          7 1 1000 2000).s_almost_expired_tasks.exceptions :=
  (TaskQueue.pushAlmostExpiredTask_bypasses_rate_limit ⟨0, 65400⟩
    (TaskQueue.pushResolveTask ⟨0, 65400⟩ (TaskQueue.State.init : TaskQueue.State Nat)
      7 1 1000 2000) 7 1 2000).2.2.1 (by decide)

namespace TaskQueue

open MultiIndex

variable {Name : Type} [DecidableEq Name]

/-- The three ways through `pushResolveTask`. -/
theorem pushResolveTask_cases (Q : SyncRes.QTypeCodes) (s : State Name) (c : PushCall Name) :
    (pushResolveTask Q s c.qname c.qtype c.now c.deadline = s ∧
      SyncRes.isUnsupported Q c.qtype = true) ∨
    ((pushResolveTask Q s c.qname c.qtype c.now c.deadline).s_taskQueue.rateLimitSet =
        (s.s_taskQueue.rateLimitSet.insert c.now
          { d_qname := c.qname, d_qtype := c.qtype, d_deadline := c.deadline,
            d_refreshMode := false }).2 ∧
      (s.s_taskQueue.rateLimitSet.insert c.now
          { d_qname := c.qname, d_qtype := c.qtype, d_deadline := c.deadline,
            d_refreshMode := false }).1 = true ∧
      (pushResolveTask Q s c.qname c.qtype c.now c.deadline).s_resolve_tasks.pushed =
        s.s_resolve_tasks.pushed + 1) ∨
    ((pushResolveTask Q s c.qname c.qtype c.now c.deadline).s_taskQueue.rateLimitSet =
        (s.s_taskQueue.rateLimitSet.insert c.now
          { d_qname := c.qname, d_qtype := c.qtype, d_deadline := c.deadline,
            d_refreshMode := false }).2 ∧
      (s.s_taskQueue.rateLimitSet.insert c.now
          { d_qname := c.qname, d_qtype := c.qtype, d_deadline := c.deadline,
            d_refreshMode := false }).1 = false ∧
      (pushResolveTask Q s c.qname c.qtype c.now c.deadline).s_resolve_tasks.pushed =
        s.s_resolve_tasks.pushed) := by
  cases hu : SyncRes.isUnsupported Q c.qtype with
  | true =>
    left
    exact ⟨pushResolveTask_of_unsupported Q s _ _ _ _ hu, rfl⟩
  | false =>
    right
    cases hi : (s.s_taskQueue.rateLimitSet.insert c.now
        { d_qname := c.qname, d_qtype := c.qtype, d_deadline := c.deadline,
          d_refreshMode := false }).1 with
    | true =>
      left
      rw [pushResolveTask_of_accepted Q s _ _ _ _ hu hi]
      exact ⟨rfl, rfl, rfl⟩
    | false =>
      right
      rw [pushResolveTask_of_rejected Q s _ _ _ _ hu hi]
      exact ⟨rfl, rfl, rfl⟩

theorem pushResolveTask_keeps_expiry (Q : SyncRes.QTypeCodes) (s : State Name)
    (c : PushCall Name) :
    (pushResolveTask Q s c.qname c.qtype c.now c.deadline).s_taskQueue.rateLimitSet.d_expiry_seconds
      = s.s_taskQueue.rateLimitSet.d_expiry_seconds := by
  rcases pushResolveTask_cases Q s c with ⟨h, _⟩ | ⟨h, _, _⟩ | ⟨h, _, _⟩
  · rw [h]
  · rw [h, TimedSet.insert_expiry]
  · rw [h, TimedSet.insert_expiry]

theorem pushResolveTask_keeps_uniqueKeys (Q : SyncRes.QTypeCodes) (s : State Name)
    (c : PushCall Name) (hu : UniqueKeys TimedSet.Entry.key s.s_taskQueue.rateLimitSet.d_set) :
    UniqueKeys TimedSet.Entry.key
      (pushResolveTask Q s c.qname c.qtype c.now c.deadline).s_taskQueue.rateLimitSet.d_set := by
  rcases pushResolveTask_cases Q s c with ⟨h, _⟩ | ⟨h, _, _⟩ | ⟨h, _, _⟩
  · rw [h]; exact hu
  · rw [h]; exact TimedSet.uniqueKeys_insert _ _ _ hu
  · rw [h]; exact TimedSet.uniqueKeys_insert _ _ _ hu

theorem pushResolveTask_keeps_or_expired (Q : SyncRes.QTypeCodes) (s : State Name)
    (c : PushCall Name) (e : TimedSet.Entry Name) (he : e ∈ s.s_taskQueue.rateLimitSet.d_set) :
    e ∈ (pushResolveTask Q s c.qname c.qtype c.now c.deadline).s_taskQueue.rateLimitSet.d_set ∨
      e.d_ttd < c.now := by
  rcases pushResolveTask_cases Q s c with ⟨h, _⟩ | ⟨h, _, _⟩ | ⟨h, _, _⟩
  · rw [h]; exact Or.inl he
  · rw [h]; exact TimedSet.insert_keeps_or_expired _ _ _ e he
  · rw [h]; exact TimedSet.insert_keeps_or_expired _ _ _ e he

theorem uniqueKeys_runPushes (Q : SyncRes.QTypeCodes) (cs : List (PushCall Name)) :
    ∀ s : State Name, UniqueKeys TimedSet.Entry.key s.s_taskQueue.rateLimitSet.d_set →
      UniqueKeys TimedSet.Entry.key (runPushes Q s cs).s_taskQueue.rateLimitSet.d_set := by
  induction cs with
  | nil => intro s hu; exact hu
  | cons c cs ih =>
    intro s hu
    exact ih _ (pushResolveTask_keeps_uniqueKeys Q s c hu)

/-- Once a key is covered up to time `T` (a live entry with `ttd ≥ T`, or the
clock already past `T`), every later accepted push of that key comes after `T`. -/
theorem accepted_after (Q : SyncRes.QTypeCodes) (qname : Name) (qtype : Nat) (T : Int)
    (cs : List (PushCall Name)) :
    ∀ (s : State Name) (L : Int),
      ((∃ e ∈ s.s_taskQueue.rateLimitSet.d_set, e.key = (qname, qtype, false) ∧ T ≤ e.d_ttd) ∨
        T < L) →
      (∀ c ∈ cs, L ≤ c.now) →
      cs.Pairwise (fun a b => a.now ≤ b.now) →
      ∀ b ∈ acceptedPushes Q s cs, b.qname = qname → b.qtype = qtype → T < b.now := by
  induction cs with
  | nil => intro s L _ _ _ b hb; simp [acceptedPushes] at hb
  | cons c cs ih =>
    intro s L hH hL hsorted b hb hbn hbt
    have hcL : L ≤ c.now := hL c (List.mem_cons_self _ _)
    rw [List.pairwise_cons] at hsorted
    have hH1 : (∃ e ∈ (pushResolveTask Q s c.qname c.qtype c.now c.deadline
        ).s_taskQueue.rateLimitSet.d_set, e.key = (qname, qtype, false) ∧ T ≤ e.d_ttd) ∨
        T < c.now := by
      rcases hH with ⟨e, he, hk, hT⟩ | hT
      · rcases pushResolveTask_keeps_or_expired Q s c e he with h | h
        · exact Or.inl ⟨e, h, hk, hT⟩
        · right; omega
      · right; omega
    have hrest := ih (pushResolveTask Q s c.qname c.qtype c.now c.deadline) c.now hH1
      hsorted.1 hsorted.2
    simp only [acceptedPushes] at hb
    by_cases hacc : (pushResolveTask Q s c.qname c.qtype c.now c.deadline).s_resolve_tasks.pushed
        = s.s_resolve_tasks.pushed + 1
    · rw [if_pos hacc] at hb
      rcases List.mem_cons.mp hb with hbc | hb1
      · subst hbc
        rcases hH with ⟨e, he, hk, hT⟩ | hT
        · rcases pushResolveTask_cases Q s b with ⟨h, _⟩ | ⟨_, hi, _⟩ | ⟨_, _, h⟩
          · rw [h] at hacc; omega
          · have hk1 : e.key = pdns.ResolveTask.key
                ({ d_qname := b.qname, d_qtype := b.qtype, d_deadline := b.deadline,
                   d_refreshMode := false } : pdns.ResolveTask Name) := by
              rw [hk, ← hbn, ← hbt]
              rfl
            have := TimedSet.insert_true_expired _ _ _ hi e he hk1
            omega
          · rw [h] at hacc; omega
        · omega
      · exact hrest b hb1 hbn hbt
    · rw [if_neg hacc] at hb
      exact hrest b hb hbn hbt

end TaskQueue

/-- C8. For every list of `pushResolveTask` calls (any mix of names and types)
with non-decreasing `now`, run from a state whose rate-limit set has expiry 60
and at most one entry per key: after every number of calls the rate-limit set
still has at most one entry per (name, type, refresh-mode), and any two accepted
pushes of the same (name, type) are more than 60 seconds apart. -/
theorem TaskQueue.rate_limit_invariant {Name : Type} [DecidableEq Name]
    (Q : SyncRes.QTypeCodes) (s : TaskQueue.State Name) (calls : List (TaskQueue.PushCall Name))
    (hu : MultiIndex.UniqueKeys TimedSet.Entry.key s.s_taskQueue.rateLimitSet.d_set)
    (hexp : s.s_taskQueue.rateLimitSet.d_expiry_seconds = 60)
    (hsorted : calls.Pairwise (fun a b => a.now ≤ b.now)) :
    (∀ n, MultiIndex.UniqueKeys TimedSet.Entry.key
        (TaskQueue.runPushes Q s (calls.take n)).s_taskQueue.rateLimitSet.d_set) ∧
    (TaskQueue.acceptedPushes Q s calls).Pairwise
      (fun a b => a.qname = b.qname → a.qtype = b.qtype → 60 < b.now - a.now) := by
  refine ⟨fun n => TaskQueue.uniqueKeys_runPushes Q _ s hu, ?_⟩
  clear hu
  induction calls generalizing s with
  | nil => simp [TaskQueue.acceptedPushes]
  | cons c cs ih =>
    rw [List.pairwise_cons] at hsorted
    have hexp1 := (TaskQueue.pushResolveTask_keeps_expiry Q s c).trans hexp
    have hrest := ih (TaskQueue.pushResolveTask Q s c.qname c.qtype c.now c.deadline) hexp1
      hsorted.2
    simp only [TaskQueue.acceptedPushes]
    by_cases hacc : (TaskQueue.pushResolveTask Q s c.qname c.qtype c.now c.deadline
        ).s_resolve_tasks.pushed = s.s_resolve_tasks.pushed + 1
    · rw [if_pos hacc, List.pairwise_cons]
      refine ⟨?_, hrest⟩
      intro b hb hn ht
      have hmem : ∃ e ∈ (TaskQueue.pushResolveTask Q s c.qname c.qtype c.now c.deadline
          ).s_taskQueue.rateLimitSet.d_set,
          e.key = (c.qname, c.qtype, false) ∧ c.now + 60 ≤ e.d_ttd := by
        rcases TaskQueue.pushResolveTask_cases Q s c with ⟨h, _⟩ | ⟨h, hi, _⟩ | ⟨_, _, h⟩
        · rw [h] at hacc; omega
        · rw [h]
          refine ⟨_, TimedSet.insert_true_mem _ _ _ hi, rfl, ?_⟩
          rw [hexp]
        · rw [h] at hacc; omega
      have := TaskQueue.accepted_after Q c.qname c.qtype (c.now + 60) cs
        (TaskQueue.pushResolveTask Q s c.qname c.qtype c.now c.deadline) c.now
        (Or.inl hmem) hsorted.1 hsorted.2 b hb hn.symm ht.symm
      omega
    · rw [if_neg hacc]
      exact hrest

set_option maxRecDepth 100000 in
/-- Witness of C8: two names, pushes at 1000, 1030, 1060 and 1061; the push of
name 7 at 1060 is still refused, the one at 1061 is accepted. -/
theorem TaskQueue.rate_limit_invariant_witness :
    TaskQueue.acceptedPushes ⟨0, 65400⟩ (TaskQueue.State.init : TaskQueue.State Nat)
        [⟨7, 1, 1000, 2000⟩, ⟨8, 1, 1000, 2000⟩, ⟨7, 1, 1030, 2000⟩, ⟨7, 1, 1060, 2000⟩,
          ⟨7, 1, 1061, 2000⟩] =
      [⟨7, 1, 1000, 2000⟩, ⟨8, 1, 1000, 2000⟩, ⟨7, 1, 1061, 2000⟩] ∧
    (TaskQueue.acceptedPushes ⟨0, 65400⟩ (TaskQueue.State.init : TaskQueue.State Nat)
        [⟨7, 1, 1000, 2000⟩, ⟨8, 1, 1000, 2000⟩, ⟨7, 1, 1030, 2000⟩, ⟨7, 1, 1060, 2000⟩,
          ⟨7, 1, 1061, 2000⟩]).Pairwise
      (fun a b => a.qname = b.qname → a.qtype = b.qtype → 60 < b.now - a.now) :=
  ⟨by decide,
    (TaskQueue.rate_limit_invariant ⟨0, 65400⟩ (TaskQueue.State.init : TaskQueue.State Nat)
      [⟨7, 1, 1000, 2000⟩, ⟨8, 1, 1000, 2000⟩, ⟨7, 1, 1030, 2000⟩, ⟨7, 1, 1060, 2000⟩,
        ⟨7, 1, 1061, 2000⟩] (by decide) rfl (by decide)).2⟩

/-! ## Statistics, `resolve` and `runTaskOnce` -/

/-- C11, evaluated on the code: on the initial state (codes `ENT = 0`,
`ADDR = 65400`) the call `pushResolveTask(7, 1, 1000, 2000)` is accepted and
raises `s_resolve_tasks.pushed` from 0 to 1, yet `getResolveTasksPushed()`
answers 0 before and 0 after: it reads `s_almost_expired_tasks.pushed`.  In the
same way, after a normal task has run, or has thrown, `getResolveTasksRun()` and
`getResolveTaskExceptions()` still answer 0. -/
theorem TaskQueue.getResolveTasksPushed_reads_almost_expired :
    (TaskQueue.pushResolveTask ⟨0, 65400⟩ (TaskQueue.State.init : TaskQueue.State Nat)
        7 1 1000 2000).s_resolve_tasks.pushed = 1 ∧
    TaskQueue.getResolveTasksPushed (TaskQueue.State.init : TaskQueue.State Nat) = 0 ∧
    TaskQueue.getResolveTasksPushed
      (TaskQueue.pushResolveTask ⟨0, 65400⟩ (TaskQueue.State.init : TaskQueue.State Nat)
        7 1 1000 2000) = 0 ∧
    TaskQueue.getAlmostExpiredTasksPushed
      (TaskQueue.pushResolveTask ⟨0, 65400⟩ (TaskQueue.State.init : TaskQueue.State Nat)
        7 1 1000 2000) =
      TaskQueue.getAlmostExpiredTasksPushed (TaskQueue.State.init : TaskQueue.State Nat) ∧
    (TaskQueue.resolve (.ok 0) false ⟨7, 1, 2000, false⟩
        (TaskQueue.State.init : TaskQueue.State Nat)).map
      (fun s1 => (s1.s_resolve_tasks.run, TaskQueue.getResolveTasksRun s1)) = .ok (1, 0) ∧
    (TaskQueue.resolve (.error .other) false ⟨7, 1, 2000, false⟩
        (TaskQueue.State.init : TaskQueue.State Nat)).map
      (fun s1 => (s1.s_resolve_tasks.exceptions, TaskQueue.getResolveTaskExceptions s1)) =
      .ok (1, 0) := by
  refine ⟨by decide, by decide, by decide, by decide, rfl, rfl⟩

/-- C12. Whatever `beginResolve` does (returns, or throws a `std::exception`, a
`PDNSException`, an `ImmediateServFailException`, a `PolicyHitException` or
anything else), `resolve` returns normally, and of the four counters
resolve.run, resolve.exceptions, almost_expired.run, almost_expired.exceptions
exactly one goes up, by exactly 1: an exceptions counter iff `beginResolve`
threw, a counter of the almost-expired family iff the task has refresh-mode set.
The queue, the rate-limit set and the pushed counters are as before. -/
theorem TaskQueue.resolve_counts_exactly_once {Name : Type}
    (beginResolve : Except TaskQueue.Thrown Int) (logErrors : Bool)
    (task : pdns.ResolveTask Name) (s : TaskQueue.State Name) :
    ∃ s1, TaskQueue.resolve beginResolve logErrors task s = .ok s1 ∧
      s1.s_resolve_tasks.run = s.s_resolve_tasks.run +
        (if beginResolve.isOk = true ∧ task.d_refreshMode = false then 1 else 0) ∧
      s1.s_resolve_tasks.exceptions = s.s_resolve_tasks.exceptions +
        (if beginResolve.isOk = false ∧ task.d_refreshMode = false then 1 else 0) ∧
      s1.s_almost_expired_tasks.run = s.s_almost_expired_tasks.run +
        (if beginResolve.isOk = true ∧ task.d_refreshMode = true then 1 else 0) ∧
      s1.s_almost_expired_tasks.exceptions = s.s_almost_expired_tasks.exceptions +
        (if beginResolve.isOk = false ∧ task.d_refreshMode = true then 1 else 0) ∧
      s1.s_resolve_tasks.pushed = s.s_resolve_tasks.pushed ∧
      s1.s_almost_expired_tasks.pushed = s.s_almost_expired_tasks.pushed ∧
      s1.s_taskQueue = s.s_taskQueue := by
  cases hr : task.d_refreshMode <;> cases logErrors <;>
    rcases beginResolve with (e | res) <;> try cases e
  all_goals
    simp [TaskQueue.resolve, hr, Except.isOk, Except.toBool]

namespace TaskQueue

variable {Name : Type} [DecidableEq Name]

omit [DecidableEq Name] in
/-- The function `resolve` never lets a thrown value out. -/
theorem resolve_returns (beginResolve : Except Thrown Int) (logErrors : Bool)
    (task : pdns.ResolveTask Name) (s : State Name) :
    ∃ s1, resolve beginResolve logErrors task s = .ok s1 ∧
      s1.s_taskQueue = s.s_taskQueue := by
  cases hr : task.d_refreshMode <;> cases logErrors <;>
    rcases beginResolve with (e | res) <;> try cases e
  all_goals
    simp [resolve, hr]

end TaskQueue

/-- C13. `runTaskOnce` on an empty queue returns with the state as it was.  On a
queue `task :: rest` it returns with the queue `rest` (the front task is gone,
nothing else) and the rate-limit set as before; the expired counter has gone up
by 1 exactly when `now_wall > task.d_deadline`, in which case the callback was
not run: every run, exceptions and pushed counter is as before.  When the task is
not past its deadline the state is the one `resolve` left. -/
theorem TaskQueue.runTaskOnce_drains_one {Name : Type}
    (beginResolve : Except TaskQueue.Thrown Int) (now_wall : Int) (logErrors : Bool)
    (s : TaskQueue.State Name) :
    (s.s_taskQueue.queue.d_queue = [] →
      TaskQueue.runTaskOnce beginResolve now_wall logErrors s = .ok s) ∧
    (∀ task rest, s.s_taskQueue.queue.d_queue = task :: rest →
      ∃ s1, TaskQueue.runTaskOnce beginResolve now_wall logErrors s = .ok s1 ∧
        s1.s_taskQueue.queue.d_queue = rest ∧
        s1.s_taskQueue.rateLimitSet = s.s_taskQueue.rateLimitSet ∧
        TaskQueue.getTaskExpired s1 =
          TaskQueue.getTaskExpired s + (if now_wall > task.d_deadline then 1 else 0) ∧
        (now_wall > task.d_deadline →
          s1.s_resolve_tasks = s.s_resolve_tasks ∧
          s1.s_almost_expired_tasks = s.s_almost_expired_tasks) ∧
        (¬ now_wall > task.d_deadline →
          TaskQueue.resolve beginResolve logErrors task
            { s with s_taskQueue :=
                { s.s_taskQueue with
                  queue := { s.s_taskQueue.queue with d_queue := rest } } } = .ok s1)) := by
  constructor
  · intro h0
    simp [TaskQueue.runTaskOnce, pdns.TaskQueue.empty, h0]
  · intro task rest hq
    by_cases hexp : now_wall > task.d_deadline
    · refine ⟨{ s with s_taskQueue :=
          { s.s_taskQueue with
            queue := { d_queue := rest, d_expired := s.s_taskQueue.queue.d_expired + 1 } } },
        ?_, rfl, rfl, ?_, fun _ => ⟨rfl, rfl⟩, fun h => absurd hexp h⟩
      · simp [TaskQueue.runTaskOnce, pdns.TaskQueue.empty, pdns.TaskQueue.pop, hq,
          pdns.ResolveTask.run, hexp, pdns.TaskQueue.incExpired]
      · simp [TaskQueue.getTaskExpired, pdns.TaskQueue.getExpired, hexp]
    · obtain ⟨s1, hs1, hq1⟩ := TaskQueue.resolve_returns beginResolve logErrors task
        { s with s_taskQueue :=
            { s.s_taskQueue with queue := { s.s_taskQueue.queue with d_queue := rest } } }
      refine ⟨s1, ?_, ?_, ?_, ?_, fun h => absurd h hexp, fun _ => hs1⟩
      · simp [TaskQueue.runTaskOnce, pdns.TaskQueue.empty, pdns.TaskQueue.pop, hq,
          pdns.ResolveTask.run, hexp, hs1]
      · rw [hq1]
      · rw [hq1]
      · simp [TaskQueue.getTaskExpired, pdns.TaskQueue.getExpired, hexp, hq1]

/-- Witness of C13: two queued tasks, the front one past its deadline. -/
theorem TaskQueue.runTaskOnce_drains_one_witness :
    ∃ s1, TaskQueue.runTaskOnce (.ok 0) 3000 false
        (TaskQueue.pushAlmostExpiredTask ⟨0, 65400⟩
          (TaskQueue.pushResolveTask ⟨0, 65400⟩ (TaskQueue.State.init : TaskQueue.State Nat)
            7 1 1000 2000) 8 1 5000) = .ok s1 ∧
      s1.s_taskQueue.queue.d_queue = [⟨8, 1, 5000, true⟩] ∧
      s1.s_taskQueue.rateLimitSet =
        (TaskQueue.pushAlmostExpiredTask ⟨0, 65400⟩
          (TaskQueue.pushResolveTask ⟨0, 65400⟩ (TaskQueue.State.init : TaskQueue.State Nat)
            7 1 1000 2000) 8 1 5000).s_taskQueue.rateLimitSet ∧
      TaskQueue.getTaskExpired s1 =
        TaskQueue.getTaskExpired
          (TaskQueue.pushAlmostExpiredTask ⟨0, 65400⟩
            (TaskQueue.pushResolveTask ⟨0, 65400⟩ (TaskQueue.State.init : TaskQueue.State Nat)
              7 1 1000 2000) 8 1 5000) +
          (if (3000 : Int) > (⟨7, 1, 2000, false⟩ : pdns.ResolveTask Nat).d_deadline
            then 1 else 0) := by
  obtain ⟨s1, h1, h2, h3, h4, _, _⟩ :=
    (TaskQueue.runTaskOnce_drains_one (.ok 0) 3000 false
      (TaskQueue.pushAlmostExpiredTask ⟨0, 65400⟩
        (TaskQueue.pushResolveTask ⟨0, 65400⟩ (TaskQueue.State.init : TaskQueue.State Nat)
          7 1 1000 2000) 8 1 5000)).2 ⟨7, 1, 2000, false⟩ [⟨8, 1, 5000, true⟩] (by decide)
  exact ⟨s1, h1, h2, h3, h4⟩

/-! ## Pruning by the time index, in general -/

namespace MultiIndex

variable {ε κ : Type} [DecidableEq κ]

omit [DecidableEq κ] in
theorem pruned_eq_filter (ttd : ε → Int) (cutoff : Int) (c : List ε) :
    (timeIndex ttd c).dropWhile (fun e => decide (ttd e ≤ cutoff)) =
      (timeIndex ttd c).filter (fun e => decide (cutoff < ttd e)) :=
  dropWhile_le_eq_filter ttd cutoff _ (ascending_timeIndex ttd c)

omit [DecidableEq κ] in
theorem perm_pruned (ttd : ε → Int) (cutoff : Int) (c : List ε) :
    ((timeIndex ttd c).dropWhile (fun e => decide (ttd e ≤ cutoff))).Perm
      (c.filter (fun e => decide (cutoff < ttd e))) := by
  rw [pruned_eq_filter]
  exact (perm_timeIndex ttd c).filter _

omit [DecidableEq κ] in
theorem mem_pruned_iff (ttd : ε → Int) (cutoff : Int) (c : List ε) (x : ε) :
    x ∈ (timeIndex ttd c).dropWhile (fun e => decide (ttd e ≤ cutoff)) ↔
      x ∈ c ∧ cutoff < ttd x := by
  rw [(perm_pruned ttd cutoff c).mem_iff]
  simp

omit [DecidableEq κ] in
theorem length_pruned (ttd : ε → Int) (cutoff : Int) (c : List ε) :
    ((timeIndex ttd c).dropWhile (fun e => decide (ttd e ≤ cutoff))).length =
      c.countP (fun e => decide (cutoff < ttd e)) := by
  rw [(perm_pruned ttd cutoff c).length_eq, List.countP_eq_length_filter]

omit [DecidableEq κ] in
theorem uniqueKeys_pruned (key : ε → κ) (ttd : ε → Int) (cutoff : Int) (c : List ε)
    (h : UniqueKeys key c) :
    UniqueKeys key ((timeIndex ttd c).dropWhile (fun e => decide (ttd e ≤ cutoff))) := by
  rw [pruned_eq_filter]
  exact uniqueKeys_of_sublist key (List.filter_sublist _)
    (uniqueKeys_of_perm key (perm_timeIndex ttd c) h)

/-- The lookup by key after a prune: an entry that outlives the cutoff is found
as it was, a key whose entries are all at or before the cutoff is not found. -/
theorem find_pruned (key : ε → κ) (ttd : ε → Int) (cutoff : Int) (c : List ε)
    (h : UniqueKeys key c) :
    (∀ e ∈ c, cutoff < ttd e →
      find key ((timeIndex ttd c).dropWhile (fun e => decide (ttd e ≤ cutoff))) (key e) =
        some e) ∧
    (∀ k, (∀ e ∈ c, key e = k → ttd e ≤ cutoff) →
      find key ((timeIndex ttd c).dropWhile (fun e => decide (ttd e ≤ cutoff))) k = none) := by
  constructor
  · intro e he hlt
    rw [find_eq_head, entriesFor_eq_singleton_of_mem key _
      (uniqueKeys_pruned key ttd cutoff c h) e ((mem_pruned_iff ttd cutoff c e).mpr ⟨he, hlt⟩)]
    rfl
  · intro k hall
    rw [find_eq_head]
    have : entriesFor key ((timeIndex ttd c).dropWhile (fun e => decide (ttd e ≤ cutoff))) k
        = [] := by
      rw [List.eq_nil_iff_forall_not_mem]
      intro x hx
      have h1 := (mem_entriesFor key _ k x).mp hx
      have h2 := (mem_pruned_iff ttd cutoff c x).mp h1.1
      have := hall x h2.1 h1.2
      omega
    rw [this]
    rfl

theorem find_of_mem (key : ε → κ) (c : List ε) (h : UniqueKeys key c) (e : ε) (he : e ∈ c) :
    find key c (key e) = some e := by
  rw [find_eq_head, entriesFor_eq_singleton_of_mem key c h e he]
  rfl

end MultiIndex

/-! ## Failure counters -/

namespace fails_t

open MultiIndex

variable {T : Type} [DecidableEq T]

theorem value_of_nil (c : cont_t T) (k : T) (h : entriesFor value_t.key c k = []) :
    value c k = 0 := by
  unfold value
  rw [find_eq_head, h]
  rfl

theorem value_of_cons (c : cont_t T) (k : T) (e : value_t T) (l : List (value_t T))
    (h : entriesFor value_t.key c k = e :: l) : value c k = e.value := by
  unfold value
  rw [find_eq_head, h]
  rfl

theorem incr_of_nil (c : cont_t T) (k : T) (now : timeval)
    (h : entriesFor value_t.key c k = []) :
    incr c k now =
      (value (modify value_t.key (fun val => { val with last := now.tv_sec }) k
          (modify value_t.key
            (fun i => if i.value < counterMax then { i with value := i.value + 1 } else i) k
            (c ++ [{ key := k, value := 0, last := 0 }]))) k,
        modify value_t.key (fun val => { val with last := now.tv_sec }) k
          (modify value_t.key
            (fun i => if i.value < counterMax then { i with value := i.value + 1 } else i) k
            (c ++ [{ key := k, value := 0, last := 0 }]))) := by
  unfold incr
  rw [find_eq_head, h]
  rfl

theorem incr_of_cons (c : cont_t T) (k : T) (now : timeval) (e : value_t T)
    (l : List (value_t T)) (h : entriesFor value_t.key c k = e :: l) :
    incr c k now =
      (value (modify value_t.key (fun val => { val with last := now.tv_sec }) k
          (modify value_t.key
            (fun i => if i.value < counterMax then { i with value := i.value + 1 } else i) k
            c)) k,
        modify value_t.key (fun val => { val with last := now.tv_sec }) k
          (modify value_t.key
            (fun i => if i.value < counterMax then { i with value := i.value + 1 } else i) k
            c)) := by
  unfold incr
  rw [find_eq_head, h]
  rfl

/-- The entries of every key after the two in-place updates of `incr`. -/
theorem entriesFor_bumped (c : cont_t T) (k : T) (tm : Int) (k1 : T) :
    entriesFor value_t.key
        (modify value_t.key (fun val => { val with last := tm }) k
          (modify value_t.key
            (fun i => if i.value < counterMax then { i with value := i.value + 1 } else i) k
            c)) k1 =
      if k = k1 then
        ((entriesFor value_t.key c k1).modifyHead
          (fun i => if i.value < counterMax then { i with value := i.value + 1 } else i)).modifyHead
          (fun val => { val with last := tm })
      else entriesFor value_t.key c k1 := by
  have hf : ∀ e : value_t T,
      value_t.key (if e.value < counterMax then { e with value := e.value + 1 } else e)
        = value_t.key e := by
    intro e
    by_cases hlt : e.value < counterMax <;> simp [hlt]
  rw [entriesFor_modify value_t.key (fun val => { val with last := tm }) (fun _ => rfl),
    entriesFor_modify value_t.key
      (fun i => if i.value < counterMax then { i with value := i.value + 1 } else i) hf]
  by_cases hk : k = k1 <;> simp [hk]

theorem uniqueKeys_bumped (c : cont_t T) (k : T) (tm : Int)
    (h : UniqueKeys value_t.key c) :
    UniqueKeys value_t.key
      (modify value_t.key (fun val => { val with last := tm }) k
        (modify value_t.key
          (fun i => if i.value < counterMax then { i with value := i.value + 1 } else i) k
          c)) := by
  have hf : ∀ e : value_t T,
      value_t.key (if e.value < counterMax then { e with value := e.value + 1 } else e)
        = value_t.key e := by
    intro e
    by_cases hlt : e.value < counterMax <;> simp [hlt]
  exact uniqueKeys_modify value_t.key (fun val => { val with last := tm }) (fun _ => rfl) _ k
    (uniqueKeys_modify value_t.key
      (fun i => if i.value < counterMax then { i with value := i.value + 1 } else i) hf c k h)

end fails_t

/-- C14. On a failure map with at most one entry per key and counts within 64
bits, `fails_t::incr(key, now)` returns `min (old + 1) (2^64 - 1)` where
`old = value(key)` before the call (0 for an absent key); afterwards the map has
exactly one entry for `key`, with the returned count and `last = now.tv_sec`, so
`value(key)` is the returned count; the entries of every other key are as before;
keys stay unique and counts stay within 64 bits. -/
theorem fails_t.incr_saturating {T : Type} [DecidableEq T] (c : fails_t.cont_t T)
    (key : T) (now : timeval)
    (hu : MultiIndex.UniqueKeys fails_t.value_t.key c)
    (hrange : ∀ e ∈ c, e.value ≤ 2 ^ 64 - 1) :
    (fails_t.incr c key now).1 = min (fails_t.value c key + 1) (2 ^ 64 - 1) ∧
    fails_t.value (fails_t.incr c key now).2 key = (fails_t.incr c key now).1 ∧
    MultiIndex.entriesFor fails_t.value_t.key (fails_t.incr c key now).2 key =
      [{ key := key, value := (fails_t.incr c key now).1, last := now.tv_sec }] ∧
    (∀ k1, k1 ≠ key →
      MultiIndex.entriesFor fails_t.value_t.key (fails_t.incr c key now).2 k1 =
        MultiIndex.entriesFor fails_t.value_t.key c k1) ∧
    MultiIndex.UniqueKeys fails_t.value_t.key (fails_t.incr c key now).2 ∧
    (∀ e ∈ (fails_t.incr c key now).2, e.value ≤ 2 ^ 64 - 1) := by
  have hmax : fails_t.counterMax = 2 ^ 64 - 1 := rfl
  -- the map `c1` after `d_cont.insert(key)` and the entry `e0` the iterator points to
  obtain ⟨c1, e0, hincr, hc1, hother, hu1, hr1, hold, hkey⟩ :
      ∃ (c1 : fails_t.cont_t T) (e0 : fails_t.value_t T),
        fails_t.incr c key now =
          (fails_t.value (MultiIndex.modify fails_t.value_t.key
              (fun val => { val with last := now.tv_sec }) key
              (MultiIndex.modify fails_t.value_t.key
                (fun i => if i.value < fails_t.counterMax then { i with value := i.value + 1 }
                  else i) key c1)) key,
            MultiIndex.modify fails_t.value_t.key
              (fun val => { val with last := now.tv_sec }) key
              (MultiIndex.modify fails_t.value_t.key
                (fun i => if i.value < fails_t.counterMax then { i with value := i.value + 1 }
                  else i) key c1)) ∧
        MultiIndex.entriesFor fails_t.value_t.key c1 key = [e0] ∧
        (∀ k1, k1 ≠ key → MultiIndex.entriesFor fails_t.value_t.key c1 k1 =
          MultiIndex.entriesFor fails_t.value_t.key c k1) ∧
        MultiIndex.UniqueKeys fails_t.value_t.key c1 ∧
        (∀ e ∈ c1, e.value ≤ 2 ^ 64 - 1) ∧
        e0.value = fails_t.value c key ∧ e0.key = key := by
    rcases MultiIndex.entriesFor_cases _ c hu key with h0 | ⟨e, he⟩
    · refine ⟨c ++ [{ key := key, value := 0, last := 0 }], { key := key, value := 0, last := 0 },
        fails_t.incr_of_nil c key now h0, ?_, ?_, ?_, ?_, ?_, rfl⟩
      · rw [MultiIndex.entriesFor_append_singleton, h0]
        simp
      · intro k1 hk1
        rw [MultiIndex.entriesFor_append_singleton]
        have : ¬ key = k1 := fun hh => hk1 hh.symm
        simp [this]
      · refine MultiIndex.uniqueKeys_append_singleton _ c _ ?_ hu
        rw [MultiIndex.find_eq_head]
        show (MultiIndex.entriesFor fails_t.value_t.key c key).head? = none
        rw [h0]
        rfl
      · intro e he
        rcases List.mem_append.mp he with h | h
        · exact hrange e h
        · simp only [List.mem_singleton] at h
          rw [h]
          exact Nat.zero_le _
      · exact (fails_t.value_of_nil c key h0).symm
    · have hek : e.key = key :=
        ((MultiIndex.mem_entriesFor _ c key e).mp (by rw [he]; simp)).2
      exact ⟨c, e, fails_t.incr_of_cons c key now e [] he, he, fun _ _ => rfl, hu, hrange,
        (fails_t.value_of_cons c key e [] he).symm, hek⟩
  have he0 : e0 ∈ c1 :=
    ((MultiIndex.mem_entriesFor _ c1 key e0).mp (by rw [hc1]; simp)).1
  have hb := fails_t.entriesFor_bumped c1 key now.tv_sec
  have hmain : MultiIndex.entriesFor fails_t.value_t.key (fails_t.incr c key now).2 key =
      [{ key := key, value := min (fails_t.value c key + 1) (2 ^ 64 - 1),
         last := now.tv_sec }] := by
    rw [hincr]
    show MultiIndex.entriesFor fails_t.value_t.key _ key = _
    rw [hb key, if_pos rfl, hc1, ← hold]
    have hle := hr1 e0 he0
    by_cases hlt : e0.value < fails_t.counterMax
    · have : min (e0.value + 1) (2 ^ 64 - 1) = e0.value + 1 := by
        rw [hmax] at hlt
        omega
      simp only [List.modifyHead, hlt, if_true, this, hkey]
    · have : min (e0.value + 1) (2 ^ 64 - 1) = e0.value := by
        rw [hmax] at hlt
        omega
      simp only [List.modifyHead, hlt, if_false, this]
      rw [← hkey]
  have hret : (fails_t.incr c key now).1 = min (fails_t.value c key + 1) (2 ^ 64 - 1) := by
    have h1 : (fails_t.incr c key now).1 = fails_t.value (fails_t.incr c key now).2 key := by
      rw [hincr]
    rw [h1, fails_t.value_of_cons _ key _ [] hmain]
  refine ⟨hret, ?_, ?_, ?_, ?_, ?_⟩
  · rw [fails_t.value_of_cons _ key _ [] hmain, hret]
  · rw [hmain, hret]
  · intro k1 hk1
    rw [hincr]
    show MultiIndex.entriesFor fails_t.value_t.key _ k1 = _
    have : ¬ key = k1 := fun hh => hk1 hh.symm
    rw [hb k1, if_neg this, hother k1 hk1]
  · rw [hincr]
    exact fails_t.uniqueKeys_bumped c1 key now.tv_sec hu1
  · intro e he
    by_cases hk : e.key = key
    · have : e ∈ MultiIndex.entriesFor fails_t.value_t.key (fails_t.incr c key now).2 key :=
        (MultiIndex.mem_entriesFor _ _ key e).mpr ⟨he, hk⟩
      rw [hmain] at this
      simp only [List.mem_singleton] at this
      rw [this]
      exact Nat.min_le_right _ _
    · have h1 : e ∈ MultiIndex.entriesFor fails_t.value_t.key (fails_t.incr c key now).2 e.key :=
        (MultiIndex.mem_entriesFor _ _ e.key e).mpr ⟨he, rfl⟩
      rw [hincr] at h1
      have h2 : e ∈ MultiIndex.entriesFor fails_t.value_t.key c1 e.key := by
        have hne : ¬ key = e.key := fun hh => hk hh.symm
        have := hb e.key
        rw [if_neg hne] at this
        rw [← this]
        exact h1
      exact hr1 e ((MultiIndex.mem_entriesFor _ c1 e.key e).mp h2).1

/-- Witness of C14: a count one below the 64-bit maximum, then at it. -/
theorem fails_t.incr_saturating_witness :
    (fails_t.incr [⟨(1 : Nat), 2 ^ 64 - 2, 5⟩, ⟨2, 7, 6⟩] 1 ⟨100, 0⟩).1 =
      min (fails_t.value [⟨(1 : Nat), 2 ^ 64 - 2, 5⟩, ⟨2, 7, 6⟩] 1 + 1) (2 ^ 64 - 1) ∧
    (fails_t.incr [⟨(1 : Nat), 2 ^ 64 - 1, 5⟩, ⟨2, 7, 6⟩] 1 ⟨100, 0⟩).1 =
      min (fails_t.value [⟨(1 : Nat), 2 ^ 64 - 1, 5⟩, ⟨2, 7, 6⟩] 1 + 1) (2 ^ 64 - 1) :=
  ⟨(fails_t.incr_saturating [⟨(1 : Nat), 2 ^ 64 - 2, 5⟩, ⟨2, 7, 6⟩] 1 ⟨100, 0⟩
      (by decide) (by
        intro e he
        simp only [List.mem_cons, List.mem_singleton, List.not_mem_nil, or_false] at he
        rcases he with h | h <;> subst h <;> norm_num)).1,
    (fails_t.incr_saturating [⟨(1 : Nat), 2 ^ 64 - 1, 5⟩, ⟨2, 7, 6⟩] 1 ⟨100, 0⟩
      (by decide) (by
        intro e he
        simp only [List.mem_cons, List.mem_singleton, List.not_mem_nil, or_false] at he
        rcases he with h | h <;> subst h <;> norm_num)).1⟩

/-- C15. `fails_t::prune(cutoff)` leaves exactly the entries with `last > cutoff`,
each as it was (the map afterwards is a permutation of the entries of the map
before that have `last > cutoff`), so `size()` is the number of entries updated
after `cutoff`; on a map with at most one entry per key, `value(key)` is then 0
for every key whose entry had `last ≤ cutoff`, and the count of every kept key
is unchanged. -/
theorem fails_t.prune_removes_old {T : Type} [DecidableEq T] (c : fails_t.cont_t T)
    (cutoff : Int) :
    (fails_t.prune c cutoff).Perm (c.filter (fun e => decide (cutoff < e.last))) ∧
    (∀ x, x ∈ fails_t.prune c cutoff ↔ x ∈ c ∧ cutoff < x.last) ∧
    fails_t.size (fails_t.prune c cutoff) = c.countP (fun e => decide (cutoff < e.last)) ∧
    (MultiIndex.UniqueKeys fails_t.value_t.key c →
      (∀ e ∈ c, e.last ≤ cutoff → fails_t.value (fails_t.prune c cutoff) e.key = 0) ∧
      (∀ e ∈ c, cutoff < e.last →
        fails_t.value (fails_t.prune c cutoff) e.key = fails_t.value c e.key)) := by
  refine ⟨MultiIndex.perm_pruned _ cutoff c, MultiIndex.mem_pruned_iff _ cutoff c,
    MultiIndex.length_pruned _ cutoff c, ?_⟩
  intro hu
  have hf := MultiIndex.find_pruned fails_t.value_t.key fails_t.value_t.last cutoff c hu
  constructor
  · intro e he hle
    have hnone := hf.2 e.key (by
      intro x hx hk
      have hxe : x = e := by
        have h1 := MultiIndex.entriesFor_eq_singleton_of_mem _ c hu e he
        have h2 : x ∈ MultiIndex.entriesFor fails_t.value_t.key c e.key :=
          (MultiIndex.mem_entriesFor _ c e.key x).mpr ⟨hx, hk⟩
        rw [h1] at h2
        simpa using h2
      rw [hxe]
      exact hle)
    unfold fails_t.value fails_t.prune
    rw [hnone]
  · intro e he hlt
    have hsome := hf.1 e he hlt
    have hsome0 := MultiIndex.find_of_mem fails_t.value_t.key c hu e he
    unfold fails_t.value fails_t.prune
    rw [hsome, hsome0]

/-- Witness of C15: of three counters, the two last updated at or before second
10 go and read 0, the third keeps its count. -/
theorem fails_t.prune_removes_old_witness :
    fails_t.value (fails_t.prune [⟨(1 : Nat), 3, 10⟩, ⟨2, 7, 11⟩, ⟨3, 1, 4⟩] 10) 1 = 0 ∧
    fails_t.value (fails_t.prune [⟨(1 : Nat), 3, 10⟩, ⟨2, 7, 11⟩, ⟨3, 1, 4⟩] 10) 2 =
      fails_t.value [⟨(1 : Nat), 3, 10⟩, ⟨2, 7, 11⟩, ⟨3, 1, 4⟩] 2 ∧
    fails_t.size (fails_t.prune [⟨(1 : Nat), 3, 10⟩, ⟨2, 7, 11⟩, ⟨3, 1, 4⟩] 10) = 1 :=
  ⟨((fails_t.prune_removes_old [⟨(1 : Nat), 3, 10⟩, ⟨2, 7, 11⟩, ⟨3, 1, 4⟩] 10).2.2.2
      (by decide)).1 ⟨1, 3, 10⟩ (by decide) (by decide),
    ((fails_t.prune_removes_old [⟨(1 : Nat), 3, 10⟩, ⟨2, 7, 11⟩, ⟨3, 1, 4⟩] 10).2.2.2
      (by decide)).2 ⟨2, 7, 11⟩ (by decide) (by decide),
    by decide⟩

/-! ## EDNS statuses -/

/-- C16. After `pruneEDNSStatuses(cutoff)` on a status map with at most one entry
per address: no entry with `modeSetAt < cutoff` remains (the entries that remain
are exactly those with `modeSetAt > cutoff`); every entry with
`modeSetAt > cutoff` is kept as it was and `getEDNSStatus` still answers its
mode; `getEDNSStatus(addr)` answers `UNKNOWN` for every address that was pruned
or never stored. -/
theorem SyncRes.pruneEDNSStatuses_by_age {Addr : Type} [DecidableEq Addr]
    (c : SyncRes.ednsstatus_t Addr) (cutoff : Int)
    (hu : MultiIndex.UniqueKeys SyncRes.EDNSStatus.address c) :
    (∀ x ∈ SyncRes.pruneEDNSStatuses c cutoff, ¬ x.modeSetAt < cutoff) ∧
    (∀ x, x ∈ SyncRes.pruneEDNSStatuses c cutoff ↔ x ∈ c ∧ cutoff < x.modeSetAt) ∧
    (∀ x ∈ c, cutoff < x.modeSetAt →
      x ∈ SyncRes.pruneEDNSStatuses c cutoff ∧
      SyncRes.getEDNSStatus (SyncRes.pruneEDNSStatuses c cutoff) x.address = x.mode) ∧
    (∀ addr, (∀ x ∈ c, x.address = addr → x.modeSetAt ≤ cutoff) →
      SyncRes.getEDNSStatus (SyncRes.pruneEDNSStatuses c cutoff) addr =
        SyncRes.EDNSMode.UNKNOWN) := by
  have hmem := MultiIndex.mem_pruned_iff SyncRes.EDNSStatus.modeSetAt cutoff c
  have hf := MultiIndex.find_pruned SyncRes.EDNSStatus.address SyncRes.EDNSStatus.modeSetAt
    cutoff c hu
  refine ⟨?_, hmem, ?_, ?_⟩
  · intro x hx
    have := ((hmem x).mp hx).2
    omega
  · intro x hx hlt
    refine ⟨(hmem x).mpr ⟨hx, hlt⟩, ?_⟩
    unfold SyncRes.getEDNSStatus SyncRes.pruneEDNSStatuses SyncRes.ednsstatus_t.prune
    rw [hf.1 x hx hlt]
  · intro addr hall
    unfold SyncRes.getEDNSStatus SyncRes.pruneEDNSStatuses SyncRes.ednsstatus_t.prune
    rw [hf.2 addr hall]

/-- Witness of C16: one status set before the cutoff, one at it, one after it. -/
theorem SyncRes.pruneEDNSStatuses_by_age_witness :
    SyncRes.getEDNSStatus
        (SyncRes.pruneEDNSStatuses
          [⟨(1 : Nat), 5, .EDNSOK⟩, ⟨2, 10, .NOEDNS⟩, ⟨3, 11, .EDNSIGNORANT⟩] 10) 3 =
      SyncRes.EDNSMode.EDNSIGNORANT ∧
    SyncRes.getEDNSStatus
        (SyncRes.pruneEDNSStatuses
          [⟨(1 : Nat), 5, .EDNSOK⟩, ⟨2, 10, .NOEDNS⟩, ⟨3, 11, .EDNSIGNORANT⟩] 10) 1 =
      SyncRes.EDNSMode.UNKNOWN :=
  ⟨((SyncRes.pruneEDNSStatuses_by_age
      [⟨(1 : Nat), 5, .EDNSOK⟩, ⟨2, 10, .NOEDNS⟩, ⟨3, 11, .EDNSIGNORANT⟩] 10
      (by decide)).2.2.1 ⟨3, 11, .EDNSIGNORANT⟩ (by decide) (by decide)).2,
    (SyncRes.pruneEDNSStatuses_by_age
      [⟨(1 : Nat), 5, .EDNSOK⟩, ⟨2, 10, .NOEDNS⟩, ⟨3, 11, .EDNSIGNORANT⟩] 10
      (by decide)).2.2.2 1 (by decide)⟩

/-! ## Decaying averages -/

theorem makeFloat_normalizeTV {R : Type} [LinearOrderedField R] (tv : timeval) :
    (makeFloat (normalizeTV tv) : R) = makeFloat tv := by
  unfold normalizeTV makeFloat
  by_cases h1 : tv.tv_usec > 1000000
  · simp only [h1, if_true]
    push_cast
    ring
  · simp only [h1, if_false]
    by_cases h2 : tv.tv_usec < 0
    · simp only [h2, if_true]
      push_cast
      ring
    · simp only [h2, if_false]

theorem makeFloat_sub {R : Type} [LinearOrderedField R] (a b : timeval) :
    (makeFloat (a.sub b) : R) = makeFloat a - makeFloat b := by
  unfold timeval.sub
  rw [makeFloat_normalizeTV]
  unfold makeFloat
  push_cast
  ring

/-- A weighted mean `(1 - f) * v + f * o` with `0 < f ≤ 1/2` lies between `v` and
`o`, at least as close to `v` as to `o`. -/
theorem weighted_mean_bounds (f v o : ℝ) (h0 : 0 < f) (h1 : f ≤ 1 / 2) :
    min v o ≤ (1 - f) * v + f * o ∧ (1 - f) * v + f * o ≤ max v o ∧
    |(1 - f) * v + f * o - v| ≤ |(1 - f) * v + f * o - o| := by
  have hf1 : 0 < 1 - f := by linarith
  refine ⟨?_, ?_, ?_⟩
  · rcases le_total v o with h | h
    · rw [min_eq_left h]
      nlinarith
    · rw [min_eq_right h]
      nlinarith
  · rcases le_total v o with h | h
    · rw [max_eq_right h]
      nlinarith
    · rw [max_eq_left h]
      nlinarith
  · have e1 : (1 - f) * v + f * o - v = f * (o - v) := by ring
    have e2 : (1 - f) * v + f * o - o = (1 - f) * (v - o) := by ring
    rw [e1, e2, abs_mul, abs_mul, abs_of_pos h0, abs_of_pos hf1, abs_sub_comm v o]
    have := abs_nonneg (o - v)
    nlinarith

/-- C17. `DecayingEwma::submit(val, now)` with the arithmetic read over the reals.
On a fresh entry (`d_last` is `{0, 0}`, as the source tests it) the value becomes
`val` and the last-sample time `now`.  Otherwise the value becomes
`(1 - f) * val + f * old` with `f = exp(last - now) / 2`, times in seconds, and
the last-sample time becomes `now`; when `now ≥ last`, `0 < f ≤ 1/2`, and the new
value lies between `val` and `old`, at least as close to `val` as to `old`. -/
theorem DecayingEwma.submit_over_reals (e : DecayingEwma ℝ) (val : Int) (now : timeval) :
    ((e.d_last.tv_sec = 0 ∧ e.d_last.tv_usec = 0) →
      DecayingEwma.submit Real.exp e val now = { d_last := now, d_val := (val : ℝ) }) ∧
    (¬ (e.d_last.tv_sec = 0 ∧ e.d_last.tv_usec = 0) →
      DecayingEwma.submit Real.exp e val now =
        { d_last := now,
          d_val := (1 - Real.exp (makeFloat e.d_last - makeFloat now) / 2) * (val : ℝ) +
            Real.exp (makeFloat e.d_last - makeFloat now) / 2 * e.d_val } ∧
      ((makeFloat e.d_last : ℝ) ≤ makeFloat now →
        0 < Real.exp (makeFloat e.d_last - makeFloat now) / 2 ∧
        Real.exp (makeFloat e.d_last - makeFloat now) / 2 ≤ 1 / 2 ∧
        min (val : ℝ) e.d_val ≤ (DecayingEwma.submit Real.exp e val now).d_val ∧
        (DecayingEwma.submit Real.exp e val now).d_val ≤ max (val : ℝ) e.d_val ∧
        |(DecayingEwma.submit Real.exp e val now).d_val - (val : ℝ)| ≤
          |(DecayingEwma.submit Real.exp e val now).d_val - e.d_val|)) := by
  constructor
  · intro h
    unfold DecayingEwma.submit
    rw [if_pos h]
  · intro h
    have heq : DecayingEwma.submit Real.exp e val now =
        { d_last := now,
          d_val := (1 - Real.exp (makeFloat e.d_last - makeFloat now) / 2) * (val : ℝ) +
            Real.exp (makeFloat e.d_last - makeFloat now) / 2 * e.d_val } := by
      unfold DecayingEwma.submit
      rw [if_neg h]
      simp only [makeFloat_sub]
    refine ⟨heq, ?_⟩
    intro hle
    have hpos : 0 < Real.exp (makeFloat e.d_last - makeFloat now) / 2 :=
      div_pos (Real.exp_pos _) (by norm_num)
    have hhalf : Real.exp (makeFloat e.d_last - makeFloat now) / 2 ≤ 1 / 2 := by
      have : Real.exp (makeFloat e.d_last - makeFloat now) ≤ 1 := by
        rw [← Real.exp_zero]
        exact Real.exp_le_exp.mpr (by linarith)
      linarith
    rw [heq]
    have := weighted_mean_bounds _ (val : ℝ) e.d_val hpos hhalf
    exact ⟨hpos, hhalf, this.1, this.2.1, this.2.2⟩

/-- Witness of C17: a sample of 200 one second after a stored value of 100. -/
theorem DecayingEwma.submit_over_reals_witness :
    0 < Real.exp (makeFloat (⟨10, 0⟩ : timeval) - makeFloat (⟨11, 0⟩ : timeval)) / 2 ∧
    Real.exp (makeFloat (⟨10, 0⟩ : timeval) - makeFloat (⟨11, 0⟩ : timeval)) / 2 ≤ 1 / 2 ∧
    min ((200 : Int) : ℝ) 100 ≤
      (DecayingEwma.submit Real.exp (⟨⟨10, 0⟩, 100⟩ : DecayingEwma ℝ) 200 ⟨11, 0⟩).d_val ∧
    (DecayingEwma.submit Real.exp (⟨⟨10, 0⟩, 100⟩ : DecayingEwma ℝ) 200 ⟨11, 0⟩).d_val ≤
      max ((200 : Int) : ℝ) 100 ∧
    |(DecayingEwma.submit Real.exp (⟨⟨10, 0⟩, 100⟩ : DecayingEwma ℝ) 200 ⟨11, 0⟩).d_val -
        ((200 : Int) : ℝ)| ≤
      |(DecayingEwma.submit Real.exp (⟨⟨10, 0⟩, 100⟩ : DecayingEwma ℝ) 200 ⟨11, 0⟩).d_val - 100| :=
  ((DecayingEwma.submit_over_reals (⟨⟨10, 0⟩, 100⟩ : DecayingEwma ℝ) 200 ⟨11, 0⟩).2
    (by decide)).2 (by norm_num [makeFloat])

namespace SyncRes.DecayingEwmaCollection

variable {Addr R : Type} [LinearOrderedField R]

theorem getLoop_snd (factor : R) (l : List (Addr × DecayingEwma R)) :
    ∀ ret : R, (getLoop factor l ret).2 =
      l.map (fun e => (e.1, { d_last := e.2.d_last, d_val := e.2.d_val * factor })) := by
  induction l with
  | nil => intro ret; rfl
  | cons a l ih =>
    intro ret
    simp only [getLoop, List.map_cons, ih]
    rfl

theorem getLoop_fst_le_ret (factor : R) (l : List (Addr × DecayingEwma R)) :
    ∀ ret : R, (getLoop factor l ret).1 ≤ ret := by
  induction l with
  | nil => intro ret; exact le_refl _
  | cons a l ih =>
    intro ret
    simp only [getLoop]
    refine le_trans (ih _) ?_
    by_cases h : (DecayingEwma.get a.2 factor).1 < ret
    · rw [if_pos h]; exact le_of_lt h
    · rw [if_neg h]

theorem getLoop_fst_le (factor : R) (l : List (Addr × DecayingEwma R)) :
    ∀ ret : R, ∀ e ∈ l, (getLoop factor l ret).1 ≤ e.2.d_val * factor := by
  induction l with
  | nil => intro ret e he; cases he
  | cons a l ih =>
    intro ret e he
    simp only [getLoop]
    rcases List.mem_cons.mp he with h | h
    · subst h
      refine le_trans (getLoop_fst_le_ret factor l _) ?_
      by_cases h : (DecayingEwma.get e.2 factor).1 < ret
      · rw [if_pos h]; exact le_refl _
      · rw [if_neg h]; exact not_lt.mp h
    · exact ih _ e h

theorem getLoop_fst_attained (factor : R) (l : List (Addr × DecayingEwma R)) :
    ∀ ret : R, (getLoop factor l ret).1 = ret ∨
      ∃ e ∈ l, (getLoop factor l ret).1 = e.2.d_val * factor := by
  induction l with
  | nil => intro ret; exact Or.inl rfl
  | cons a l ih =>
    intro ret
    simp only [getLoop]
    rcases ih (if (DecayingEwma.get a.2 factor).1 < ret then (DecayingEwma.get a.2 factor).1
      else ret) with h | ⟨e, he, h⟩
    · by_cases hlt : (DecayingEwma.get a.2 factor).1 < ret
      · rw [if_pos hlt] at h ⊢
        exact Or.inr ⟨a, List.mem_cons_self _ _, h⟩
      · rw [if_neg hlt] at h ⊢
        exact Or.inl h
    · exact Or.inr ⟨e, List.mem_cons_of_mem _ he, h⟩

theorem getLoop_fst_mono (f1 f2 : R) (l : List (Addr × DecayingEwma R))
    (hl : ∀ e ∈ l, e.2.d_val * f2 ≤ e.2.d_val * f1) :
    ∀ r1 r2 : R, r2 ≤ r1 → (getLoop f2 l r2).1 ≤ (getLoop f1 l r1).1 := by
  induction l with
  | nil => intro r1 r2 h; exact h
  | cons a l ih =>
    intro r1 r2 h
    simp only [getLoop]
    apply ih (fun e he => hl e (List.mem_cons_of_mem _ he))
    have ha := hl a (List.mem_cons_self _ _)
    simp only [DecayingEwma.get]
    by_cases h1 : a.2.d_val * f1 < r1
    · rw [if_pos h1]
      by_cases h2 : a.2.d_val * f2 < r2
      · rw [if_pos h2]; exact ha
      · rw [if_neg h2]; exact le_trans (not_lt.mp h2) ha
    · rw [if_neg h1]
      by_cases h2 : a.2.d_val * f2 < r2
      · rw [if_pos h2]; exact le_trans (le_of_lt h2) h
      · rw [if_neg h2]; exact h

/-- The value and the collection that `get` gives on a collection with an
address, in terms of the loop. -/
theorem get_of_ne_nil (expf : R → R) [DecidableEq Addr] (c : DecayingEwmaCollection Addr R)
    (now : timeval) (hne : c.d_collection ≠ []) :
    get expf c now =
      ((getLoop (expf (makeFloat ((if c.d_lastget.tv_sec = 0 ∧ c.d_lastget.tv_usec = 0
            then now else c.d_lastget).sub now) / 60)) c.d_collection FLT_MAX).1,
        { d_collection :=
            (getLoop (expf (makeFloat ((if c.d_lastget.tv_sec = 0 ∧ c.d_lastget.tv_usec = 0
              then now else c.d_lastget).sub now) / 60)) c.d_collection FLT_MAX).2,
          d_lastget := now }) := by
  unfold get
  have h0 : c.d_collection.isEmpty = false := by
    cases hc : c.d_collection with
    | nil => exact absurd hc hne
    | cons a l => rfl
  rw [h0]
  by_cases hl : c.d_lastget.tv_sec = 0 ∧ c.d_lastget.tv_usec = 0
  · simp only [hl, and_self, if_true, getFactor, Bool.false_eq_true, if_false]
  · simp only [hl, if_false, getFactor, Bool.false_eq_true]

end SyncRes.DecayingEwmaCollection

namespace SyncRes.DecayingEwmaCollection

variable {Addr : Type} [DecidableEq Addr]

omit [DecidableEq Addr] in
/-- Over the reals the factor of the loop is `exp((last_get - now) / 60)`, and 1
when `last_get` is unset. -/
theorem loop_factor_eq (c : DecayingEwmaCollection Addr ℝ) (now : timeval) :
    Real.exp (makeFloat ((if c.d_lastget.tv_sec = 0 ∧ c.d_lastget.tv_usec = 0
        then now else c.d_lastget).sub now) / 60) =
      if c.d_lastget.tv_sec = 0 ∧ c.d_lastget.tv_usec = 0 then 1
      else Real.exp ((makeFloat c.d_lastget - makeFloat now) / 60) := by
  by_cases hl : c.d_lastget.tv_sec = 0 ∧ c.d_lastget.tv_usec = 0
  · rw [if_pos hl, if_pos hl, makeFloat_sub, sub_self, zero_div, Real.exp_zero]
  · rw [if_neg hl, if_neg hl, makeFloat_sub]

omit [DecidableEq Addr] in
theorem get_of_nil (expf : ℝ → ℝ) (c : DecayingEwmaCollection Addr ℝ) (now : timeval)
    (h : c.d_collection = []) : get expf c now = (0, c) := by
  unfold get
  rw [h]
  rfl

end SyncRes.DecayingEwmaCollection

/-- C18 fails where a product exceeds `FLT_MAX`.  The collection holds one address
with the value `FLT_MAX` and `last_get = {100, 0}`; `get` at `{99, 0}` has the
factor `exp(1/60)`, above 1, and answers `FLT_MAX`, the value its loop starts
from, which is below the only product `factor * FLT_MAX`: the answer is not the
minimum over the addresses of `factor * value`. -/
theorem SyncRes.DecayingEwmaCollection.get_returns_min_counterexample :
    (SyncRes.DecayingEwmaCollection.get Real.exp
        (⟨[((1 : Nat), ⟨⟨100, 0⟩, FLT_MAX⟩)], ⟨100, 0⟩⟩ : SyncRes.DecayingEwmaCollection Nat ℝ)
        ⟨99, 0⟩).1 = FLT_MAX ∧
    (FLT_MAX : ℝ) <
      Real.exp (((makeFloat (⟨100, 0⟩ : timeval) : ℝ) - makeFloat (⟨99, 0⟩ : timeval)) / 60) *
        FLT_MAX ∧
    ¬ ∃ e ∈ ([((1 : Nat), ⟨⟨100, 0⟩, FLT_MAX⟩)] : List (Nat × DecayingEwma ℝ)),
      (SyncRes.DecayingEwmaCollection.get Real.exp
        (⟨[((1 : Nat), ⟨⟨100, 0⟩, FLT_MAX⟩)], ⟨100, 0⟩⟩ : SyncRes.DecayingEwmaCollection Nat ℝ)
        ⟨99, 0⟩).1 =
      Real.exp (((makeFloat (⟨100, 0⟩ : timeval) : ℝ) - makeFloat (⟨99, 0⟩ : timeval)) / 60) *
        e.2.d_val := by
  have hF : (0 : ℝ) < FLT_MAX := by norm_num [FLT_MAX]
  have hgt : (1 : ℝ) < Real.exp (((makeFloat (⟨100, 0⟩ : timeval) : ℝ) -
      makeFloat (⟨99, 0⟩ : timeval)) / 60) := by
    rw [← Real.exp_zero]
    exact Real.exp_lt_exp.mpr (by norm_num [makeFloat])
  have hprod : (FLT_MAX : ℝ) < Real.exp (((makeFloat (⟨100, 0⟩ : timeval) : ℝ) -
      makeFloat (⟨99, 0⟩ : timeval)) / 60) * FLT_MAX := by
    nlinarith
  have hret : (SyncRes.DecayingEwmaCollection.get Real.exp
      (⟨[((1 : Nat), ⟨⟨100, 0⟩, FLT_MAX⟩)], ⟨100, 0⟩⟩ : SyncRes.DecayingEwmaCollection Nat ℝ)
      ⟨99, 0⟩).1 = FLT_MAX := by
    rw [SyncRes.DecayingEwmaCollection.get_of_ne_nil Real.exp _ _ (by simp),
      SyncRes.DecayingEwmaCollection.loop_factor_eq]
    have hn : ¬ ((100 : Int) = 0 ∧ (0 : Int) = 0) := by decide
    have hn2 : ¬ ((100 : Int) = 0 ∧ True) := by decide
    simp only [hn, if_false, SyncRes.DecayingEwmaCollection.getLoop, DecayingEwma.get]
    simp only [hn2, if_false]
    have c1 : ¬ (FLT_MAX : ℝ) * Real.exp (((makeFloat (⟨100, 0⟩ : timeval) : ℝ) -
        makeFloat (⟨99, 0⟩ : timeval)) / 60) < FLT_MAX := by
      rw [mul_comm]
      exact not_lt.mpr (le_of_lt hprod)
    rw [if_neg c1]
  refine ⟨hret, hprod, ?_⟩
  rintro ⟨e, he, h⟩
  rw [List.mem_singleton] at he
  subst he
  rw [hret] at h
  exact absurd h (ne_of_lt hprod)

/-- C18, amended.  `DecayingEwmaCollection::get(now)` with the arithmetic read
over the reals, `factor` being `exp((last_get - now) / 60)`, or 1 on the first
get (when `last_get` is unset).  On an empty collection it returns 0 and changes
nothing.  On a collection with addresses it returns the smaller of `FLT_MAX` and
the minimum over the addresses of `factor * value`: the answer is at most
`FLT_MAX` and at most every product, and it is `FLT_MAX` or one of the products;
so it is the minimum of the products as soon as one product is at most
`FLT_MAX`.  Every stored value is replaced by `factor` times it (the last-sample
times stay) and `last_get` is set to `now`. -/
theorem SyncRes.DecayingEwmaCollection.get_returns_min {Addr : Type} [DecidableEq Addr]
    (c : SyncRes.DecayingEwmaCollection Addr ℝ) (now : timeval) (factor : ℝ)
    (hfactor : factor =
      if c.d_lastget.tv_sec = 0 ∧ c.d_lastget.tv_usec = 0 then 1
      else Real.exp ((makeFloat c.d_lastget - makeFloat now) / 60)) :
    (c.d_collection = [] → SyncRes.DecayingEwmaCollection.get Real.exp c now = (0, c)) ∧
    (c.d_collection ≠ [] →
      (SyncRes.DecayingEwmaCollection.get Real.exp c now).1 ≤ FLT_MAX ∧
      (∀ e ∈ c.d_collection,
        (SyncRes.DecayingEwmaCollection.get Real.exp c now).1 ≤ factor * e.2.d_val) ∧
      ((SyncRes.DecayingEwmaCollection.get Real.exp c now).1 = FLT_MAX ∨
        ∃ e ∈ c.d_collection,
          (SyncRes.DecayingEwmaCollection.get Real.exp c now).1 = factor * e.2.d_val) ∧
      ((∃ e ∈ c.d_collection, factor * e.2.d_val ≤ FLT_MAX) →
        ∃ e ∈ c.d_collection,
          (SyncRes.DecayingEwmaCollection.get Real.exp c now).1 = factor * e.2.d_val) ∧
      (SyncRes.DecayingEwmaCollection.get Real.exp c now).2.d_collection =
        c.d_collection.map
          (fun e => (e.1, { d_last := e.2.d_last, d_val := factor * e.2.d_val })) ∧
      (SyncRes.DecayingEwmaCollection.get Real.exp c now).2.d_lastget = now) := by
  refine ⟨SyncRes.DecayingEwmaCollection.get_of_nil Real.exp c now, ?_⟩
  intro hne
  rw [SyncRes.DecayingEwmaCollection.get_of_ne_nil Real.exp c now hne,
    SyncRes.DecayingEwmaCollection.loop_factor_eq c now, ← hfactor]
  have hle := SyncRes.DecayingEwmaCollection.getLoop_fst_le factor c.d_collection FLT_MAX
  have hatt : (SyncRes.DecayingEwmaCollection.getLoop factor c.d_collection FLT_MAX).1 =
        FLT_MAX ∨
      ∃ e ∈ c.d_collection,
        (SyncRes.DecayingEwmaCollection.getLoop factor c.d_collection FLT_MAX).1 =
          factor * e.2.d_val := by
    rcases SyncRes.DecayingEwmaCollection.getLoop_fst_attained factor c.d_collection FLT_MAX
      with h | ⟨e, he, h⟩
    · exact Or.inl h
    · exact Or.inr ⟨e, he, by rw [mul_comm]; exact h⟩
  refine ⟨SyncRes.DecayingEwmaCollection.getLoop_fst_le_ret factor c.d_collection FLT_MAX,
    ?_, hatt, ?_, ?_, rfl⟩
  · intro e he
    have := hle e he
    rw [mul_comm]
    exact this
  · rintro ⟨e0, he0, h0⟩
    rcases hatt with h | h
    · refine ⟨e0, he0, ?_⟩
      have h1 := hle e0 he0
      rw [mul_comm] at h1
      show (SyncRes.DecayingEwmaCollection.getLoop factor c.d_collection FLT_MAX).1 = _
      rw [h] at h1 ⊢
      exact le_antisymm h1 h0
    · exact h
  · show (SyncRes.DecayingEwmaCollection.getLoop factor c.d_collection FLT_MAX).2 = _
    rw [SyncRes.DecayingEwmaCollection.getLoop_snd]
    apply List.map_congr_left
    intro e _
    rw [mul_comm]

/-- Witness of C18: a get one minute after the last one, on a collection of two
addresses with the values 30 and 20: the factor is `exp(-1)`, the answer is
`exp(-1) * 20`, and both values are multiplied by the factor. -/
theorem SyncRes.DecayingEwmaCollection.get_returns_min_witness :
    (SyncRes.DecayingEwmaCollection.get Real.exp
        (⟨[((1 : Nat), ⟨⟨5, 0⟩, 30⟩), (2, ⟨⟨6, 0⟩, 20⟩)], ⟨100, 0⟩⟩ :
          SyncRes.DecayingEwmaCollection Nat ℝ) ⟨160, 0⟩).1 = Real.exp (-1) * 20 ∧
    (SyncRes.DecayingEwmaCollection.get Real.exp
        (⟨[((1 : Nat), ⟨⟨5, 0⟩, 30⟩), (2, ⟨⟨6, 0⟩, 20⟩)], ⟨100, 0⟩⟩ :
          SyncRes.DecayingEwmaCollection Nat ℝ) ⟨160, 0⟩).2.d_collection =
      [((1 : Nat), ⟨⟨5, 0⟩, Real.exp (-1) * 30⟩), (2, ⟨⟨6, 0⟩, Real.exp (-1) * 20⟩)] ∧
    (SyncRes.DecayingEwmaCollection.get Real.exp
        (⟨[((1 : Nat), ⟨⟨5, 0⟩, 30⟩), (2, ⟨⟨6, 0⟩, 20⟩)], ⟨100, 0⟩⟩ :
          SyncRes.DecayingEwmaCollection Nat ℝ) ⟨160, 0⟩).2.d_lastget = ⟨160, 0⟩ := by
  have hpos : 0 < Real.exp (-1) := Real.exp_pos _
  have hlt : Real.exp (-1) < 1 := by
    rw [← Real.exp_zero]
    exact Real.exp_lt_exp.mpr (by norm_num)
  have hfac : Real.exp (-1) =
      if (⟨[((1 : Nat), ⟨⟨5, 0⟩, 30⟩), (2, ⟨⟨6, 0⟩, 20⟩)], ⟨100, 0⟩⟩ :
            SyncRes.DecayingEwmaCollection Nat ℝ).d_lastget.tv_sec = 0 ∧
          (⟨[((1 : Nat), ⟨⟨5, 0⟩, 30⟩), (2, ⟨⟨6, 0⟩, 20⟩)], ⟨100, 0⟩⟩ :
            SyncRes.DecayingEwmaCollection Nat ℝ).d_lastget.tv_usec = 0 then 1
      else Real.exp ((makeFloat (⟨[((1 : Nat), ⟨⟨5, 0⟩, 30⟩), (2, ⟨⟨6, 0⟩, 20⟩)], ⟨100, 0⟩⟩ :
            SyncRes.DecayingEwmaCollection Nat ℝ).d_lastget - makeFloat (⟨160, 0⟩ : timeval)) /
          60) := by
    rw [if_neg (by decide)]
    congr 1
    norm_num [makeFloat]
  obtain ⟨_, hle, _, hmin, hcoll, hlast⟩ :=
    (SyncRes.DecayingEwmaCollection.get_returns_min
      (⟨[((1 : Nat), ⟨⟨5, 0⟩, 30⟩), (2, ⟨⟨6, 0⟩, 20⟩)], ⟨100, 0⟩⟩ :
        SyncRes.DecayingEwmaCollection Nat ℝ) ⟨160, 0⟩ (Real.exp (-1)) hfac).2 (by simp)
  refine ⟨?_, ?_, hlast⟩
  · have h20 := hle (2, ⟨⟨6, 0⟩, 20⟩) (by simp)
    obtain ⟨e, he, h⟩ := hmin ⟨(2, ⟨⟨6, 0⟩, 20⟩), by simp, by
      have : (0 : ℝ) < FLT_MAX := by norm_num [FLT_MAX]
      have : (20 : ℝ) ≤ FLT_MAX := by norm_num [FLT_MAX]
      show Real.exp (-1) * 20 ≤ FLT_MAX
      nlinarith⟩
    simp only [List.mem_cons, List.mem_singleton, List.not_mem_nil, or_false] at he
    rcases he with he | he
    · subst he
      rw [h] at h20
      exfalso
      have h30 : Real.exp (-1) * 30 ≤ Real.exp (-1) * 20 := h20
      nlinarith
    · subst he
      exact h
  · rw [hcoll]
    rfl

/-- C19 fails for a negative stored value.  The collection holds one address with
the value -1 (what `submitNSSpeed` stores on a fresh entry for
`usec = 2^32 - 1`) and `last_get = {100, 0}`: `get` at `{100, 0}` gives -1 and
`get` at `{160, 0}` gives `-exp(-1)`, which is larger. -/
theorem SyncRes.DecayingEwmaCollection.get_monotone_counterexample :
    SyncRes.submitNSSpeed Real.exp ([] : SyncRes.nsspeeds_t Nat Nat ℝ) 1 1 (2 ^ 32 - 1)
        ⟨100, 0⟩ = [(1, ⟨[(1, ⟨⟨100, 0⟩, -1⟩)], ⟨0, 0⟩⟩)] ∧
    (makeFloat (⟨100, 0⟩ : timeval) : ℝ) ≤ makeFloat (⟨160, 0⟩ : timeval) ∧
    ¬ ((SyncRes.DecayingEwmaCollection.get Real.exp
          (⟨[((1 : Nat), ⟨⟨100, 0⟩, -1⟩)], ⟨100, 0⟩⟩ : SyncRes.DecayingEwmaCollection Nat ℝ)
          ⟨160, 0⟩).1 ≤
        (SyncRes.DecayingEwmaCollection.get Real.exp
          (⟨[((1 : Nat), ⟨⟨100, 0⟩, -1⟩)], ⟨100, 0⟩⟩ : SyncRes.DecayingEwmaCollection Nat ℝ)
          ⟨100, 0⟩).1) := by
  have hF : (0 : ℝ) < FLT_MAX := by norm_num [FLT_MAX]
  refine ⟨?_, by norm_num [makeFloat], ?_⟩
  · simp [SyncRes.submitNSSpeed, MultiIndex.subscript, MultiIndex.find, MultiIndex.modify,
      SyncRes.DecayingEwmaCollection.submit, SyncRes.DecayingEwmaCollection.init,
      DecayingEwma.submit, DecayingEwma.init]
  · rw [SyncRes.DecayingEwmaCollection.get_of_ne_nil Real.exp _ _ (by simp),
      SyncRes.DecayingEwmaCollection.get_of_ne_nil Real.exp _ _ (by simp),
      SyncRes.DecayingEwmaCollection.loop_factor_eq,
      SyncRes.DecayingEwmaCollection.loop_factor_eq]
    have e1 : Real.exp (((makeFloat (⟨100, 0⟩ : timeval) : ℝ) -
        makeFloat (⟨100, 0⟩ : timeval)) / 60) = 1 := by
      rw [sub_self, zero_div, Real.exp_zero]
    have e2 : Real.exp (((makeFloat (⟨100, 0⟩ : timeval) : ℝ) -
        makeFloat (⟨160, 0⟩ : timeval)) / 60) = Real.exp (-1) := by
      congr 1
      norm_num [makeFloat]
    have hlt : Real.exp (-1) < 1 := by
      rw [← Real.exp_zero]
      exact Real.exp_lt_exp.mpr (by norm_num)
    have hpos : 0 < Real.exp (-1) := Real.exp_pos _
    have hn : ¬ ((100 : Int) = 0 ∧ (0 : Int) = 0) := by decide
    have hn2 : ¬ ((100 : Int) = 0 ∧ True) := by decide
    simp only [hn, if_false, e1, e2, SyncRes.DecayingEwmaCollection.getLoop, DecayingEwma.get]
    simp only [hn2, if_false]
    have c1 : (-1 : ℝ) * Real.exp (-1) < FLT_MAX := by linarith
    have c2 : (-1 : ℝ) * 1 < FLT_MAX := by linarith
    rw [if_pos c1, if_pos c2]
    linarith

/-- C19, amended.  For every EWMA collection whose stored values are all
non-negative (any `last_get`), with the arithmetic read over the reals: `get`
evaluated from the same collection state at `now1 ≤ now2` gives
`get(now2) ≤ get(now1)`. -/
theorem SyncRes.DecayingEwmaCollection.get_monotone_of_nonneg {Addr : Type} [DecidableEq Addr]
    (c : SyncRes.DecayingEwmaCollection Addr ℝ) (now1 now2 : timeval)
    (hnn : ∀ e ∈ c.d_collection, 0 ≤ e.2.d_val)
    (hle : (makeFloat now1 : ℝ) ≤ makeFloat now2) :
    (SyncRes.DecayingEwmaCollection.get Real.exp c now2).1 ≤
      (SyncRes.DecayingEwmaCollection.get Real.exp c now1).1 := by
  by_cases hne : c.d_collection = []
  · rw [SyncRes.DecayingEwmaCollection.get_of_nil Real.exp c now1 hne,
      SyncRes.DecayingEwmaCollection.get_of_nil Real.exp c now2 hne]
  · rw [SyncRes.DecayingEwmaCollection.get_of_ne_nil Real.exp c now1 hne,
      SyncRes.DecayingEwmaCollection.get_of_ne_nil Real.exp c now2 hne,
      SyncRes.DecayingEwmaCollection.loop_factor_eq c now1,
      SyncRes.DecayingEwmaCollection.loop_factor_eq c now2]
    apply SyncRes.DecayingEwmaCollection.getLoop_fst_mono _ _ _ _ FLT_MAX FLT_MAX (le_refl _)
    intro e he
    apply mul_le_mul_of_nonneg_left _ (hnn e he)
    by_cases hl : c.d_lastget.tv_sec = 0 ∧ c.d_lastget.tv_usec = 0
    · rw [if_pos hl, if_pos hl]
    · rw [if_neg hl, if_neg hl]
      apply Real.exp_le_exp.mpr
      apply div_le_div_of_nonneg_right _ (by norm_num : (0 : ℝ) ≤ 60)
      linarith

/-- Witness of the amended C19: two addresses with positive values, read 60
seconds apart. -/
theorem SyncRes.DecayingEwmaCollection.get_monotone_of_nonneg_witness :
    (SyncRes.DecayingEwmaCollection.get Real.exp
        (⟨[((1 : Nat), ⟨⟨100, 0⟩, 30⟩), (2, ⟨⟨100, 0⟩, 20⟩)], ⟨100, 0⟩⟩ :
          SyncRes.DecayingEwmaCollection Nat ℝ) ⟨160, 0⟩).1 ≤
      (SyncRes.DecayingEwmaCollection.get Real.exp
        (⟨[((1 : Nat), ⟨⟨100, 0⟩, 30⟩), (2, ⟨⟨100, 0⟩, 20⟩)], ⟨100, 0⟩⟩ :
          SyncRes.DecayingEwmaCollection Nat ℝ) ⟨100, 0⟩).1 :=
  SyncRes.DecayingEwmaCollection.get_monotone_of_nonneg
    (⟨[((1 : Nat), ⟨⟨100, 0⟩, 30⟩), (2, ⟨⟨100, 0⟩, 20⟩)], ⟨100, 0⟩⟩ :
      SyncRes.DecayingEwmaCollection Nat ℝ) ⟨100, 0⟩ ⟨160, 0⟩
    (by
      intro e he
      simp only [List.mem_cons, List.mem_singleton, List.not_mem_nil, or_false] at he
      rcases he with h | h <;> subst h <;> norm_num)
    (by norm_num [makeFloat])

/-! ## Name-server speeds -/

namespace MultiIndex

variable {ε κ β : Type} [DecidableEq κ]

theorem find_modify_same (key : ε → κ) (f : ε → ε) (hf : ∀ e, key (f e) = key e) (k : κ)
    (c : List ε) : find key (modify key f k c) k = (find key c k).map f := by
  induction c with
  | nil => rfl
  | cons a l ih =>
    by_cases h : key a = k
    · have h1 : key (f a) = k := by rw [hf, h]
      simp [find, modify, h, h1]
    · have e1 : modify key f k (a :: l) = a :: modify key f k l := by simp [modify, h]
      rw [e1]
      simp only [find, List.find?_cons, h, decide_False] at ih ⊢
      exact ih

theorem modify_eq_self (key : ε → κ) (f : ε → ε) (k : κ) (c : List ε)
    (h : ∀ e, find key c k = some e → f e = e) : modify key f k c = c := by
  induction c with
  | nil => rfl
  | cons a l ih =>
    by_cases hk : key a = k
    · have : f a = a := h a (by simp [find, hk])
      simp [modify, hk, this]
    · have hl : ∀ e, find key l k = some e → f e = e := by
        intro e he
        apply h e
        simpa [find, hk] using he
      simp [modify, hk, ih hl]

theorem mem_modify_or (key : ε → κ) (f : ε → ε) (k : κ) (c : List ε) (x : ε) (hx : x ∈ c) :
    x ∈ modify key f k c ∨ f x ∈ modify key f k c := by
  induction c with
  | nil => cases hx
  | cons a l ih =>
    by_cases hk : key a = k
    · rcases List.mem_cons.mp hx with h | h
      · subst h
        right
        simp [modify, hk]
      · left
        simp [modify, hk, h]
    · rcases List.mem_cons.mp hx with h | h
      · subst h
        left
        simp [modify, hk]
      · rcases ih h with h1 | h1
        · left; simp [modify, hk, h1]
        · right; simp [modify, hk, h1]

theorem find_key_eq (key : ε → κ) (c : List ε) (k : κ) (e : ε) (h : find key c k = some e) :
    key e = k := by
  have := List.find?_some h
  simpa using this

theorem subscript_of_find_some (m : List (κ × β)) (k : κ) (dflt : β) (p : κ × β)
    (h : find Prod.fst m k = some p) : subscript m k dflt = m := by
  unfold subscript
  rw [h]

theorem mem_subscript (m : List (κ × β)) (k : κ) (dflt : β) (x : κ × β) (hx : x ∈ m) :
    x ∈ subscript m k dflt := by
  unfold subscript
  cases find Prod.fst m k with
  | some _ => exact hx
  | none => exact List.mem_append_left _ hx

theorem find_subscript (m : List (κ × β)) (k : κ) (dflt : β) :
    ∃ p, find Prod.fst (subscript m k dflt) k = some p := by
  unfold subscript
  cases h : find Prod.fst m k with
  | some p => exact ⟨p, h⟩
  | none =>
    refine ⟨(k, dflt), ?_⟩
    simp only [find] at h ⊢
    rw [List.find?_append, h]
    simp

theorem subscript_idem (m : List (κ × β)) (k : κ) (dflt : β) :
    subscript (subscript m k dflt) k dflt = subscript m k dflt := by
  obtain ⟨p, hp⟩ := find_subscript m k dflt
  exact subscript_of_find_some _ k dflt p hp

end MultiIndex

theorem SyncRes.getNSSpeed_eq {Name Addr R : Type} [DecidableEq Name] [DecidableEq Addr]
    [LinearOrderedField R] (m : SyncRes.nsspeeds_t Name Addr R) (server : Name) (ca : Addr) :
    SyncRes.getNSSpeed m server ca =
      ((match MultiIndex.find Prod.fst
            (MultiIndex.modify Prod.fst
              (fun p : Name × SyncRes.DecayingEwmaCollection Addr R => (p.1,
          ({ d_collection := MultiIndex.subscript p.2.d_collection ca DecayingEwma.init,
             d_lastget := p.2.d_lastget } : SyncRes.DecayingEwmaCollection Addr R)))
              server (MultiIndex.subscript m server SyncRes.DecayingEwmaCollection.init))
            server with
        | none => 0
        | some p =>
          match MultiIndex.find Prod.fst p.2.d_collection ca with
          | none => 0
          | some q => DecayingEwma.peek q.2),
        MultiIndex.modify Prod.fst
          (fun p : Name × SyncRes.DecayingEwmaCollection Addr R => (p.1,
          ({ d_collection := MultiIndex.subscript p.2.d_collection ca DecayingEwma.init,
             d_lastget := p.2.d_lastget } : SyncRes.DecayingEwmaCollection Addr R)))
          server (MultiIndex.subscript m server SyncRes.DecayingEwmaCollection.init)) := rfl

/-- C20. `getNSSpeed(ns, addr)` is a peek.  On a map with at most one collection
per name and one entry per address: for a stored pair it returns the stored
value and leaves the map exactly as it was.  In every case each collection
stored before is still stored with its `last_get` and with every one of its
entries (value and last-sample time) as before, and a second peek returns the
same number and changes nothing further. -/
theorem SyncRes.getNSSpeed_peek {Name Addr R : Type} [DecidableEq Name] [DecidableEq Addr]
    [LinearOrderedField R] (m : SyncRes.nsspeeds_t Name Addr R) (server : Name) (ca : Addr)
    (hu1 : MultiIndex.UniqueKeys Prod.fst m)
    (hu2 : ∀ p ∈ m, MultiIndex.UniqueKeys Prod.fst p.2.d_collection) :
    (∀ coll e, (server, coll) ∈ m → (ca, e) ∈ coll.d_collection →
      (SyncRes.getNSSpeed m server ca).1 = e.d_val ∧ (SyncRes.getNSSpeed m server ca).2 = m) ∧
    (∀ ns coll, (ns, coll) ∈ m →
      ∃ coll1, (ns, coll1) ∈ (SyncRes.getNSSpeed m server ca).2 ∧
        coll1.d_lastget = coll.d_lastget ∧ ∀ q ∈ coll.d_collection, q ∈ coll1.d_collection) ∧
    SyncRes.getNSSpeed (SyncRes.getNSSpeed m server ca).2 server ca =
      ((SyncRes.getNSSpeed m server ca).1, (SyncRes.getNSSpeed m server ca).2) := by
  refine ⟨?_, ?_, ?_⟩
  · intro coll e hc he
    have h1 : MultiIndex.find Prod.fst m server = some (server, coll) :=
      MultiIndex.find_of_mem Prod.fst m hu1 (server, coll) hc
    have h2 : MultiIndex.find Prod.fst coll.d_collection ca = some (ca, e) :=
      MultiIndex.find_of_mem Prod.fst coll.d_collection (hu2 _ hc) (ca, e) he
    have hm1 : MultiIndex.subscript m server SyncRes.DecayingEwmaCollection.init = m :=
      MultiIndex.subscript_of_find_some m server _ _ h1
    have hm2 : MultiIndex.modify Prod.fst
        (fun p : Name × SyncRes.DecayingEwmaCollection Addr R => (p.1,
          ({ d_collection := MultiIndex.subscript p.2.d_collection ca DecayingEwma.init,
             d_lastget := p.2.d_lastget } : SyncRes.DecayingEwmaCollection Addr R)))
        server m = m := by
      apply MultiIndex.modify_eq_self
      intro x hx
      rw [h1] at hx
      cases hx
      simp only
      rw [MultiIndex.subscript_of_find_some coll.d_collection ca _ _ h2]
    unfold SyncRes.getNSSpeed
    simp only [hm1, hm2, h1, h2, DecayingEwma.peek, and_self]
  · intro ns coll hc
    have h1 := MultiIndex.mem_subscript m server
      (SyncRes.DecayingEwmaCollection.init : SyncRes.DecayingEwmaCollection Addr R) _ hc
    rcases MultiIndex.mem_modify_or Prod.fst
        (fun p : Name × SyncRes.DecayingEwmaCollection Addr R => (p.1,
          ({ d_collection := MultiIndex.subscript p.2.d_collection ca DecayingEwma.init,
             d_lastget := p.2.d_lastget } : SyncRes.DecayingEwmaCollection Addr R)))
        server _ _ h1 with h | h
    · exact ⟨coll, h, rfl, fun q hq => hq⟩
    · exact ⟨_, h, rfl, fun q hq => MultiIndex.mem_subscript _ ca _ q hq⟩
  · obtain ⟨p0, hp0⟩ := MultiIndex.find_subscript m server
      (SyncRes.DecayingEwmaCollection.init : SyncRes.DecayingEwmaCollection Addr R)
    have hfind : MultiIndex.find Prod.fst (SyncRes.getNSSpeed m server ca).2 server =
        some (p0.1,
          ({ d_collection := MultiIndex.subscript p0.2.d_collection ca DecayingEwma.init,
             d_lastget := p0.2.d_lastget } : SyncRes.DecayingEwmaCollection Addr R)) := by
      unfold SyncRes.getNSSpeed
      simp only
      rw [MultiIndex.find_modify_same Prod.fst
        (fun p : Name × SyncRes.DecayingEwmaCollection Addr R => (p.1,
          ({ d_collection := MultiIndex.subscript p.2.d_collection ca DecayingEwma.init,
             d_lastget := p.2.d_lastget } : SyncRes.DecayingEwmaCollection Addr R)))
        (fun _ => rfl), hp0]
      rfl
    have hm1 : MultiIndex.subscript (SyncRes.getNSSpeed m server ca).2 server
        SyncRes.DecayingEwmaCollection.init = (SyncRes.getNSSpeed m server ca).2 :=
      MultiIndex.subscript_of_find_some _ server _ _ hfind
    have hm2 : MultiIndex.modify Prod.fst
        (fun p : Name × SyncRes.DecayingEwmaCollection Addr R => (p.1,
          ({ d_collection := MultiIndex.subscript p.2.d_collection ca DecayingEwma.init,
             d_lastget := p.2.d_lastget } : SyncRes.DecayingEwmaCollection Addr R)))
        server (SyncRes.getNSSpeed m server ca).2 = (SyncRes.getNSSpeed m server ca).2 := by
      apply MultiIndex.modify_eq_self
      intro x hx
      rw [hfind] at hx
      cases hx
      simp only
      rw [MultiIndex.subscript_idem]
    rw [SyncRes.getNSSpeed_eq (SyncRes.getNSSpeed m server ca).2 server ca, hm1, hm2]
    rfl

/-- Witness of C20: a peek at a stored pair, with another server stored too. -/
theorem SyncRes.getNSSpeed_peek_witness :
    (SyncRes.getNSSpeed
        ([(1, ⟨[(7, ⟨⟨100, 0⟩, 30⟩), (8, ⟨⟨101, 0⟩, 20⟩)], ⟨102, 0⟩⟩),
          (2, ⟨[(7, ⟨⟨90, 0⟩, 5⟩)], ⟨0, 0⟩⟩)] : SyncRes.nsspeeds_t Nat Nat ℚ) 1 8).1 =
      (⟨⟨101, 0⟩, 20⟩ : DecayingEwma ℚ).d_val ∧
    (SyncRes.getNSSpeed
        ([(1, ⟨[(7, ⟨⟨100, 0⟩, 30⟩), (8, ⟨⟨101, 0⟩, 20⟩)], ⟨102, 0⟩⟩),
          (2, ⟨[(7, ⟨⟨90, 0⟩, 5⟩)], ⟨0, 0⟩⟩)] : SyncRes.nsspeeds_t Nat Nat ℚ) 1 8).2 =
      [(1, ⟨[(7, ⟨⟨100, 0⟩, 30⟩), (8, ⟨⟨101, 0⟩, 20⟩)], ⟨102, 0⟩⟩),
        (2, ⟨[(7, ⟨⟨90, 0⟩, 5⟩)], ⟨0, 0⟩⟩)] :=
  (SyncRes.getNSSpeed_peek
    ([(1, ⟨[(7, ⟨⟨100, 0⟩, 30⟩), (8, ⟨⟨101, 0⟩, 20⟩)], ⟨102, 0⟩⟩),
      (2, ⟨[(7, ⟨⟨90, 0⟩, 5⟩)], ⟨0, 0⟩⟩)] : SyncRes.nsspeeds_t Nat Nat ℚ) 1 8
    (by decide)
    (by
      intro p hp
      simp only [List.mem_cons, List.mem_singleton, List.not_mem_nil, or_false] at hp
      rcases hp with h | h <;> subst h <;> decide)).1
    ⟨[(7, ⟨⟨100, 0⟩, 30⟩), (8, ⟨⟨101, 0⟩, 20⟩)], ⟨102, 0⟩⟩ ⟨⟨101, 0⟩, 20⟩
    (by simp) (by simp)

/-! ## Purging name-server speeds, zones, packet identifiers -/

namespace SyncRes

theorem purgeWalk_eq_filter {Addr R : Type} [DecidableEq Addr] (keep : List (Addr × R))
    (l : List (Addr × DecayingEwma R)) :
    DecayingEwmaCollection.purgeWalk keep l =
      l.filter (fun p => (MultiIndex.find Prod.fst keep p.1).isSome) := by
  induction l with
  | nil => rfl
  | cons a l ih =>
    by_cases h : (MultiIndex.find Prod.fst keep a.1).isSome = true
    · simp [DecayingEwmaCollection.purgeWalk, h, ih]
    · simp [DecayingEwmaCollection.purgeWalk, h, ih]

theorem find_isSome_iff {κ β : Type} [DecidableEq κ] (m : List (κ × β)) (k : κ) :
    (MultiIndex.find Prod.fst m k).isSome = true ↔ ∃ v, (k, v) ∈ m := by
  unfold MultiIndex.find
  rw [List.find?_isSome]
  constructor
  · rintro ⟨x, hx, hk⟩
    have : x.1 = k := by simpa using hk
    exact ⟨x.2, by rw [← this]; exact hx⟩
  · rintro ⟨v, hv⟩
    exact ⟨(k, v), hv, by simp⟩

theorem pruneNSSpeedsWalk_eq_filter {Name Addr R : Type} (limit : Int)
    (m : nsspeeds_t Name Addr R) :
    pruneNSSpeedsWalk limit m =
      m.filter (fun i => !DecayingEwmaCollection.stale i.2 limit) := by
  induction m with
  | nil => rfl
  | cons a l ih =>
    by_cases h : DecayingEwmaCollection.stale a.2 limit = true
    · simp [pruneNSSpeedsWalk, h, ih]
    · simp [pruneNSSpeedsWalk, h, ih]

end SyncRes

/-- C21. `DecayingEwmaCollection::purge(keep)` leaves exactly the entries whose
address is a key of `keep`, in their order and each as it was (value and
last-sample time): an entry is stored afterwards iff it was stored before and
its address is a key of `keep`; `last_get` is unchanged. -/
theorem SyncRes.DecayingEwmaCollection.purge_keeps_exactly {Addr R : Type} [DecidableEq Addr]
    (c : SyncRes.DecayingEwmaCollection Addr R) (keep : List (Addr × R)) :
    (∀ x, x ∈ (SyncRes.DecayingEwmaCollection.purge c keep).d_collection ↔
      x ∈ c.d_collection ∧ ∃ v, (x.1, v) ∈ keep) ∧
    (SyncRes.DecayingEwmaCollection.purge c keep).d_collection =
      c.d_collection.filter (fun p => (MultiIndex.find Prod.fst keep p.1).isSome) ∧
    (SyncRes.DecayingEwmaCollection.purge c keep).d_lastget = c.d_lastget := by
  have h := SyncRes.purgeWalk_eq_filter keep c.d_collection
  refine ⟨?_, h, rfl⟩
  intro x
  show x ∈ SyncRes.DecayingEwmaCollection.purgeWalk keep c.d_collection ↔ _
  rw [h, List.mem_filter, SyncRes.find_isSome_iff]

/-- C22. `DecayingEwmaCollection::stale(cutoff)` is true iff the seconds of
`last_get` are below `cutoff`, and `pruneNSSpeeds(cutoff)` leaves exactly the
collections that are not stale for `cutoff`, in their order and each as it was. -/
theorem SyncRes.pruneNSSpeeds_removes_stale {Name Addr R : Type}
    (m : SyncRes.nsspeeds_t Name Addr R) (cutoff : Int) :
    (∀ c : SyncRes.DecayingEwmaCollection Addr R,
      SyncRes.DecayingEwmaCollection.stale c cutoff = true ↔ c.d_lastget.tv_sec < cutoff) ∧
    (∀ x, x ∈ SyncRes.pruneNSSpeeds m cutoff ↔
      x ∈ m ∧ SyncRes.DecayingEwmaCollection.stale x.2 cutoff = false) ∧
    SyncRes.pruneNSSpeeds m cutoff =
      m.filter (fun i => !SyncRes.DecayingEwmaCollection.stale i.2 cutoff) := by
  have h := SyncRes.pruneNSSpeedsWalk_eq_filter cutoff m
  refine ⟨?_, ?_, h⟩
  · intro c
    simp [SyncRes.DecayingEwmaCollection.stale]
  · intro x
    show x ∈ SyncRes.pruneNSSpeedsWalk cutoff m ↔ _
    rw [h, List.mem_filter]
    simp

/-- C23. For every `AuthDomain`: `isAuth()` holds iff `d_servers` is empty,
`isForward()` is the negation of `isAuth()`, so exactly one of the two holds, and
`shouldRecurse()` is the flag `d_rdForward`. -/
theorem SyncRes.AuthDomain.isAuth_iff_no_servers {Name Addr Record : Type}
    (d : SyncRes.AuthDomain Name Addr Record) :
    (d.isAuth = true ↔ d.d_servers = []) ∧
    d.isForward = !d.isAuth ∧
    (d.isAuth = true ∨ d.isForward = true) ∧
    ¬ (d.isAuth = true ∧ d.isForward = true) ∧
    d.shouldRecurse = d.d_rdForward := by
  refine ⟨?_, rfl, ?_, ?_, rfl⟩
  · simp [SyncRes.AuthDomain.isAuth, List.isEmpty_iff]
  · cases h : d.isAuth <;> simp [SyncRes.AuthDomain.isForward, h]
  · cases h : d.isAuth <;> simp [SyncRes.AuthDomain.isForward, h]

/-- C24. `TimedSet::purge(now)` erases exactly the entries with `ttd < now` and
returns their number: the set afterwards is a permutation of the entries with
`ttd ≥ now`, each as it was, and the returned count is the number of entries with
`ttd < now`, which is also the drop in size.  Nothing with `ttd < now` is left
behind by stopping the walk at the first entry that has not expired. -/
theorem TimedSet.purge_erases_expired {Name : Type} (s : TimedSet Name) (now : Int) :
    ((TimedSet.purge s now).2.d_set).Perm
      (s.d_set.filter (fun e => decide (now ≤ e.d_ttd))) ∧
    (∀ x, x ∈ (TimedSet.purge s now).2.d_set ↔ x ∈ s.d_set ∧ now ≤ x.d_ttd) ∧
    (∀ x ∈ (TimedSet.purge s now).2.d_set, ¬ x.d_ttd < now) ∧
    (TimedSet.purge s now).1 = s.d_set.countP (fun e => decide (e.d_ttd < now)) ∧
    (TimedSet.purge s now).1 + (TimedSet.purge s now).2.d_set.length = s.d_set.length ∧
    (TimedSet.purge s now).2.d_expiry_seconds = s.d_expiry_seconds ∧
    (TimedSet.purge s now).2.d_count = s.d_count := by
  have hset := TimedSet.purge_set s now
  have hmem := TimedSet.mem_purge s now
  have hperm : ((TimedSet.purge s now).2.d_set).Perm
      (s.d_set.filter (fun e => decide (now ≤ e.d_ttd))) := by
    rw [hset]
    exact (MultiIndex.perm_timeIndex TimedSet.Entry.d_ttd s.d_set).filter _
  refine ⟨hperm, hmem, ?_, TimedSet.purge_erased s now, ?_, ?_, ?_⟩
  · intro x hx
    have := ((hmem x).mp hx).2
    omega
  · rw [TimedSet.purge_erased, hperm.length_eq]
    have := TimedSet.length_kept_add_countP s.d_set now
    omega
  · rw [hset]
  · rw [hset]

theorem tieLt3_iff {α β γ : Type} [LinearOrder α] [LinearOrder β] [LinearOrder γ]
    (a1 : α) (a2 : β) (a3 : γ) (b1 : α) (b2 : β) (b3 : γ) :
    tieLt3 a1 a2 a3 b1 b2 b3 = true ↔
      a1 < b1 ∨ (a1 = b1 ∧ (a2 < b2 ∨ (a2 = b2 ∧ a3 < b3))) := by
  unfold tieLt3
  simp only [Bool.or_eq_true, Bool.and_eq_true, Bool.not_eq_true', decide_eq_true_eq,
    decide_eq_false_iff_not]
  constructor
  · rintro (h | ⟨h1, h2⟩)
    · exact Or.inl h
    · rcases lt_or_eq_of_le (not_lt.mp h1) with h | h
      · exact Or.inl h
      · right
        refine ⟨h, ?_⟩
        rcases h2 with h2 | ⟨h2, h3⟩
        · exact Or.inl h2
        · rcases lt_or_eq_of_le (not_lt.mp h2) with h4 | h4
          · exact Or.inl h4
          · exact Or.inr ⟨h4, h3⟩
  · rintro (h | ⟨h1, h2⟩)
    · exact Or.inl h
    · right
      refine ⟨by rw [h1]; exact lt_irrefl _, ?_⟩
      rcases h2 with h2 | ⟨h2, h3⟩
      · exact Or.inl h2
      · exact Or.inr ⟨by rw [h2]; exact lt_irrefl _, h3⟩

/-- When neither triple is below the other, the triples are equal. -/
theorem tieLt3_neither {α β γ : Type} [LinearOrder α] [LinearOrder β] [LinearOrder γ]
    (a1 : α) (a2 : β) (a3 : γ) (b1 : α) (b2 : β) (b3 : γ)
    (h1 : ¬ tieLt3 a1 a2 a3 b1 b2 b3 = true) (h2 : ¬ tieLt3 b1 b2 b3 a1 a2 a3 = true) :
    a1 = b1 ∧ a2 = b2 ∧ a3 = b3 := by
  rw [tieLt3_iff] at h1 h2
  rcases lt_trichotomy a1 b1 with h | h | h
  · exact absurd (Or.inl h) h1
  · subst h
    rcases lt_trichotomy a2 b2 with h | h | h
    · exact absurd (Or.inr ⟨rfl, Or.inl h⟩) h1
    · subst h
      rcases lt_trichotomy a3 b3 with h | h | h
      · exact absurd (Or.inr ⟨rfl, Or.inr ⟨rfl, h⟩⟩) h1
      · exact ⟨rfl, rfl, h⟩
      · exact absurd (Or.inr ⟨rfl, Or.inr ⟨rfl, h⟩⟩) h2
    · exact absurd (Or.inr ⟨rfl, Or.inl h⟩) h2
  · exact absurd (Or.inl h) h2

theorem tieLt3_asymm {α β γ : Type} [LinearOrder α] [LinearOrder β] [LinearOrder γ]
    (a1 : α) (a2 : β) (a3 : γ) (b1 : α) (b2 : β) (b3 : γ)
    (h1 : tieLt3 a1 a2 a3 b1 b2 b3 = true) : ¬ tieLt3 b1 b2 b3 a1 a2 a3 = true := by
  rw [tieLt3_iff] at h1 ⊢
  rintro (h | ⟨h, h2⟩)
  · rcases h1 with h1 | ⟨h1, _⟩
    · exact lt_asymm h h1
    · rw [h1] at h; exact lt_irrefl _ h
  · rcases h1 with h1 | ⟨_, h1⟩
    · rw [h] at h1; exact lt_irrefl _ h1
    · rcases h2 with h2 | ⟨h2, h3⟩
      · rcases h1 with h1 | ⟨h1, _⟩
        · exact lt_asymm h2 h1
        · rw [h1] at h2; exact lt_irrefl _ h2
      · rcases h1 with h1 | ⟨_, h1⟩
        · rw [h2] at h1; exact lt_irrefl _ h1
        · exact lt_asymm h3 h1

theorem PacketIDCompare_iff {Addr Name : Type} [LinearOrder Addr] [LinearOrder Name]
    (a b : PacketID Addr Name) :
    PacketIDCompare a b = true ↔
      a.remote < b.remote ∨ (a.remote = b.remote ∧ (a.tcpsock < b.tcpsock ∨
        (a.tcpsock = b.tcpsock ∧ (a.type < b.type ∨ (a.type = b.type ∧
          (a.domain < b.domain ∨ (a.domain = b.domain ∧ (a.fd < b.fd ∨
            (a.fd = b.fd ∧ a.id < b.id))))))))) := by
  unfold PacketIDCompare
  by_cases h1 : tieLt3 a.remote a.tcpsock a.type b.remote b.tcpsock b.type = true
  · rw [if_pos h1]
    have := (tieLt3_iff _ _ _ _ _ _).mp h1
    constructor
    · intro _
      rcases this with h | ⟨h, h2 | ⟨h2, h3⟩⟩
      · exact Or.inl h
      · exact Or.inr ⟨h, Or.inl h2⟩
      · exact Or.inr ⟨h, Or.inr ⟨h2, Or.inl h3⟩⟩
    · intro _; rfl
  · rw [if_neg h1]
    by_cases h2 : tieLt3 b.remote b.tcpsock b.type a.remote a.tcpsock a.type = true
    · rw [if_pos h2]
      have hb := (tieLt3_iff _ _ _ _ _ _).mp h2
      constructor
      · intro hf; cases hf
      · intro hlex
        exfalso
        rcases hlex with h | ⟨h, h3 | ⟨h3, h4 | ⟨h4, _⟩⟩⟩
        · exact h1 ((tieLt3_iff _ _ _ _ _ _).mpr (Or.inl h))
        · exact h1 ((tieLt3_iff _ _ _ _ _ _).mpr (Or.inr ⟨h, Or.inl h3⟩))
        · exact h1 ((tieLt3_iff _ _ _ _ _ _).mpr (Or.inr ⟨h, Or.inr ⟨h3, h4⟩⟩))
        · rcases hb with hb | ⟨_, hb | ⟨_, hb⟩⟩
          · rw [h] at hb; exact lt_irrefl _ hb
          · rw [h3] at hb; exact lt_irrefl _ hb
          · rw [h4] at hb; exact lt_irrefl _ hb
    · rw [if_neg h2]
      obtain ⟨e1, e2, e3⟩ := tieLt3_neither _ _ _ _ _ _ h1 h2
      rw [tieLt3_iff]
      constructor
      · intro h
        exact Or.inr ⟨e1, Or.inr ⟨e2, Or.inr ⟨e3, h⟩⟩⟩
      · rintro (h | ⟨_, h | ⟨_, h | ⟨_, h⟩⟩⟩)
        · rw [e1] at h; exact absurd h (lt_irrefl _)
        · rw [e2] at h; exact absurd h (lt_irrefl _)
        · rw [e3] at h; exact absurd h (lt_irrefl _)
        · exact h

theorem PacketIDBirthdayCompare_iff {Addr Name : Type} [LinearOrder Addr] [LinearOrder Name]
    (a b : PacketID Addr Name) :
    PacketIDBirthdayCompare a b = true ↔
      a.remote < b.remote ∨ (a.remote = b.remote ∧ (a.tcpsock < b.tcpsock ∨
        (a.tcpsock = b.tcpsock ∧ (a.type < b.type ∨ (a.type = b.type ∧
          a.domain < b.domain))))) := by
  unfold PacketIDBirthdayCompare
  by_cases h1 : tieLt3 a.remote a.tcpsock a.type b.remote b.tcpsock b.type = true
  · rw [if_pos h1]
    have := (tieLt3_iff _ _ _ _ _ _).mp h1
    constructor
    · intro _
      rcases this with h | ⟨h, h2 | ⟨h2, h3⟩⟩
      · exact Or.inl h
      · exact Or.inr ⟨h, Or.inl h2⟩
      · exact Or.inr ⟨h, Or.inr ⟨h2, Or.inl h3⟩⟩
    · intro _; rfl
  · rw [if_neg h1]
    by_cases h2 : tieLt3 b.remote b.tcpsock b.type a.remote a.tcpsock a.type = true
    · rw [if_pos h2]
      have hb := (tieLt3_iff _ _ _ _ _ _).mp h2
      constructor
      · intro hf; cases hf
      · intro hlex
        exfalso
        rcases hlex with h | ⟨h, h3 | ⟨h3, h4 | ⟨h4, _⟩⟩⟩
        · exact h1 ((tieLt3_iff _ _ _ _ _ _).mpr (Or.inl h))
        · exact h1 ((tieLt3_iff _ _ _ _ _ _).mpr (Or.inr ⟨h, Or.inl h3⟩))
        · exact h1 ((tieLt3_iff _ _ _ _ _ _).mpr (Or.inr ⟨h, Or.inr ⟨h3, h4⟩⟩))
        · rcases hb with hb | ⟨_, hb | ⟨_, hb⟩⟩
          · rw [h] at hb; exact lt_irrefl _ hb
          · rw [h3] at hb; exact lt_irrefl _ hb
          · rw [h4] at hb; exact lt_irrefl _ hb
    · rw [if_neg h2]
      obtain ⟨e1, e2, e3⟩ := tieLt3_neither _ _ _ _ _ _ h1 h2
      simp only [decide_eq_true_eq]
      constructor
      · intro h
        exact Or.inr ⟨e1, Or.inr ⟨e2, Or.inr ⟨e3, h⟩⟩⟩
      · rintro (h | ⟨_, h | ⟨_, h | ⟨_, h⟩⟩⟩)
        · rw [e1] at h; exact absurd h (lt_irrefl _)
        · rw [e2] at h; exact absurd h (lt_irrefl _)
        · rw [e3] at h; exact absurd h (lt_irrefl _)
        · exact h

/-- C25. With `ComboAddress` and `DNSName` linearly ordered: `PacketIDCompare` is
the lexicographic strict order on (remote, tcpsock, type, domain, fd, id),
`PacketIDBirthdayCompare` the lexicographic strict order on
(remote, tcpsock, type, domain), and for all `a`, `b`:
`PacketIDBirthdayCompare(a, b)` implies `PacketIDCompare(a, b)`, and
`PacketIDCompare(a, b)` implies not `PacketIDBirthdayCompare(b, a)`. -/
theorem PacketIDCompare_consistent {Addr Name : Type} [LinearOrder Addr] [LinearOrder Name]
    (a b : PacketID Addr Name) :
    (PacketIDCompare a b = true ↔
      Prod.Lex (· < ·) (Prod.Lex (· < ·) (Prod.Lex (· < ·) (Prod.Lex (· < ·)
          (Prod.Lex (· < ·) (· < ·)))))
        (a.remote, a.tcpsock, a.type, a.domain, a.fd, a.id)
        (b.remote, b.tcpsock, b.type, b.domain, b.fd, b.id)) ∧
    (PacketIDBirthdayCompare a b = true ↔
      Prod.Lex (· < ·) (Prod.Lex (· < ·) (Prod.Lex (· < ·) (· < ·)))
        (a.remote, a.tcpsock, a.type, a.domain)
        (b.remote, b.tcpsock, b.type, b.domain)) ∧
    (PacketIDBirthdayCompare a b = true → PacketIDCompare a b = true) ∧
    (PacketIDCompare a b = true → PacketIDBirthdayCompare b a = false) := by
  refine ⟨?_, ?_, ?_, ?_⟩
  · rw [PacketIDCompare_iff]
    simp only [Prod.lex_def]
  · rw [PacketIDBirthdayCompare_iff]
    simp only [Prod.lex_def]
  · rw [PacketIDBirthdayCompare_iff, PacketIDCompare_iff]
    rintro (h | ⟨h, h2 | ⟨h2, h3 | ⟨h3, h4⟩⟩⟩)
    · exact Or.inl h
    · exact Or.inr ⟨h, Or.inl h2⟩
    · exact Or.inr ⟨h, Or.inr ⟨h2, Or.inl h3⟩⟩
    · exact Or.inr ⟨h, Or.inr ⟨h2, Or.inr ⟨h3, Or.inl h4⟩⟩⟩
  · intro hc
    rw [← Bool.not_eq_true, PacketIDBirthdayCompare_iff]
    rw [PacketIDCompare_iff] at hc
    rintro (h | ⟨h, h2 | ⟨h2, h3 | ⟨h3, h4⟩⟩⟩)
    · rcases hc with hc | ⟨hc, _⟩
      · exact lt_asymm h hc
      · rw [hc] at h; exact lt_irrefl _ h
    · rcases hc with hc | ⟨_, hc | ⟨hc, _⟩⟩
      · rw [h] at hc; exact lt_irrefl _ hc
      · exact lt_asymm h2 hc
      · rw [hc] at h2; exact lt_irrefl _ h2
    · rcases hc with hc | ⟨_, hc | ⟨_, hc | ⟨hc, _⟩⟩⟩
      · rw [h] at hc; exact lt_irrefl _ hc
      · rw [h2] at hc; exact lt_irrefl _ hc
      · exact lt_asymm h3 hc
      · rw [hc] at h3; exact lt_irrefl _ h3
    · rcases hc with hc | ⟨_, hc | ⟨_, hc | ⟨_, hc | ⟨hc, _⟩⟩⟩⟩
      · rw [h] at hc; exact lt_irrefl _ hc
      · rw [h2] at hc; exact lt_irrefl _ hc
      · rw [h3] at hc; exact lt_irrefl _ hc
      · exact lt_asymm h4 hc
      · rw [hc] at h4; exact lt_irrefl _ h4

/-- Witness of C25: two packets that differ in `fd` only. -/
theorem PacketIDCompare_consistent_witness :
    PacketIDBirthdayCompare (⟨1, 5, 4, 0, 1, 1⟩ : PacketID Nat Nat) ⟨1, 5, 3, 0, 1, 1⟩ = false :=
  (PacketIDCompare_consistent (⟨1, 5, 3, 0, 1, 1⟩ : PacketID Nat Nat) ⟨1, 5, 4, 0, 1, 1⟩).2.2.2
    (by decide)

/-! ## Two places where the code departs from the claims -/

/-- C27, evaluated on the code.  With one server (name 1) holding one address
(7, value 30): a `getNSSpeed` for the unknown server 2 grows `getNSSpeedsSize()`
from 1 to 2, and a `getNSSpeed` for the unknown address 8 of server 1 stores a
new entry with value 0, after which `get` on that collection answers 0 where it
answered 30 before. -/
theorem SyncRes.getNSSpeed_inserts_defaults :
    SyncRes.getNSSpeedsSize
        ([(1, ⟨[(7, ⟨⟨100, 0⟩, 30⟩)], ⟨0, 0⟩⟩)] : SyncRes.nsspeeds_t Nat Nat ℝ) = 1 ∧
    SyncRes.getNSSpeedsSize
        (SyncRes.getNSSpeed
          ([(1, ⟨[(7, ⟨⟨100, 0⟩, 30⟩)], ⟨0, 0⟩⟩)] : SyncRes.nsspeeds_t Nat Nat ℝ) 2 7).2 = 2 ∧
    (SyncRes.getNSSpeed
        ([(1, ⟨[(7, ⟨⟨100, 0⟩, 30⟩)], ⟨0, 0⟩⟩)] : SyncRes.nsspeeds_t Nat Nat ℝ) 1 8).2 =
      [(1, ⟨[(7, ⟨⟨100, 0⟩, 30⟩), (8, ⟨⟨0, 0⟩, 0⟩)], ⟨0, 0⟩⟩)] ∧
    (SyncRes.DecayingEwmaCollection.get Real.exp
        (⟨[(7, ⟨⟨100, 0⟩, 30⟩)], ⟨0, 0⟩⟩ : SyncRes.DecayingEwmaCollection Nat ℝ)
        ⟨200, 0⟩).1 = 30 ∧
    (SyncRes.DecayingEwmaCollection.get Real.exp
        (⟨[(7, ⟨⟨100, 0⟩, 30⟩), (8, ⟨⟨0, 0⟩, 0⟩)], ⟨0, 0⟩⟩ :
          SyncRes.DecayingEwmaCollection Nat ℝ) ⟨200, 0⟩).1 = 0 := by
  have hF : (30 : ℝ) < FLT_MAX := by norm_num [FLT_MAX]
  refine ⟨rfl, rfl, rfl, ?_, ?_⟩
  · rw [SyncRes.DecayingEwmaCollection.get_of_ne_nil Real.exp _ _ (by simp),
      SyncRes.DecayingEwmaCollection.loop_factor_eq]
    simp only [and_self, if_true, SyncRes.DecayingEwmaCollection.getLoop, DecayingEwma.get,
      mul_one, hF]
  · rw [SyncRes.DecayingEwmaCollection.get_of_ne_nil Real.exp _ _ (by simp),
      SyncRes.DecayingEwmaCollection.loop_factor_eq]
    have h0 : (0 : ℝ) < 30 := by norm_num
    simp only [and_self, if_true, SyncRes.DecayingEwmaCollection.getLoop, DecayingEwma.get,
      mul_one, hF, h0]

/-- The sum of two time values carries the sum of the microseconds in total. -/
theorem timeval_add_total (lhs rhs : timeval) :
    (lhs.add rhs).tv_sec * 1000000 + (lhs.add rhs).tv_usec =
      (lhs.tv_sec * 1000000 + lhs.tv_usec) + (rhs.tv_sec * 1000000 + rhs.tv_usec) := by
  unfold timeval.add normalizeTV
  simp only
  split_ifs <;> simp only [] <;> omega

/-- The difference of two normalized time values is normalized and carries the
difference of the microseconds in total. -/
theorem timeval_sub_normalized (lhs rhs : timeval)
    (hl : 0 ≤ lhs.tv_usec ∧ lhs.tv_usec < 1000000)
    (hr : 0 ≤ rhs.tv_usec ∧ rhs.tv_usec < 1000000) :
    0 ≤ (lhs.sub rhs).tv_usec ∧ (lhs.sub rhs).tv_usec < 1000000 ∧
    (lhs.sub rhs).tv_sec * 1000000 + (lhs.sub rhs).tv_usec =
      (lhs.tv_sec * 1000000 + lhs.tv_usec) - (rhs.tv_sec * 1000000 + rhs.tv_usec) := by
  unfold timeval.sub normalizeTV
  simp only
  split_ifs <;> simp only [] <;> omega

/-- The sum of two normalized time values is normalized unless the microseconds
add up to exactly 1000000. -/
theorem timeval_add_normalized (lhs rhs : timeval)
    (hl : 0 ≤ lhs.tv_usec ∧ lhs.tv_usec < 1000000)
    (hr : 0 ≤ rhs.tv_usec ∧ rhs.tv_usec < 1000000)
    (hne : lhs.tv_usec + rhs.tv_usec ≠ 1000000) :
    0 ≤ (lhs.add rhs).tv_usec ∧ (lhs.add rhs).tv_usec < 1000000 := by
  unfold timeval.add normalizeTV
  simp only
  split_ifs <;> simp only [] <;> omega

/-- C29, evaluated on the code.  Both operands are normalized, and
`{0, 500000} + {0, 500000}` is `{0, 1000000}`: `normalizeTV` tests
`tv_usec > 1000000`, so a sum of exactly 1000000 microseconds stays.  The total
of the microseconds is right. -/
theorem timeval_add_not_normalized :
    timeval.add ⟨0, 500000⟩ ⟨0, 500000⟩ = ⟨0, 1000000⟩ ∧
    ¬ ((timeval.add ⟨0, 500000⟩ ⟨0, 500000⟩).tv_usec < 1000000) ∧
    (timeval.add ⟨0, 500000⟩ ⟨0, 500000⟩).tv_sec * 1000000 +
        (timeval.add ⟨0, 500000⟩ ⟨0, 500000⟩).tv_usec = 500000 + 500000 := by
  decide

/-! ## Stripping a domain suffix -/

theorem toLower_length (s : List Nat) : (toLower s).length = s.length := by
  simp [toLower]

theorem ciWalk_iff (a b : List Nat) (h : a.length = b.length) :
    ciWalk a b = true ↔ toLower a = toLower b := by
  induction a generalizing b with
  | nil =>
    cases b with
    | nil => simp [ciWalk, toLower]
    | cons y b => simp at h
  | cons x a ih =>
    cases b with
    | nil => simp at h
    | cons y b =>
      have hl : a.length = b.length := by simpa using h
      by_cases hxy : dns_tolower x = dns_tolower y
      · have := ih b hl
        simp only [toLower] at this
        simp [ciWalk, toLower, hxy, this]
      · simp [ciWalk, toLower, hxy]

theorem ciEqual_iff (a b : List Nat) : ciEqual a b = true ↔ toLower a = toLower b := by
  unfold ciEqual
  by_cases h : a.length = b.length
  · simp only [ne_eq, h, not_true_eq_false, if_false]
    exact ciWalk_iff a b h
  · simp only [ne_eq, h, not_false_eq_true, if_true]
    constructor
    · intro hf
      cases hf
    · intro he
      exact absurd (by rw [← toLower_length a, he, toLower_length]) h

/-- What "ends with a dot followed by the domain, ignoring case" says of two
strings of bytes. -/
theorem endsOn_iff (q d : List Nat) (hd : d ≠ []) :
    endsOn q d = true ↔
      (toLower q = toLower d ∨
        ∃ pre suf, q = pre ++ 46 :: suf ∧ toLower suf = toLower d) := by
  have hemp : d.isEmpty = false := by
    cases d with
    | nil => exact absurd rfl hd
    | cons x d => rfl
  unfold endsOn
  rw [hemp, Bool.false_or]
  by_cases hci : ciEqual q d = true
  · rw [if_pos hci]
    exact ⟨fun _ => Or.inl ((ciEqual_iff q d).1 hci), fun _ => rfl⟩
  · rw [if_neg hci]
    have hne : ¬ toLower q = toLower d := fun h => hci ((ciEqual_iff q d).2 h)
    by_cases hlen : q.length ≤ d.length
    · rw [if_pos hlen]
      constructor
      · intro hf
        cases hf
      · rintro (h | ⟨pre, suf, hq, hs⟩)
        · exact absurd h hne
        · exfalso
          have h1 : suf.length = d.length := by
            rw [← toLower_length suf, hs, toLower_length]
          have h2 : q.length = pre.length + (suf.length + 1) := by
            rw [hq]
            simp
          omega
    · rw [if_neg hlen]
      have hlt : q.length - d.length - 1 < q.length := by omega
      constructor
      · intro h
        by_cases h46 : q.getD (q.length - d.length - 1) 0 = 46
        · simp only [ne_eq, h46, not_true_eq_false, if_false] at h
          have hl : (q.drop (q.length - d.length - 1 + 1)).length = d.length := by
            rw [List.length_drop]
            omega
          refine Or.inr ⟨q.take (q.length - d.length - 1),
            q.drop (q.length - d.length - 1 + 1), ?_, (ciWalk_iff _ _ hl).1 h⟩
          have hget : q[q.length - d.length - 1] = 46 := by
            rw [List.getD_eq_getElem q 0 hlt] at h46
            exact h46
          rw [← hget, ← List.drop_eq_getElem_cons hlt, List.take_append_drop]
        · simp only [ne_eq, h46, not_false_eq_true, if_true] at h
          cases h
      · rintro (h | ⟨pre, suf, hq, hs⟩)
        · exact absurd h hne
        · have h1 : suf.length = d.length := by
            rw [← toLower_length suf, hs, toLower_length]
          have h2 : q.length - d.length - 1 = pre.length := by
            rw [hq]
            simp
            omega
          rw [h2]
          have h46 : q.getD pre.length 0 = 46 := by
            have hx : (pre ++ 46 :: suf)[pre.length]? = some 46 := by
              rw [List.getElem?_append_right (le_refl _)]
              simp
            rw [hq, List.getD_eq_getElem?_getD, hx]
            rfl
          have hdrop : q.drop (pre.length + 1) = suf := by
            rw [hq]
            simp
          show (if q.getD pre.length 0 ≠ 46 then false
            else ciWalk (q.drop (pre.length + 1)) d) = true
          rw [hdrop]
          simp only [ne_eq, h46, not_true_eq_false, if_false]
          exact (ciWalk_iff suf d h1).2 hs

theorem split_at_dot (pre suf d : List Nat) (hs : toLower suf = toLower d) :
    (pre ++ 46 :: suf).length - d.length - 1 = pre.length ∧
      (pre ++ 46 :: suf).getD pre.length 0 = 46 ∧
      toLower (pre ++ 46 :: suf) ≠ toLower d := by
  have h1 : suf.length = d.length := by
    rw [← toLower_length suf, hs, toLower_length]
  refine ⟨?_, ?_, ?_⟩
  · simp
    omega
  · have hx : (pre ++ 46 :: suf)[pre.length]? = some 46 := by
      rw [List.getElem?_append_right (le_refl _)]
      simp
    rw [List.getD_eq_getElem?_getD, hx]
    rfl
  · intro h
    have h2 : (pre ++ 46 :: suf).length = d.length := by
      rw [← toLower_length (pre ++ 46 :: suf), h, toLower_length]
    simp at h2
    omega

/-- C26: for every `qname` and every non-empty `domain`, `stripDomainSuffix`
returns true exactly when `qname` equals `domain` ignoring ASCII case or is some
prefix, then the byte `'.'` (46), then a suffix equal to `domain` ignoring case;
in the equal case `qname` becomes `"@"` (byte 64), in the other case it becomes
that prefix, and when the answer is false `qname` is left as it was. -/
theorem stripDomainSuffix_spec (qname domain : List Nat) (hd : domain ≠ []) :
    ((stripDomainSuffix qname domain).1 = true ↔
        (toLower qname = toLower domain ∨
          ∃ pre suf, qname = pre ++ 46 :: suf ∧ toLower suf = toLower domain)) ∧
      (toLower qname = toLower domain → stripDomainSuffix qname domain = (true, [64])) ∧
      (∀ pre suf, qname = pre ++ 46 :: suf → toLower suf = toLower domain →
        stripDomainSuffix qname domain = (true, pre)) ∧
      ((stripDomainSuffix qname domain).1 = false →
        (stripDomainSuffix qname domain).2 = qname) := by
  have heq : toLower qname = toLower domain →
      stripDomainSuffix qname domain = (true, [64]) := by
    intro h
    have he : endsOn qname domain = true := (endsOn_iff qname domain hd).2 (Or.inl h)
    unfold stripDomainSuffix
    simp [he, h]
  have hdot : ∀ pre suf, qname = pre ++ 46 :: suf → toLower suf = toLower domain →
      stripDomainSuffix qname domain = (true, pre) := by
    intro pre suf hq hs
    have he : endsOn qname domain = true :=
      (endsOn_iff qname domain hd).2 (Or.inr ⟨pre, suf, hq, hs⟩)
    obtain ⟨h1, h2, h3⟩ := split_at_dot pre suf domain hs
    rw [← hq] at h1 h2 h3
    have htake : qname.take pre.length = pre := by
      rw [hq]
      simp
    unfold stripDomainSuffix
    rw [h1, he, if_neg h3, h2, htake]
    simp
  have hfalse : endsOn qname domain = false →
      stripDomainSuffix qname domain = (false, qname) := by
    intro he
    unfold stripDomainSuffix
    simp [he]
  refine ⟨?_, heq, hdot, ?_⟩
  · constructor
    · intro h
      by_cases he : endsOn qname domain = true
      · exact (endsOn_iff qname domain hd).1 he
      · rw [hfalse (by simpa using he)] at h
        cases h
    · rintro (h | ⟨pre, suf, hq, hs⟩)
      · rw [heq h]
      · rw [hdot pre suf hq hs]
  · intro h
    by_cases he : endsOn qname domain = true
    · rcases (endsOn_iff qname domain hd).1 he with h2 | ⟨pre, suf, hq, hs⟩
      · rw [heq h2] at h
        cases h
      · rw [hdot pre suf hq hs] at h
        cases h
    · rw [hfalse (by simpa using he)]

/-- The name `www.DS9A.nl` is stripped to `www` by the domain `ds9a.nl`, while
`wwwds9a.nl` is turned down and left as it was. -/
theorem stripDomainSuffix_spec_witness :
    [100, 115, 57, 97, 46, 110, 108] ≠ ([] : List Nat) ∧
      stripDomainSuffix [119, 119, 119, 46, 68, 83, 57, 65, 46, 110, 108]
          [100, 115, 57, 97, 46, 110, 108] = (true, [119, 119, 119]) ∧
      stripDomainSuffix [119, 119, 119, 100, 115, 57, 97, 46, 110, 108]
          [100, 115, 57, 97, 46, 110, 108] =
        (false, [119, 119, 119, 100, 115, 57, 97, 46, 110, 108]) :=
  ⟨by decide,
    (stripDomainSuffix_spec [119, 119, 119, 46, 68, 83, 57, 65, 46, 110, 108]
      [100, 115, 57, 97, 46, 110, 108] (by decide)).2.2.1
      [119, 119, 119] [68, 83, 57, 65, 46, 110, 108] rfl (by decide),
    by decide⟩

/-! ## The case-insensitive hash -/

theorem dns_tolower_zero : dns_tolower 0 = 0 := by
  decide

theorem getD_map_tolower (k : List Nat) (i : Nat) :
    (k.map dns_tolower).getD i 0 = dns_tolower (k.getD i 0) := by
  have h := List.getD_map (l := k) (d := 0) (n := i) dns_tolower
  rw [dns_tolower_zero] at h
  exact h

/-- The loop of `burtle` on the lower-cased buffer walks in step with the loop of
`burtleCI` on the buffer itself. -/
theorem burtleLoop_map (fuel : Nat) (k : List Nat) (len a b c : Nat) :
    burtleLoop fuel (k.map dns_tolower) len a b c =
      ((burtleCILoop fuel k len a b c).1.map dns_tolower,
        (burtleCILoop fuel k len a b c).2) := by
  induction fuel generalizing k len a b c with
  | zero => rfl
  | succ fuel ih =>
    by_cases h : len ≥ 12
    · simp only [burtleLoop, burtleCILoop, if_pos h, getD_map_tolower, ← List.map_drop]
      exact ih _ _ _ _ _
    · simp only [burtleLoop, burtleCILoop, if_neg h]

/-- With `len / 12` rounds of fuel or more the loop of `burtle` ends on its own
test, with fewer than 12 bytes left. -/
theorem burtleLoop_exits (fuel : Nat) (k : List Nat) (len a b c : Nat)
    (h : len / 12 ≤ fuel) : (burtleLoop fuel k len a b c).2.1 < 12 := by
  induction fuel generalizing k len a b c with
  | zero =>
    have : len < 12 := by omega
    simpa [burtleLoop] using this
  | succ fuel ih =>
    by_cases hl : len ≥ 12
    · simp only [burtleLoop, if_pos hl]
      exact ih _ _ _ _ _ (by omega)
    · simp only [burtleLoop, if_neg hl]
      omega

/-- With `len / 12` rounds of fuel or more the loop of `burtleCI` ends on its own
test, with fewer than 12 bytes left. -/
theorem burtleCILoop_exits (fuel : Nat) (k : List Nat) (len a b c : Nat)
    (h : len / 12 ≤ fuel) : (burtleCILoop fuel k len a b c).2.1 < 12 := by
  induction fuel generalizing k len a b c with
  | zero =>
    have : len < 12 := by omega
    simpa [burtleCILoop] using this
  | succ fuel ih =>
    by_cases hl : len ≥ 12
    · simp only [burtleCILoop, if_pos hl]
      exact ih _ _ _ _ _ (by omega)
    · simp only [burtleCILoop, if_neg hl]
      omega

theorem burtleCI_eq (k : List Nat) (length initval : Nat) :
    burtleCI k length initval = burtle (k.map dns_tolower) length initval := by
  unfold burtleCI burtle
  rw [burtleLoop_map]
  simp only [getD_map_tolower]

/-- C30: `burtleCI` is `burtle` on the lower-cased key, for every buffer, length
and initial value, with all arithmetic modulo `2 ^ 32`; so two keys that differ
in ASCII letter case only have the same `burtleCI` hash. -/
theorem burtleCI_is_burtle_lowercased (k : List Nat) (length initval : Nat) :
    burtleCI k length initval = burtle (k.map dns_tolower) length initval ∧
      ∀ k2 : List Nat, k.map dns_tolower = k2.map dns_tolower →
        burtleCI k length initval = burtleCI k2 length initval := by
  refine ⟨burtleCI_eq k length initval, ?_⟩
  intro k2 h
  rw [burtleCI_eq k, burtleCI_eq k2, h]

/-- The keys `AbC` and `aBc` hash alike under `burtleCI`. -/
theorem burtleCI_is_burtle_lowercased_witness :
    List.map dns_tolower [65, 98, 67] = List.map dns_tolower [97, 66, 99] ∧
      burtleCI [65, 98, 67] 3 0 = burtleCI [97, 66, 99] 3 0 :=
  ⟨by decide, (burtleCI_is_burtle_lowercased [65, 98, 67] 3 0).2 [97, 66, 99] (by decide)⟩

/-! ## Pruning the throttle map against reading it -/

/-- On a map with at most one entry per key, a lookup of the key of a stored entry
answers true exactly when that entry has `now ≤ ttd` and `count > 0`. -/
theorem Throttle.shouldThrottle_of_mem {Thing : Type} [DecidableEq Thing]
    (c : Throttle.cont_t Thing) (h : MultiIndex.UniqueKeys Throttle.entry_t.thing c)
    (now : Int) (e : Throttle.entry_t Thing) (he : e ∈ c) :
    (Throttle.shouldThrottle c now e.thing).1 = true ↔ now ≤ e.ttd ∧ 0 < e.count := by
  rw [Throttle.shouldThrottle_of_cons c now e.thing e []
    (MultiIndex.entriesFor_eq_singleton_of_mem Throttle.entry_t.thing c h e he)]
  by_cases hc : now > e.ttd ∨ e.count = 0
  · rw [if_pos hc]
    constructor
    · intro hf
      cases hf
    · rintro ⟨h1, h2⟩
      rcases hc with hc | hc <;> omega
  · rw [if_neg hc]
    constructor
    · intro _
      constructor
      · have : ¬ now > e.ttd := fun hh => hc (Or.inl hh)
        omega
      · have : ¬ e.count = 0 := fun hh => hc (Or.inr hh)
        omega
    · intro _
      rfl

/-- A stored entry is removed by `prune` at `now` exactly when `ttd ≤ now`. -/
theorem Throttle.not_mem_prune_iff {Thing : Type}
    (c : Throttle.cont_t Thing) (now : Int) (e : Throttle.entry_t Thing) (he : e ∈ c) :
    e ∉ Throttle.prune c now ↔ e.ttd ≤ now := by
  rw [(Throttle.perm_prune c now).mem_iff, List.mem_filter]
  simp [he]

/-- C28 fails at `now = ttd`.  With the one entry (key 1, `ttd` 100, count 1) and
`now = 100`: `shouldThrottle(100, 1)` answers true, and `prune` run at wall-clock
time 100 removes that very entry. -/
theorem Throttle.prune_removes_live_entry :
    (⟨1, 100, 1⟩ : Throttle.entry_t Nat) ∈ ([⟨1, 100, 1⟩] : Throttle.cont_t Nat) ∧
    (⟨1, 100, 1⟩ : Throttle.entry_t Nat) ∉
      Throttle.prune ([⟨1, 100, 1⟩] : Throttle.cont_t Nat) 100 ∧
    (Throttle.shouldThrottle ([⟨1, 100, 1⟩] : Throttle.cont_t Nat) 100 1).1 = true ∧
    Throttle.prune ([⟨1, 100, 1⟩] : Throttle.cont_t Nat) 100 = [] := by
  decide

/-- C28, amended.  On a map with at most one entry per key, `prune` run at
wall-clock time `now` removes only entries with `ttd ≤ now`.  For a removed entry
with `ttd < now` a lookup of its key at `now` answers false, and a lookup at any
later time answers false whatever the `ttd`; a lookup at `now` itself still
answers true exactly when `ttd = now` and `count > 0`. -/
theorem Throttle.prune_removes_only_expired {Thing : Type} [DecidableEq Thing]
    (c : Throttle.cont_t Thing) (h : MultiIndex.UniqueKeys Throttle.entry_t.thing c)
    (now : Int) (e : Throttle.entry_t Thing) (he : e ∈ c)
    (hrem : e ∉ Throttle.prune c now) :
    e.ttd ≤ now ∧
    (e.ttd < now → (Throttle.shouldThrottle c now e.thing).1 = false) ∧
    ((Throttle.shouldThrottle c now e.thing).1 = true ↔ e.ttd = now ∧ 0 < e.count) ∧
    (∀ later : Int, now < later →
      (Throttle.shouldThrottle c later e.thing).1 = false) := by
  have hle : e.ttd ≤ now := (Throttle.not_mem_prune_iff c now e he).mp hrem
  refine ⟨hle, ?_, ?_, ?_⟩
  · intro hlt
    rw [← Bool.not_eq_true, Throttle.shouldThrottle_of_mem c h now e he]
    rintro ⟨h1, _⟩
    omega
  · rw [Throttle.shouldThrottle_of_mem c h now e he]
    constructor
    · rintro ⟨h1, h2⟩
      exact ⟨le_antisymm hle h1, h2⟩
    · rintro ⟨h1, h2⟩
      exact ⟨le_of_eq h1.symm, h2⟩
  · intro later hlater
    rw [← Bool.not_eq_true, Throttle.shouldThrottle_of_mem c h later e he]
    rintro ⟨h1, _⟩
    omega

/-- Witness of C28: of two entries with `ttd` 100 and 200, `prune` at 150 removes
the first, and a lookup of its key at 150 answers false. -/
theorem Throttle.prune_removes_only_expired_witness :
    (⟨1, 100, 1⟩ : Throttle.entry_t Nat) ∉
      Throttle.prune ([⟨1, 100, 1⟩, ⟨2, 200, 1⟩] : Throttle.cont_t Nat) 150 ∧
    (Throttle.shouldThrottle ([⟨1, 100, 1⟩, ⟨2, 200, 1⟩] : Throttle.cont_t Nat) 150 1).1 =
      false :=
  ⟨by decide,
    (Throttle.prune_removes_only_expired ([⟨1, 100, 1⟩, ⟨2, 200, 1⟩] : Throttle.cont_t Nat)
      (by decide) 150 ⟨1, 100, 1⟩ (by decide) (by decide)).2.1 (by decide)⟩
